import Mathlib

/-!
# Paragon Firewall CE: rule store, access-decision engine, statistics, packet queue

A shallow embedding of `NetworkFilterManager/nf/include/nf/nf.hpp`
(`RulesStorage`, `NetworkFilter`, `PacketList`, `PacketQueue`), of
`nf_manager::RulesUpdated` and `nf_statistics_store` from
`NetworkFilterManager/nf/src/nf.cpp`, of `mcom::StrSplit` from
`libs/mcom/mcom/string.cpp` and of the string coding of `mach::Encoder` and
`mach::Decoder` from `libs/mach/mach/coding.hpp`, followed by theorems about
them.

Modelling conventions.

* Every public operation of `RulesStorage` runs under `lock_`, so an operation
  is one atomic state transformer.
* `std::unordered_map<RuleId, Rule>` is an association list; its iteration order
  (unspecified in C++) is the list order. `std::unordered_set<RuleId>` is a list
  of ids. Statements about diffs are phrased through membership and `Nodup`, so
  they do not depend on the order chosen.
* `SendUpdate` hands a diff to `callback_` asynchronously; an operation returns
  the list of diffs it hands over (zero or one) next to the new state.
* `rules_.at(id)` throws `std::out_of_range` for a missing key; operations
  return `Option`, with `none` standing for that exception.
* `uint64_t` values are natural numbers; the id counter `last_id_++` wraps
  modulo `2^64`.
* A completion callback (`std::function<void(AccessStatus)>`) is an opaque
  token; invoking it is recorded in an effect log.
* `system_clock` time points are integers counting microseconds; the clock
  value read by `HandlePacket` is a parameter of the model.
* The blocks of the serial queue of `PacketQueue` are the steps of a transition
  system; the lists given to `handler_` are recorded in a log.
-/

namespace nf

/-! ## Data model -/

inductive FilterMode where
  | AllAllow
  | AllDeny
  | UnknownAllow
  | UnknownDeny
  | Wait
  deriving DecidableEq, Repr

inductive AccessStatus where
  | Allow
  | Deny
  | Wait
  deriving DecidableEq, Repr

inductive RulePermission where
  | Allow
  | Deny
  deriving DecidableEq, Repr

def ToAccessStatus : RulePermission → AccessStatus
  | .Allow => .Allow
  | .Deny => .Deny

def RulePermissionForMode : FilterMode → RulePermission
  | .AllAllow => .Allow
  | .UnknownAllow => .Allow
  | .AllDeny => .Deny
  | .UnknownDeny => .Deny
  | .Wait => .Deny

structure Application where
  path_ : String
  deriving DecidableEq, Repr

def Application.Path (a : Application) : String := a.path_

/-- A point of `std::chrono::system_clock`, as a tick count. -/
abbrev Time := Int

abbrev RuleId := Nat

structure Rule where
  id_ : RuleId
  permission_ : RulePermission
  application_ : Application
  last_access_ : Option Time
  access_count_ : Nat
  deriving DecidableEq, Repr

namespace Rule

/-- The three-argument constructor: no access time, access count 0. -/
def mk3 (id : RuleId) (permission : RulePermission) (application : Application) : Rule :=
  { id_ := id, permission_ := permission, application_ := application,
    last_access_ := none, access_count_ := 0 }

def Id (r : Rule) : RuleId := r.id_

def Permission (r : Rule) : RulePermission := r.permission_

def Application (r : Rule) : nf.Application := r.application_

def LastAccessTime (r : Rule) : Option Time := r.last_access_

def AccessCount (r : Rule) : Nat := r.access_count_

def WithId (r : Rule) (id : RuleId) : Rule :=
  { id_ := id, permission_ := r.Permission, application_ := r.Application,
    last_access_ := r.LastAccessTime, access_count_ := r.AccessCount }

def WithAccessTime (r : Rule) (time : Time) : Rule :=
  { id_ := r.Id, permission_ := r.Permission, application_ := r.Application,
    last_access_ := some time, access_count_ := r.AccessCount }

def WithPermission (r : Rule) (permission : RulePermission) : Rule :=
  { id_ := r.Id, permission_ := permission, application_ := r.Application,
    last_access_ := r.LastAccessTime, access_count_ := r.AccessCount }

end Rule

structure RulesUpdate where
  is_full : Bool
  updated : List Rule
  removed : List RuleId
  deriving DecidableEq, Repr

/-! ## The rule map (`std::unordered_map<RuleId, Rule>`) -/

abbrev RuleMap := List (RuleId × Rule)

/-- Lookup by key: `find(id)` / `at(id)`; `none` when the key is absent. -/
def mapFind : RuleMap → RuleId → Option Rule
  | [], _ => none
  | (k, v) :: rest, id => if k = id then some v else mapFind rest id

/-- The pair `emplace(id, rule)` then, when the key was already there,
`first->second = rule`: insert or overwrite. -/
def mapAssign : RuleMap → RuleId → Rule → RuleMap
  | [], id, rule => [(id, rule)]
  | (k, v) :: rest, id, rule =>
    if k = id then (k, rule) :: rest else (k, v) :: mapAssign rest id rule

/-- Removal by key: `erase(id)`. -/
def mapErase (m : RuleMap) (id : RuleId) : RuleMap :=
  m.filter (fun kv => decide (kv.1 ≠ id))

/-- Search in iteration order: `std::find_if(begin, end, pred)` on the values. -/
def mapFindIf (m : RuleMap) (pred : Rule → Bool) : Option (RuleId × Rule) :=
  m.find? (fun kv => pred kv.2)

/-- The loop `for id in ids: out.push_back(rules_.at(id))`; `none` when some
`at` throws. -/
def mapAtAll (m : RuleMap) : List RuleId → Option (List Rule)
  | [] => some []
  | id :: ids =>
    match mapFind m id with
    | none => none
    | some r =>
      match mapAtAll m ids with
      | none => none
      | some rs => some (r :: rs)

/-! ## RulesStorage -/

/-- The private `Update` struct: two `unordered_set<RuleId>`. -/
structure Update where
  updated : List RuleId
  removed : List RuleId
  deriving DecidableEq, Repr

def Update.empty : Update := { updated := [], removed := [] }

def Update.Clear (_u : Update) : Update := Update.empty

def Update.IsEmpty (u : Update) : Bool := u.updated.isEmpty && u.removed.isEmpty

/-- Set insertion of `unordered_set::insert`. -/
def setInsert (s : List RuleId) (id : RuleId) : List RuleId :=
  if id ∈ s then s else s ++ [id]

/-- Set removal of `unordered_set::erase`. -/
def setErase (s : List RuleId) (id : RuleId) : List RuleId :=
  s.filter (fun x => decide (x ≠ id))

structure RulesStorage where
  last_id_ : RuleId
  rules_ : RuleMap
  client_connected_ : Bool
  client_reconnected_ : Bool
  in_progress_ : Bool
  pending_update_ : Update
  deriving DecidableEq, Repr

/-- What an operation yields: the new state and the diffs it handed to
`SendUpdate`, in order; `none` when `rules_.at` threw. -/
abbrev Outcome := Option (RulesStorage × List RulesUpdate)

namespace RulesStorage

/-- The freshly constructed store. -/
def init : RulesStorage :=
  { last_id_ := 1, rules_ := [], client_connected_ := false,
    client_reconnected_ := false, in_progress_ := false,
    pending_update_ := Update.empty }

def CollectChanges (s : RulesStorage) (update : Update) : Option RulesUpdate :=
  match mapAtAll s.rules_ update.updated with
  | none => none
  | some rs => some { is_full := false, updated := rs, removed := update.removed }

def FullUpdate (s : RulesStorage) : RulesUpdate :=
  { is_full := true, updated := s.rules_.map Prod.snd, removed := [] }

/-- The block `if (rule.Id() == 0) ...` of `UpdateRule`: the rule that will
be stored, and the value of the counter afterwards. -/
def assignId (s : RulesStorage) (rule : Rule) : Rule × RuleId :=
  if rule.Id = 0 then
    match mapFindIf s.rules_
        (fun stored => decide (rule.Application.Path = stored.Application.Path)) with
    | none => (rule.WithId s.last_id_, (s.last_id_ + 1) % 2 ^ 64)
    | some kv => (kv.2.WithPermission rule.Permission, s.last_id_)
  else (rule, s.last_id_)

def UpdateRule (s : RulesStorage) (rule : Rule) : Outcome :=
  let assigned := s.assignId rule
  let rule := assigned.1
  let s := { s with last_id_ := assigned.2,
                    rules_ := mapAssign s.rules_ rule.Id rule }
  if !s.client_connected_ then
    some (s, [])
  else if s.in_progress_ then
    some ({ s with pending_update_ :=
              { s.pending_update_ with updated := setInsert s.pending_update_.updated rule.Id } },
          [])
  else
    let s := { s with in_progress_ := true }
    match s.CollectChanges { updated := [rule.Id], removed := [] } with
    | none => none
    | some changes => some (s, [changes])

def RemoveRule (s : RulesStorage) (rule_id : RuleId) : Outcome :=
  match mapFind s.rules_ rule_id with
  | none => some (s, [])
  | some _ =>
    let s := { s with rules_ := mapErase s.rules_ rule_id }
    if !s.client_connected_ then
      some (s, [])
    else if s.in_progress_ then
      some ({ s with pending_update_ :=
                { updated := setErase s.pending_update_.updated rule_id,
                  removed := setInsert s.pending_update_.removed rule_id } },
            [])
    else
      let s := { s with in_progress_ := true }
      match s.CollectChanges { updated := [], removed := [rule_id] } with
      | none => none
      | some changes => some (s, [changes])

/-- The mutator `fn(it->second)` is a function on the stored rule. -/
def ModifyInPlace (s : RulesStorage) (rule_id : RuleId) (fn : Rule → Rule) : Outcome :=
  match mapFind s.rules_ rule_id with
  | none => some (s, [])
  | some found =>
    let s := { s with rules_ := mapAssign s.rules_ rule_id (fn found) }
    if !s.client_connected_ then
      some (s, [])
    else if s.in_progress_ then
      some ({ s with pending_update_ :=
                { s.pending_update_ with
                  updated := setInsert s.pending_update_.updated rule_id } },
            [])
    else
      let s := { s with in_progress_ := true }
      match s.CollectChanges { updated := [rule_id], removed := [] } with
      | none => none
      | some changes => some (s, [changes])

def Matching (s : RulesStorage) (predicate : Rule → Bool) : Option Rule :=
  match mapFindIf s.rules_ predicate with
  | none => none
  | some kv => some kv.2

def ClientConnected (s : RulesStorage) : Outcome :=
  if s.in_progress_ then
    some ({ s with client_reconnected_ := true }, [])
  else
    let s := { s with client_connected_ := true, in_progress_ := true }
    some (s, [s.FullUpdate])

def DidSendUpdate (s : RulesStorage) (success : Bool) : Outcome :=
  if s.client_reconnected_ then
    let s := { s with client_connected_ := true, client_reconnected_ := false,
                      pending_update_ := s.pending_update_.Clear }
    some (s, [s.FullUpdate])
  else if !success then
    some ({ s with client_connected_ := false,
                   pending_update_ := s.pending_update_.Clear,
                   in_progress_ := false }, [])
  else if s.pending_update_.IsEmpty then
    some ({ s with in_progress_ := false }, [])
  else
    match s.CollectChanges s.pending_update_ with
    | none => none
    | some changes =>
      some ({ s with pending_update_ := s.pending_update_.Clear }, [changes])

end RulesStorage

/-! ## The observer side: `nf_manager::RulesUpdated` -/

/-- The observer's map after `rules.emplace(rule.Id(), rule)` for each rule
in turn: `emplace` keeps an entry that is already present. -/
def emplaceAll : RuleMap → List Rule → RuleMap
  | m, [] => m
  | m, rule :: rest =>
    match mapFind m rule.Id with
    | none => emplaceAll (m ++ [(rule.Id, rule)]) rest
    | some _ => emplaceAll m rest

/-- The loop `rules.insert_or_assign(rule.Id(), rule)`. -/
def insertOrAssignAll : RuleMap → List Rule → RuleMap
  | m, [] => m
  | m, rule :: rest => insertOrAssignAll (mapAssign m rule.Id rule) rest

/-- The loop `rules.erase(id)`. -/
def eraseAll : RuleMap → List RuleId → RuleMap
  | m, [] => m
  | m, id :: rest => eraseAll (mapErase m id) rest

/-- The private state of `nf_manager` is its rule map. -/
structure nf_manager where
  rules_ : RuleMap
  deriving DecidableEq, Repr

/-- The wire form `nf_rules_update` has the fields of `RulesUpdate`,
with `updated` called `rules`. -/
def nf_manager.RulesUpdated (m : nf_manager) (update : RulesUpdate) : nf_manager :=
  if update.is_full then
    { rules_ := emplaceAll [] update.updated }
  else
    { rules_ := eraseAll (insertOrAssignAll m.rules_ update.updated) update.removed }

/-! ## The store with its outbound channel

The store together with the log of every diff it has handed to `callback_`
and the number of those sends whose completion has run. A completion can only
run for a send that is outstanding. -/

inductive Call where
  | UpdateRule (rule : Rule)
  | RemoveRule (rule_id : RuleId)
  | ModifyInPlace (rule_id : RuleId) (fn : Rule → Rule)
  | ClientConnected
  | DidSendUpdate (success : Bool)

def RulesStorage.call (s : RulesStorage) : Call → Outcome
  | .UpdateRule rule => s.UpdateRule rule
  | .RemoveRule rule_id => s.RemoveRule rule_id
  | .ModifyInPlace rule_id fn => s.ModifyInPlace rule_id fn
  | .ClientConnected => s.ClientConnected
  | .DidSendUpdate success => s.DidSendUpdate success

structure Channel where
  store : RulesStorage
  sent : List RulesUpdate
  completed : Nat
  deriving DecidableEq, Repr

namespace Channel

def init : Channel := { store := RulesStorage.init, sent := [], completed := 0 }

/-- Number of diffs dispatched whose completion has not run yet. -/
def inFlight (c : Channel) : Nat := c.sent.length - c.completed

/-- A call can happen in a channel state: a completion needs an outstanding
send, every other call is always possible. -/
def enabled (c : Channel) : Call → Bool
  | .DidSendUpdate _ => decide (c.completed < c.sent.length)
  | _ => true

/-- One step of the store with its channel; `none` when the call is not
enabled or the operation threw. -/
def step (c : Channel) (a : Call) : Option Channel :=
  if c.enabled a then
    match c.store.call a with
    | none => none
    | some (s, out) =>
      some { store := s, sent := c.sent ++ out,
             completed := match a with
               | .DidSendUpdate _ => c.completed + 1
               | _ => c.completed }
  else none

def run : Channel → List Call → Option Channel
  | c, [] => some c
  | c, a :: rest =>
    match c.step a with
    | none => none
    | some c1 => run c1 rest

end Channel

/-- The observer's map after receiving the diffs in order. -/
def observe : nf_manager → List RulesUpdate → nf_manager
  | m, [] => m
  | m, u :: rest => observe (m.RulesUpdated u) rest

/-! ## NetworkFilter (the access-decision engine) -/

/-- An `AccessCheckCompletion`, as an opaque token. -/
abbrev Completion := Nat

/-- The map `unordered_map<string, vector<AccessCheckCompletion>>`. -/
abbrev CompletionMap := List (String × List Completion)

def compsFind : CompletionMap → String → Option (List Completion)
  | [], _ => none
  | (k, v) :: rest, path => if k = path then some v else compsFind rest path

/-- The pair `insert(path, empty)` then `first->second.emplace_back(completion)`. -/
def compsPush : CompletionMap → String → Completion → CompletionMap
  | [], path, completion => [(path, [completion])]
  | (k, v) :: rest, path, completion =>
    if k = path then (k, v ++ [completion]) :: rest
    else (k, v) :: compsPush rest path completion

def compsErase (m : CompletionMap) (path : String) : CompletionMap :=
  m.filter (fun kv => decide (kv.1 ≠ path))

/-- What an engine operation does to the outside: the `AskPermission` calls
made on the delegate, the completions invoked (with their argument), and the
diffs the rule store dispatched, each in order. -/
structure Effects where
  asked : List Application
  invoked : List (Completion × AccessStatus)
  sent : List RulesUpdate
  deriving DecidableEq, Repr

def Effects.nothing : Effects := { asked := [], invoked := [], sent := [] }

def Effects.append (a b : Effects) : Effects :=
  { asked := a.asked ++ b.asked, invoked := a.invoked ++ b.invoked, sent := a.sent ++ b.sent }

structure NetworkFilter where
  mode_ : FilterMode
  rules_ : RulesStorage
  completions_ : CompletionMap
  deriving DecidableEq, Repr

/-- The result of `CheckAccess`: the returned status, the engine afterwards
and the effects of the call. -/
structure CheckResult where
  status : AccessStatus
  filter : NetworkFilter
  effects : Effects
  deriving DecidableEq, Repr

namespace NetworkFilter

def RuleMatchingApplication (f : NetworkFilter) (application : Application) : Option Rule :=
  f.rules_.Matching (fun rule => decide (rule.Application.Path = application.Path))

def CreateRule (permission : RulePermission) (application : Application) : Rule :=
  Rule.mk3 0 permission application

/-- The argument `now` is the value of `CurrentTime()`. -/
def CreateRuleWithAccessTime (permission : RulePermission) (application : Application)
    (now : Time) : Rule :=
  { id_ := 0, permission_ := permission, application_ := application,
    last_access_ := some now, access_count_ := 1 }

def UpdateRule (f : NetworkFilter) (rule : Rule) : Option (NetworkFilter × List RulesUpdate) :=
  match f.rules_.UpdateRule rule with
  | none => none
  | some (s, out) => some ({ f with rules_ := s }, out)

def UpdateRuleAccessTime (f : NetworkFilter) (rule_id : RuleId) (now : Time) :
    Option (NetworkFilter × List RulesUpdate) :=
  match f.rules_.ModifyInPlace rule_id (fun rule => rule.WithAccessTime now) with
  | none => none
  | some (s, out) => some ({ f with rules_ := s }, out)

/-- The local `new_rule` of `AccessStatusWithNewRule`. -/
def new_rule (permission : RulePermission) (application : Application) (now : Time) : Rule :=
  if permission = RulePermission.Allow then CreateRuleWithAccessTime permission application now
  else CreateRule permission application

def AccessStatusWithNewRule (f : NetworkFilter) (permission : RulePermission)
    (application : Application) (now : Time) :
    Option (AccessStatus × NetworkFilter × List RulesUpdate) :=
  match f.UpdateRule (new_rule permission application now) with
  | none => none
  | some (f1, out) => some (ToAccessStatus permission, f1, out)

/-- The body of `lambda` (held in `shared_completion`): call every completion
queued for `path` with the status, then erase the entry. -/
def sharedCompletion (f : NetworkFilter) (path : String) (permission : AccessStatus) :
    NetworkFilter × List (Completion × AccessStatus) :=
  let queued := (compsFind f.completions_ path).getD []
  ({ f with completions_ := compsErase f.completions_ path },
   queued.map (fun completion => (completion, permission)))

def CheckAccess (f : NetworkFilter) (application : Application) (completion : Completion)
    (now : Time) : Option CheckResult :=
  match f.RuleMatchingApplication application with
  | some rule =>
    if f.mode_ = FilterMode.AllAllow then
      some { status := AccessStatus.Allow, filter := f, effects := Effects.nothing }
    else
      let access_status := ToAccessStatus rule.Permission
      if access_status = AccessStatus.Allow then
        match f.UpdateRuleAccessTime rule.Id now with
        | none => none
        | some (f1, out) =>
          some { status := access_status, filter := f1,
                 effects := { Effects.nothing with sent := out } }
      else
        some { status := access_status, filter := f, effects := Effects.nothing }
  | none =>
    if f.mode_ = FilterMode.Wait then
      let path := application.Path
      let should_ask := (compsFind f.completions_ path).isNone
      let f1 := { f with completions_ := compsPush f.completions_ path completion }
      some { status := AccessStatus.Wait, filter := f1,
             effects := { Effects.nothing with
                          asked := if should_ask then [application] else [] } }
    else
      match f.AccessStatusWithNewRule (RulePermissionForMode f.mode_) application now with
      | none => none
      | some (status, f1, out) =>
        some { status := status, filter := f1,
               effects := { Effects.nothing with sent := out } }

/-- The completion handed to `AskPermission`, run when the observer replies:
cancel the fail-open guard, store a new rule with the permission chosen,
then resolve the queued completions. -/
def askReplied (f : NetworkFilter) (application : Application)
    (permission : RulePermission) (now : Time) : Option (NetworkFilter × Effects) :=
  match f.AccessStatusWithNewRule permission application now with
  | none => none
  | some (access_status, f1, out) =>
    let (f2, calls) := f1.sharedCompletion application.Path access_status
    some (f2, { asked := [], invoked := calls, sent := out })

/-- The handler of the `Deferred` named `caller`, run when the completion
handed to `AskPermission` is destroyed without having been called. -/
def askDropped (f : NetworkFilter) (application : Application) : NetworkFilter × Effects :=
  let (f1, calls) := f.sharedCompletion application.Path AccessStatus.Allow
  (f1, { asked := [], invoked := calls, sent := [] })

/-- The engine constructed with an empty `initial_rules` list over a freshly
constructed store: no request is pending. -/
def initial (mode : FilterMode) : NetworkFilter :=
  { mode_ := mode, rules_ := RulesStorage.init, completions_ := [] }

/-- Consecutive `CheckAccess` calls, each with its application, completion
and clock value: the engine afterwards, the statuses returned and the effects,
in call order. -/
def checkAll : NetworkFilter → List (Application × Completion × Time) →
    Option (NetworkFilter × List AccessStatus × Effects)
  | f, [] => some (f, [], Effects.nothing)
  | f, (application, completion, now) :: rest =>
    match f.CheckAccess application completion now with
    | none => none
    | some res =>
      match checkAll res.filter rest with
      | none => none
      | some (f2, statuses, eff) =>
        some (f2, res.status :: statuses, res.effects.append eff)

end NetworkFilter

/-! ## The calls the firewall makes on its store

`NetworkFilter` calls `ModifyInPlace` only through `UpdateRuleAccessTime`, whose
mutator is `rule = rule.WithAccessTime(time)`. -/

inductive EngineCall where
  | UpdateRule (rule : Rule)
  | RemoveRule (rule_id : RuleId)
  | UpdateRuleAccessTime (rule_id : RuleId) (time : Time)
  | ClientConnected
  | DidSendUpdate (success : Bool)
  deriving DecidableEq, Repr

def EngineCall.toCall : EngineCall → Call
  | .UpdateRule rule => Call.UpdateRule rule
  | .RemoveRule rule_id => Call.RemoveRule rule_id
  | .UpdateRuleAccessTime rule_id time =>
    Call.ModifyInPlace rule_id (fun rule => rule.WithAccessTime time)
  | .ClientConnected => Call.ClientConnected
  | .DidSendUpdate success => Call.DidSendUpdate success

/-- An `UpdateRule` call respects the paths in the map: its rule has id 0
(so the store resolves it by path), or no rule stored under another id has
its path. Every other call qualifies. -/
def respectsPaths (s : RulesStorage) : EngineCall → Bool
  | .UpdateRule rule =>
    decide (rule.Id = 0) ||
      s.rules_.all (fun kv =>
        decide (kv.2.Application.Path = rule.Application.Path → kv.1 = rule.Id))
  | _ => true

/-- A run in which every call respects the paths of the state it meets. -/
def Channel.runRespecting : Channel → List EngineCall → Option Channel
  | c, [] => some c
  | c, a :: rest =>
    if respectsPaths c.store a then
      match c.step a.toCall with
      | none => none
      | some c1 => runRespecting c1 rest
    else none

/-- Keys of the map, in iteration order. -/
def mapKeys (m : RuleMap) : List RuleId := m.map Prod.fst

/-- Application paths of the stored rules, in iteration order. -/
def mapPaths (m : RuleMap) : List String := m.map (fun kv => kv.2.Application.Path)

/-- The rule map is a map: keys are distinct, and every rule sits under its
own id. -/
def RuleMapWF (m : RuleMap) : Prop :=
  (mapKeys m).Nodup ∧ ∀ kv ∈ m, kv.2.Id = kv.1

/-! ## What a call does to the rule map -/

def Call.isMutation : Call → Bool
  | .UpdateRule _ => true
  | .RemoveRule _ => true
  | .ModifyInPlace _ _ => true
  | .ClientConnected => false
  | .DidSendUpdate _ => false

/-- A change to one key of the rule map: the key was written (inserted or
overwritten), or it was erased. -/
inductive Touch where
  | wrote (id : RuleId)
  | erased (id : RuleId)
  deriving DecidableEq, Repr

def Touch.id : Touch → RuleId
  | .wrote id => id
  | .erased id => id

/-- The change a call makes to the rule map of the state it meets: `UpdateRule`
writes the id it resolves; `RemoveRule` erases, and `ModifyInPlace` writes, an
id that is present; any other call changes no key. -/
def touchOf (s : RulesStorage) : Call → Option Touch
  | .UpdateRule rule => some (Touch.wrote (s.assignId rule).1.Id)
  | .RemoveRule rule_id =>
    if (mapFind s.rules_ rule_id).isSome then some (Touch.erased rule_id) else none
  | .ModifyInPlace rule_id _ =>
    if (mapFind s.rules_ rule_id).isSome then some (Touch.wrote rule_id) else none
  | .ClientConnected => none
  | .DidSendUpdate _ => none

/-- Consistency of the store with its channel: the number of diffs in flight
is 1 when `in_progress_` is set and 0 otherwise; `in_progress_` implies
`client_connected_`; `client_reconnected_` implies `in_progress_`; the pending
set is empty when no send is in progress; every pending updated id is a key of
the rule map; and the two pending sets hold no id twice. -/
def Channel.Consistent (c : Channel) : Prop :=
  c.sent.length = c.completed + c.store.in_progress_.toNat ∧
  (c.store.in_progress_ = true → c.store.client_connected_ = true) ∧
  (c.store.client_reconnected_ = true → c.store.in_progress_ = true) ∧
  (c.store.in_progress_ = false → c.store.pending_update_ = Update.empty) ∧
  (∀ id ∈ c.store.pending_update_.updated, mapFind c.store.rules_ id ≠ none) ∧
  c.store.pending_update_.updated.Nodup ∧ c.store.pending_update_.removed.Nodup

/-- An `UpdateRule` call does not bring back a removed id: the id under which
it stores its rule is not in the pending removed set. Every other call
qualifies. -/
def noReadd (s : RulesStorage) : EngineCall → Bool
  | .UpdateRule rule => decide ((s.assignId rule).1.Id ∉ s.pending_update_.removed)
  | _ => true

/-- A run in which no call brings back a removed id. -/
def Channel.runNoReadd : Channel → List EngineCall → Option Channel
  | c, [] => some c
  | c, a :: rest =>
    if noReadd c.store a then
      match c.step a.toCall with
      | none => none
      | some c1 => runNoReadd c1 rest
    else none

/-- The observer is in step with the store: while a client is connected, the
map built from the dispatched diffs agrees with the rule map on every id
outside the pending set, and no pending removed id is a key of the rule map. -/
def Channel.Synced (c : Channel) : Prop :=
  c.store.client_connected_ = true →
    (∀ id, id ∉ c.store.pending_update_.updated → id ∉ c.store.pending_update_.removed →
      mapFind (observe ⟨[]⟩ c.sent).rules_ id = mapFind c.store.rules_ id) ∧
    (∀ id ∈ c.store.pending_update_.removed, mapFind c.store.rules_ id = none)

/-! ## Id assignment -/

/-- The condition under which `UpdateRule` takes the branch
`rule = rule.WithId(last_id_++)`: the rule carries id 0 and the search by path
ends at `rules_.end()`. -/
def RulesStorage.assigns (s : RulesStorage) (rule : Rule) : Bool :=
  decide (rule.Id = 0) &&
    (mapFindIf s.rules_
      (fun stored => decide (rule.Application.Path = stored.Application.Path))).isNone

/-- The id a call makes the store assign, if any: the value of the counter
when an `UpdateRule` call assigns. -/
def assignedBy (s : RulesStorage) : Call → List RuleId
  | .UpdateRule rule => if s.assigns rule then [s.last_id_] else []
  | .RemoveRule _ => []
  | .ModifyInPlace _ _ => []
  | .ClientConnected => []
  | .DidSendUpdate _ => []

/-- The ids the store assigns along a sequence of calls, in order of
assignment. -/
def assignedIds : RulesStorage → List Call → List RuleId
  | _, [] => []
  | s, a :: rest =>
    assignedBy s a ++
      (match s.call a with
        | none => []
        | some (s1, _) => assignedIds s1 rest)

/-! ## nf_statistics_store (`nf.cpp`)

`system_clock` counts microseconds; `time_t` counts seconds. A `uint32_t` or
`uint64_t` value is a natural number, and `+=` on a 64-bit counter as well as
the sum tested by `CopyStatistic` are taken modulo `2^64`. The array
`std::array<Traffic, kMaxHours>` is a list, which every operation keeps at its
length. The clock value `now` read by `HandlePacket` is a parameter. -/

def ticksPerSecond : Int := 1000000

/-- Conversion `system_clock::from_time_t`. -/
def from_time_t (t : Int) : Time := t * ticksPerSecond

/-- Conversion `system_clock::to_time_t`: a `duration_cast` to seconds, which
truncates toward zero. -/
def to_time_t (x : Time) : Int := Int.tdiv x ticksPerSecond

/-- The duration `std::chrono::hours{n}` in clock ticks. -/
def hours (n : Int) : Int := n * (3600 * ticksPerSecond)

def kMaxHours : Nat := 24

inductive NF_DIRECTION where
  | NF_DIRECTION_INCOMING
  | NF_DIRECTION_OUTGOING
  deriving DecidableEq, Repr

structure nf_packet_info_t where
  size : Nat
  direction : NF_DIRECTION
  time : Int
  deriving DecidableEq, Repr

structure nf_statistic_item_t where
  date_from : Int
  date_to : Int
  bytes_incoming : Nat
  bytes_outgoing : Nat
  deriving DecidableEq, Repr

structure Traffic where
  incoming : Nat
  outgoing : Nat
  deriving DecidableEq, Repr

def Traffic.zero : Traffic := { incoming := 0, outgoing := 0 }

/-- The struct `StatisticData`; the field `from` is called `start` here. -/
structure StatisticData where
  start : Time
  traffic_by_hour : List Traffic
  deriving DecidableEq, Repr

/-- The map `unordered_map<string, StatisticData>`. -/
abbrev StatisticMap := List (String × StatisticData)

def statFind : StatisticMap → String → Option StatisticData
  | [], _ => none
  | (k, v) :: rest, path => if k = path then some v else statFind rest path

/-- Write the value of the entry for `path`, adding the entry when absent. -/
def statAssign : StatisticMap → String → StatisticData → StatisticMap
  | [], path, data => [(path, data)]
  | (k, v) :: rest, path, data =>
    if k = path then (k, data) :: rest else (k, v) :: statAssign rest path data

structure nf_statistics_store where
  statistic_ : StatisticMap
  deriving DecidableEq, Repr

/-- Apply `f` to the element at `index`, as a write through a reference to
`traffic_by_hour[index]`. -/
def updateAt : List Traffic → Nat → (Traffic → Traffic) → List Traffic
  | [], _, _ => []
  | t :: rest, 0, f => f t :: rest
  | t :: rest, n + 1, f => t :: updateAt rest n f

/-- The switch on `info.direction`: add the size to one 64-bit counter. -/
def addTraffic (info : nf_packet_info_t) (traffic : Traffic) : Traffic :=
  match info.direction with
  | .NF_DIRECTION_INCOMING =>
    { traffic with incoming := (traffic.incoming + info.size) % 2 ^ 64 }
  | .NF_DIRECTION_OUTGOING =>
    { traffic with outgoing := (traffic.outgoing + info.size) % 2 ^ 64 }

namespace nf_statistics_store

/-- The search `std::find_if` for the first hour whose start is not before
`validity_start`; `none` stands for `traffic_by_hour.end()`. -/
def first_valid_hour (data : StatisticData) (validity_start : Time) : Option Nat :=
  (List.range kMaxHours).find? (fun i => decide (data.start + hours i ≥ validity_start))

/-- The lambda of `HandlePacket` that yields the traffic element to add to: the
data after eviction and the index of the element returned. -/
def selectTraffic (data : StatisticData) (now validity_start : Time) : StatisticData × Nat :=
  match first_valid_hour data validity_start with
  | none =>
    ({ start := now, traffic_by_hour := data.traffic_by_hour.map (fun _ => Traffic.zero) }, 0)
  | some first_valid =>
    if first_valid ≠ 0 then
      let outdated_hours := first_valid
      ({ start := data.start + hours outdated_hours,
         traffic_by_hour :=
           data.traffic_by_hour.drop outdated_hours
             ++ List.replicate outdated_hours Traffic.zero },
       0)
    else (data, first_valid)

def HandlePacket (st : nf_statistics_store) (application_path : String)
    (info : nf_packet_info_t) (now : Time) : nf_statistics_store :=
  if info.size ≤ 0 then st
  else
    let max_interval := hours kMaxHours
    let validity_start := now - max_interval
    if now < max_interval then st
    else
      let data := (statFind st.statistic_ application_path).getD
        { start := from_time_t info.time,
          traffic_by_hour := List.replicate kMaxHours Traffic.zero }
      let selected := selectTraffic data now validity_start
      let data := selected.1
      { statistic_ := statAssign st.statistic_ application_path
          { data with
            traffic_by_hour := updateAt data.traffic_by_hour selected.2 (addTraffic info) } }

/-- The result `nullptr` is `none`; otherwise the items in the order pushed. -/
def CopyStatistic (st : nf_statistics_store) (application_path : String) :
    Option (List nf_statistic_item_t) :=
  match statFind st.statistic_ application_path with
  | none => none
  | some data =>
    some ((List.range kMaxHours).filterMap (fun hour =>
      let traffic := data.traffic_by_hour.getD hour Traffic.zero
      if (traffic.incoming + traffic.outgoing) % 2 ^ 64 = 0 then none
      else some
        { date_from := to_time_t (data.start + hours hour),
          date_to := to_time_t (data.start + hours (hour + 1)),
          bytes_incoming := traffic.incoming,
          bytes_outgoing := traffic.outgoing }))

/-- The freshly constructed store. -/
def init : nf_statistics_store := { statistic_ := [] }

end nf_statistics_store

/-- The retention property as the specification words it, for bucket `i` of an
entry at time `now`: the interval `[from + i h, from + (i+1) h)` starts at or
after `now - 24h` and ends at or before `now`. -/
def bucketWithin (data : StatisticData) (now : Time) (i : Nat) : Bool :=
  decide (now - hours kMaxHours ≤ data.start + hours i) &&
    decide (data.start + hours (i + 1) ≤ now)

/-- The call `HandlePacket(application_path, info)` made `n` times in a row
while the clock reads `now`. -/
def HandlePacketTimes (application_path : String) (info : nf_packet_info_t) (now : Time) :
    Nat → nf_statistics_store → nf_statistics_store
  | 0, st => st
  | n + 1, st =>
    HandlePacketTimes application_path info now n
      (nf_statistics_store.HandlePacket st application_path info now)

/-- The item `CopyStatistic` pushes for bucket `hour` of `data`. -/
def statisticItem (data : StatisticData) (hour : Nat) : nf_statistic_item_t :=
  { date_from := to_time_t (data.start + hours hour),
    date_to := to_time_t (data.start + hours (hour + 1)),
    bytes_incoming := (data.traffic_by_hour.getD hour Traffic.zero).incoming,
    bytes_outgoing := (data.traffic_by_hour.getD hour Traffic.zero).outgoing }

/-! ## Packet, PacketList and PacketQueue (`nf.hpp`)

`PacketList::packets_` is an association list keyed by `Application`, whose
equality is equality of paths. `queue_` is a serial queue: the blocks given to
it (`EnqueuePacket` and the timer handler) run one at a time in the order of
submission, so a `SendPacket` call is modelled with its enqueue step. The
handler's invocation is recorded in a log of the batches handed off. -/

/-- The enum `Packet::Direction`. -/
inductive Packet.Direction where
  | Incoming
  | Outgoing
  deriving DecidableEq, Repr

structure Packet where
  size_ : Nat
  direction_ : Packet.Direction
  application_ : Application
  time_ : Time
  deriving DecidableEq, Repr

/-- The constructor `Packet(size, direction, application)`; `time_` has no
initializer and is the default time point, the epoch. -/
def Packet.mk3 (size : Nat) (direction : Packet.Direction) (application : Application) :
    Packet :=
  { size_ := size, direction_ := direction, application_ := application, time_ := 0 }

def Packet.Size (p : Packet) : Nat := p.size_

def Packet.PacketDirection (p : Packet) : Packet.Direction := p.direction_

def Packet.Application (p : Packet) : Application := p.application_

def Packet.Time (p : Packet) : Time := p.time_

/-- The cast `NF_DIRECTION(packet.PacketDirection())` between the two enums,
by enumerator value. -/
def NF_DIRECTION.ofDirection : Packet.Direction → NF_DIRECTION
  | .Incoming => .NF_DIRECTION_INCOMING
  | .Outgoing => .NF_DIRECTION_OUTGOING

/-- The type `PacketList::StorageType`. -/
abbrev PacketStorage := List (Application × List nf_packet_info_t)

def storageFind : PacketStorage → Application → Option (List nf_packet_info_t)
  | [], _ => none
  | (k, v) :: rest, app => if k = app then some v else storageFind rest app

/-- The call `packets_.insert({app, {}})`: a new empty entry unless the key is
present. -/
def storageInsert : PacketStorage → Application → PacketStorage
  | [], app => [(app, [])]
  | (k, v) :: rest, app => if k = app then (k, v) :: rest else (k, v) :: storageInsert rest app

/-- The call `push_back(info)` on the vector of the entry for `app`. -/
def storagePush : PacketStorage → Application → nf_packet_info_t → PacketStorage
  | [], _, _ => []
  | (k, v) :: rest, app, info =>
    if k = app then (k, v ++ [info]) :: rest else (k, v) :: storagePush rest app info

structure PacketList where
  packets_ : PacketStorage
  deriving DecidableEq, Repr

/-- The record pushed by `PacketList::Add` for a packet. -/
def Packet.info (packet : Packet) : nf_packet_info_t :=
  { size := packet.Size,
    direction := NF_DIRECTION.ofDirection packet.PacketDirection,
    time := to_time_t packet.Time }

def PacketList.Add (l : PacketList) (packet : Packet) : PacketList :=
  let inserted := storageInsert l.packets_ packet.Application
  { packets_ := storagePush inserted packet.Application packet.info }

def PacketList.Clear (_ : PacketList) : PacketList := { packets_ := [] }

def PacketList.IsEmpty (l : PacketList) : Bool := l.packets_.isEmpty

def PacketList.Storage (l : PacketList) : PacketStorage := l.packets_

structure PacketQueue where
  in_progress_ : Bool
  list_ : PacketList
  deriving DecidableEq, Repr

namespace PacketQueue

/-- The queue as constructed. -/
def init : PacketQueue := { in_progress_ := false, list_ := { packets_ := [] } }

def EnqueuePacket (q : PacketQueue) (packet : Packet) : PacketQueue :=
  { q with list_ := q.list_.Add packet }

def SendPacket (q : PacketQueue) (packet : Packet) : PacketQueue :=
  if packet.Size ≤ 0 then q else q.EnqueuePacket packet

def DidSendPacketList (q : PacketQueue) : PacketQueue := { q with in_progress_ := false }

/-- The timer handler: the new state and the list moved into the handler's
block, if any. -/
def HandleTimer (q : PacketQueue) : PacketQueue × Option PacketList :=
  if q.in_progress_ || q.list_.IsEmpty then (q, none)
  else ({ in_progress_ := true, list_ := q.list_.Clear }, some q.list_)

end PacketQueue

/-- One step of a packet queue: a `SendPacket` call, a timer tick, or the end
of a flush (`DidSendPacketList`). -/
inductive QueueEvent where
  | SendPacket (packet : Packet)
  | HandleTimer
  | DidSendPacketList
  deriving DecidableEq, Repr

/-- A packet queue with the log of the lists given to `handler_`, oldest
first. -/
structure QueueTrace where
  queue : PacketQueue
  handed : List PacketList
  deriving DecidableEq, Repr

namespace QueueTrace

def init : QueueTrace := { queue := PacketQueue.init, handed := [] }

def step (t : QueueTrace) : QueueEvent → QueueTrace
  | .SendPacket packet => { t with queue := t.queue.SendPacket packet }
  | .HandleTimer =>
    match t.queue.HandleTimer with
    | (q, none) => { t with queue := q }
    | (q, some list) => { queue := q, handed := t.handed ++ [list] }
  | .DidSendPacketList => { t with queue := t.queue.DidSendPacketList }

def run (t : QueueTrace) (events : List QueueEvent) : QueueTrace :=
  events.foldl step t

end QueueTrace

/-- The packets of `app` among `packets` that `SendPacket` accepts, as the
records `PacketList::Add` pushes, in arrival order. -/
def acceptedOf (app : Application) (packets : List Packet) : List nf_packet_info_t :=
  (packets.filter (fun p => decide (0 < p.Size) && decide (p.Application = app))).map
    Packet.info

/-- The packets carried by the `SendPacket` events of a sequence, in order. -/
def sentPackets : List QueueEvent → List Packet
  | [] => []
  | .SendPacket packet :: rest => packet :: sentPackets rest
  | _ :: rest => sentPackets rest

/-- The records of `app` in a list handed off or in the window. -/
def PacketList.of (l : PacketList) (app : Application) : List nf_packet_info_t :=
  (storageFind l.packets_ app).getD []

/-- Everything recorded for `app`: its lists in the batches handed off, in
hand-off order, followed by its list in the current window. -/
def QueueTrace.recorded (t : QueueTrace) (app : Application) : List nf_packet_info_t :=
  (t.handed.map (fun l => l.of app)).flatten ++ t.queue.list_.of app

/-- A call that leaves the choice of ids to the store: an `UpdateRule` whose
rule carries id 0, a `RemoveRule`, `ClientConnected` or a completion. -/
def Call.leavesIds : Call → Bool
  | .UpdateRule rule => decide (rule.Id = 0)
  | .RemoveRule _ => true
  | .ModifyInPlace _ _ => false
  | .ClientConnected => true
  | .DidSendUpdate _ => true

/-- A sequence of `HandlePacket` calls, each with its application path, its
packet record and the clock value it reads. -/
def HandlePackets (st : nf_statistics_store)
    (calls : List (String × nf_packet_info_t × Time)) : nf_statistics_store :=
  calls.foldl (fun st call => nf_statistics_store.HandlePacket st call.1 call.2.1 call.2.2) st

/-! ## The reference eviction rule

The rule that the specification gives for `HandlePacket`, written after its
words and not after the code, to be compared with `HandlePacket`. -/

/-- The index `i` is the least index in 0..23 whose bucket start
`start + i * 1h` is not older than `now - 24h`. -/
def IsLeastValid (start now : Time) (i : Nat) : Prop :=
  i < 24 ∧ now - hours 24 ≤ start + hours i ∧
    ∀ j, j < i → start + hours j < now - hours 24

/-- Eviction in the words of the specification. Without a valid index all
buckets become zero and the anchor becomes `now`; with the least valid index
`i` the new bucket `j` is the old bucket `j + i` for `j < 24 - i`, the last `i`
buckets are zero and the anchor advances by `i` hours. -/
def reference_eviction (data : StatisticData) (now : Time) : Option Nat → StatisticData
  | none => { start := now, traffic_by_hour := List.replicate 24 Traffic.zero }
  | some i =>
    { start := data.start + hours i,
      traffic_by_hour := (List.range 24).map (fun j =>
        if j < 24 - i then data.traffic_by_hour.getD (j + i) Traffic.zero
        else Traffic.zero) }

/-- Accumulation in the words of the specification: the event's size is added
to the incoming or the outgoing counter of bucket 0, as a 64-bit counter, and
no other counter changes. -/
def reference_accumulate (info : nf_packet_info_t) (ring : StatisticData) : StatisticData :=
  { start := ring.start,
    traffic_by_hour := (List.range 24).map (fun j =>
      let bucket := ring.traffic_by_hour.getD j Traffic.zero
      if j = 0 then
        match info.direction with
        | .NF_DIRECTION_INCOMING =>
          { incoming := (bucket.incoming + info.size) % 2 ^ 64, outgoing := bucket.outgoing }
        | .NF_DIRECTION_OUTGOING =>
          { incoming := bucket.incoming, outgoing := (bucket.outgoing + info.size) % 2 ^ 64 }
      else bucket) }

/-! ## mcom::StrSplit (`libs/mcom/mcom/string.cpp`)

A `std::string` is the list of its characters. The `while` loop runs on a fuel
that `StrSplit` sets to one more than the length of the string: every turn of
the loop moves `pos` past a delimiter, so the loop ends within that many
turns. -/

namespace mcom

/-- The first index at or after `i`, counting the head of the list as `i`, at
which the list has `c`. -/
def indexFrom (c : Char) : List Char → Nat → Option Nat
  | [], _ => none
  | x :: xs, i => if x = c then some i else indexFrom c xs (i + 1)

/-- The call `str.find_first_of(c, pos)`; `none` is `npos`. -/
def find_first_of (str : List Char) (c : Char) (pos : Nat) : Option Nat :=
  indexFrom c (str.drop pos) pos

/-- The call `str.substr(pos, n)`. -/
def substr (str : List Char) (pos n : Nat) : List Char := (str.drop pos).take n

/-- The loop of `StrSplit`, from the state `(pos, comps)`. -/
def StrSplitLoop (str : List Char) (delimiter : Char) :
    Nat → Nat → List (List Char) → List (List Char)
  | 0, _, comps => comps
  | fuel + 1, pos, comps =>
    match find_first_of str delimiter pos with
    | none => comps
    | some dpos =>
      StrSplitLoop str delimiter fuel (dpos + 1) (comps ++ [substr str pos (dpos - pos)])

def StrSplit (str : List Char) (delimiter : Char) : List (List Char) :=
  StrSplitLoop str delimiter (str.length + 1) 0 []

end mcom

/-! ## mach::Encoder and mach::Decoder (`libs/mach/mach/coding.hpp`, `coding.cpp`)

A byte is a natural number; a `std::string_view` is the list of its bytes. The
encoder's `buffer_` is a list of bytes. The decoder reads a memory region, the
list `memory`, and its pointer `address_` is the offset from the start of the
region; a read that leaves the region gives `none`. Integers are stored in the
byte order of the targets, least significant byte first. -/

namespace mach

/-- The function `Align`: `(size + 3) & ~3` on `size_t`. -/
def Align (size : Nat) : Nat := ((size + 3) % 2 ^ 64) &&& (2 ^ 64 - 4)

/-- The object representation of an `int32_t`: four bytes of its value
modulo `2^32`. -/
def int32Bytes (value : Int) : List Nat :=
  let u := (value % 2 ^ 32).toNat
  [u % 256, u / 256 % 256, u / 65536 % 256, u / 16777216 % 256]

/-- The conversion `static_cast<int32_t>(size)` of a `size_t`. -/
def toInt32 (size : Nat) : Int :=
  if size % 2 ^ 32 < 2 ^ 31 then ((size % 2 ^ 32 : Nat) : Int)
  else ((size % 2 ^ 32 : Nat) : Int) - 2 ^ 32

/-- The conversion of an `int32_t` to `size_t`. -/
def toSize (value : Int) : Nat := (value % 2 ^ 64).toNat

structure Encoder where
  buffer_ : List Nat
  deriving DecidableEq, Repr

namespace Encoder

/-- The encoder as constructed: an empty buffer. -/
def init : Encoder := { buffer_ := [] }

/-- The call `AddBytes(bytes, size)` with `size` the number of bytes given:
`resize` appends `Align(size)` zero bytes and `memcpy` writes the bytes over
the first `size` of them. -/
def AddBytes (e : Encoder) (bytes : List Nat) : Encoder :=
  { buffer_ := e.buffer_ ++ bytes ++ List.replicate (Align bytes.length - bytes.length) 0 }

/-- The call `EncodeTrivial(value)` for an `int32_t`, of size 4. -/
def EncodeInt32 (e : Encoder) (value : Int) : Encoder := e.AddBytes (int32Bytes value)

def EncodeString (e : Encoder) (str : List Nat) : Encoder :=
  (e.EncodeInt32 (toInt32 str.length)).AddBytes str

end Encoder

structure Decoder where
  memory : List Nat
  address_ : Nat
  deriving DecidableEq, Repr

namespace Decoder

/-- The returned pointer `base` and the decoder with `address_` advanced. -/
def DecodeBytes (d : Decoder) (size : Nat) : Nat × Decoder :=
  (d.address_, { d with address_ := d.address_ + Align size })

/-- The read `*static_cast<const int32_t *>(base)`. -/
def readInt32 (memory : List Nat) (base : Nat) : Option Int :=
  match memory.drop base with
  | b0 :: b1 :: b2 :: b3 :: _ =>
    let u := b0 + 256 * b1 + 65536 * b2 + 16777216 * b3
    some (if u < 2 ^ 31 then (u : Int) else (u : Int) - 2 ^ 32)
  | _ => none

/-- The call `DecodeTrivial<int32_t>()`. -/
def DecodeInt32 (d : Decoder) : Option (Int × Decoder) :=
  let (base, d1) := d.DecodeBytes 4
  match readInt32 d.memory base with
  | none => none
  | some value => some (value, d1)

/-- The view `{base, size}` returned by `DecodeString`, as the bytes it
denotes. -/
def DecodeString (d : Decoder) : Option (List Nat × Decoder) :=
  match d.DecodeInt32 with
  | none => none
  | some (value, d1) =>
    let size := toSize value
    let (base, d2) := d1.DecodeBytes size
    if base + size ≤ d.memory.length then some ((d.memory.drop base).take size, d2)
    else none

end Decoder

/-- The strings encoded in order. -/
def EncodeStrings (e : Encoder) (strs : List (List Nat)) : Encoder :=
  strs.foldl Encoder.EncodeString e

/-- The call `DecodeString` made `n` times: the strings in the order decoded. -/
def DecodeStrings : Nat → Decoder → Option (List (List Nat) × Decoder)
  | 0, d => some ([], d)
  | n + 1, d =>
    match d.DecodeString with
    | none => none
    | some (str, d1) =>
      match DecodeStrings n d1 with
      | none => none
      | some (strs, d2) => some (str :: strs, d2)

end mach

/-! ## Theorems -/

/-! ### The rule map -/

theorem mapFind_mapAssign_self (m : RuleMap) (id : RuleId) (r : Rule) :
    mapFind (mapAssign m id r) id = some r := by
  induction m with
  | nil => simp [mapAssign, mapFind]
  | cons kv rest ih =>
    obtain ⟨k, v⟩ := kv
    by_cases h : k = id
    · simp [mapAssign, mapFind, h]
    · simp [mapAssign, mapFind, h, ih]

theorem mapFind_mapAssign_ne (m : RuleMap) (id k : RuleId) (r : Rule) (hk : k ≠ id) :
    mapFind (mapAssign m id r) k = mapFind m k := by
  induction m with
  | nil =>
    have : ¬ id = k := fun h => hk h.symm
    simp [mapAssign, mapFind, this]
  | cons kv rest ih =>
    obtain ⟨j, v⟩ := kv
    by_cases h : j = id
    · subst h
      have : ¬ j = k := fun h => hk h.symm
      simp [mapAssign, mapFind, this]
    · by_cases hj : j = k
      · subst hj
        simp [mapAssign, mapFind, h]
      · simp [mapAssign, mapFind, h, hj, ih]

theorem mapFind_mapErase_self (m : RuleMap) (id : RuleId) :
    mapFind (mapErase m id) id = none := by
  induction m with
  | nil => simp [mapErase, mapFind]
  | cons kv rest ih =>
    obtain ⟨k, v⟩ := kv
    by_cases h : k = id
    · simpa [mapErase, List.filter_cons, h] using ih
    · simpa [mapErase, List.filter_cons, h, mapFind] using ih

theorem mapFind_mapErase_ne (m : RuleMap) (id k : RuleId) (hk : k ≠ id) :
    mapFind (mapErase m id) k = mapFind m k := by
  induction m with
  | nil => simp [mapErase, mapFind]
  | cons kv rest ih =>
    obtain ⟨j, v⟩ := kv
    by_cases h : j = id
    · subst h
      have : ¬ j = k := fun h => hk h.symm
      simpa [mapErase, List.filter_cons, mapFind, this] using ih
    · by_cases hj : j = k
      · subst hj
        simp [mapErase, List.filter_cons, h, mapFind]
      · simpa [mapErase, List.filter_cons, h, mapFind, hj] using ih

theorem mapAtAll_singleton (m : RuleMap) (id : RuleId) (r : Rule)
    (h : mapFind m id = some r) : mapAtAll m [id] = some [r] := by
  simp [mapAtAll, h]

/-! ### Operations of the store never throw when they collect one id -/

theorem UpdateRule_isSome (s : RulesStorage) (rule : Rule) :
    ∃ s1 out, s.UpdateRule rule = some (s1, out) := by
  unfold RulesStorage.UpdateRule
  cases hc : s.client_connected_ <;> cases hp : s.in_progress_ <;>
    simp [hc, hp, RulesStorage.CollectChanges, mapAtAll, mapFind_mapAssign_self]

theorem RemoveRule_isSome (s : RulesStorage) (rule_id : RuleId) :
    ∃ s1 out, s.RemoveRule rule_id = some (s1, out) := by
  unfold RulesStorage.RemoveRule
  cases hf : mapFind s.rules_ rule_id <;>
    cases hc : s.client_connected_ <;> cases hp : s.in_progress_ <;>
    simp [hc, hp, RulesStorage.CollectChanges, mapAtAll]

theorem ModifyInPlace_isSome (s : RulesStorage) (rule_id : RuleId) (fn : Rule → Rule) :
    ∃ s1 out, s.ModifyInPlace rule_id fn = some (s1, out) := by
  unfold RulesStorage.ModifyInPlace
  cases hf : mapFind s.rules_ rule_id <;>
    cases hc : s.client_connected_ <;> cases hp : s.in_progress_ <;>
    simp [hc, hp, RulesStorage.CollectChanges, mapAtAll, mapFind_mapAssign_self]

/-! ### CheckAccess -/

theorem UpdateRuleAccessTime_some (f : NetworkFilter) (rule_id : RuleId) (now : Time) :
    ∃ f1 out, f.UpdateRuleAccessTime rule_id now = some (f1, out) ∧
      f1.completions_ = f.completions_ ∧ f1.mode_ = f.mode_ := by
  obtain ⟨s1, out, h⟩ :=
    ModifyInPlace_isSome f.rules_ rule_id (fun rule => rule.WithAccessTime now)
  exact ⟨{ f with rules_ := s1 }, out, by simp [NetworkFilter.UpdateRuleAccessTime, h], rfl, rfl⟩

theorem AccessStatusWithNewRule_some (f : NetworkFilter) (permission : RulePermission)
    (application : Application) (now : Time) :
    ∃ s1 out, f.rules_.UpdateRule (NetworkFilter.new_rule permission application now)
        = some (s1, out) ∧
      f.AccessStatusWithNewRule permission application now
        = some (ToAccessStatus permission, { f with rules_ := s1 }, out) := by
  obtain ⟨s1, out, h⟩ :=
    UpdateRule_isSome f.rules_ (NetworkFilter.new_rule permission application now)
  refine ⟨s1, out, h, ?_⟩
  simp [NetworkFilter.AccessStatusWithNewRule, NetworkFilter.UpdateRule, h]

theorem compsFind_compsPush_self (m : CompletionMap) (path : String) (c : Completion) :
    compsFind (compsPush m path c) path = some ((compsFind m path).getD [] ++ [c]) := by
  induction m with
  | nil => simp [compsPush, compsFind]
  | cons kv rest ih =>
    obtain ⟨k, v⟩ := kv
    by_cases h : k = path
    · simp [compsPush, compsFind, h]
    · simp [compsPush, compsFind, h, ih]

theorem compsFind_compsErase_self (m : CompletionMap) (path : String) :
    compsFind (compsErase m path) path = none := by
  induction m with
  | nil => simp [compsErase, compsFind]
  | cons kv rest ih =>
    obtain ⟨k, v⟩ := kv
    by_cases h : k = path
    · simpa [compsErase, List.filter_cons, h] using ih
    · simpa [compsErase, List.filter_cons, h, compsFind] using ih

theorem RuleMatchingApplication_congr (f g : NetworkFilter) (a b : Application)
    (hr : f.rules_.rules_ = g.rules_.rules_) (hp : a.Path = b.Path) :
    f.RuleMatchingApplication a = g.RuleMatchingApplication b := by
  simp [NetworkFilter.RuleMatchingApplication, RulesStorage.Matching, hr, hp]

theorem CheckAccess_wait (f : NetworkFilter) (application : Application)
    (completion : Completion) (now : Time) (hmode : f.mode_ = FilterMode.Wait)
    (hno : f.RuleMatchingApplication application = none) :
    f.CheckAccess application completion now =
      some { status := AccessStatus.Wait,
             filter := { f with completions_ :=
                           compsPush f.completions_ application.Path completion },
             effects := { asked := if (compsFind f.completions_ application.Path).isNone
                                   then [application] else [],
                          invoked := [], sent := [] } } := by
  simp [NetworkFilter.CheckAccess, hmode, hno, Effects.nothing]

theorem checkAll_wait (path : String) :
    ∀ (calls : List (Application × Completion × Time)) (f : NetworkFilter),
      f.mode_ = FilterMode.Wait →
      (∀ a : Application, a.Path = path → f.RuleMatchingApplication a = none) →
      (∀ c ∈ calls, c.1.Path = path) →
      ∃ f1 eff, f.checkAll calls
          = some (f1, List.replicate calls.length AccessStatus.Wait, eff) ∧
        f1.mode_ = f.mode_ ∧ f1.rules_ = f.rules_ ∧
        eff.invoked = [] ∧ eff.sent = [] ∧
        eff.asked = (if (compsFind f.completions_ path).isNone
                     then (calls.take 1).map (fun c => c.1) else []) ∧
        compsFind f1.completions_ path =
          (if calls = [] then compsFind f.completions_ path
           else some ((compsFind f.completions_ path).getD []
                        ++ calls.map (fun c => c.2.1))) := by
  intro calls
  induction calls with
  | nil =>
    intro f _ _ _
    exact ⟨f, Effects.nothing, by simp [NetworkFilter.checkAll], rfl, rfl, rfl, rfl,
      by simp [Effects.nothing], by simp⟩
  | cons c rest ih =>
    intro f hmode hno hpath
    obtain ⟨application, completion, now⟩ := c
    have hp : application.Path = path := hpath _ (List.mem_cons_self _ _)
    have h1 := CheckAccess_wait f application completion now hmode (hno _ hp)
    obtain ⟨f1, eff, hrun, hm1, hr1, hinv, hsent, hasked, hfind⟩ :=
      ih { f with completions_ := compsPush f.completions_ application.Path completion }
        hmode
        (fun a ha => by
          rw [← hno a ha]
          exact RuleMatchingApplication_congr _ _ _ _ rfl rfl)
        (fun c hc => hpath c (List.mem_cons_of_mem _ hc))
    subst hp
    simp only [compsFind_compsPush_self] at hasked hfind
    refine ⟨f1, Effects.append
        { asked := if (compsFind f.completions_ application.Path).isNone
                   then [application] else [],
          invoked := [], sent := [] } eff, ?_, hm1, hr1, ?_, ?_, ?_, ?_⟩
    · simp [NetworkFilter.checkAll, h1, hrun, List.replicate_succ]
    · simp [Effects.append, hinv]
    · simp [Effects.append, hsent]
    · simp [Effects.append, hasked]
    · rw [hfind]
      by_cases hrest : rest = []
      · simp [hrest]
      · simp [hrest]

theorem mapFindIf_eq_none (m : RuleMap) (pred : Rule → Bool) :
    mapFindIf m pred = none ↔ ∀ kv ∈ m, pred kv.2 = false := by
  simp [mapFindIf, List.find?_eq_none]

theorem mapFindIf_mapAssign_new (m : RuleMap) (pred : Rule → Bool) (id : RuleId) (r : Rule)
    (hnone : mapFindIf m pred = none) (hr : pred r = true) :
    mapFindIf (mapAssign m id r) pred = some (id, r) := by
  induction m with
  | nil => simp [mapAssign, mapFindIf, hr]
  | cons kv rest ih =>
    obtain ⟨k, v⟩ := kv
    have hv : pred v = false := (mapFindIf_eq_none _ _).1 hnone (k, v) (List.mem_cons_self _ _)
    have hrest : mapFindIf rest pred = none :=
      (mapFindIf_eq_none _ _).2 fun kv hkv =>
        (mapFindIf_eq_none _ _).1 hnone kv (List.mem_cons_of_mem _ hkv)
    by_cases h : k = id
    · subst h
      simp [mapAssign, mapFindIf, hr]
    · have := ih hrest
      simp only [mapFindIf] at this
      simp [mapAssign, mapFindIf, h, hv, this]

theorem UpdateRule_spec (s s1 : RulesStorage) (rule : Rule) (out : List RulesUpdate)
    (h : s.UpdateRule rule = some (s1, out)) :
    s1.rules_ = mapAssign s.rules_ (s.assignId rule).1.Id (s.assignId rule).1 ∧
    s1.last_id_ = (s.assignId rule).2 ∧
    s1.client_connected_ = s.client_connected_ ∧
    s1.client_reconnected_ = s.client_reconnected_ := by
  unfold RulesStorage.UpdateRule at h
  cases hc : s.client_connected_ <;> cases hp : s.in_progress_ <;>
    simp [hc, hp, RulesStorage.CollectChanges, mapAtAll, mapFind_mapAssign_self] at h <;>
    obtain ⟨rfl, _⟩ := h <;> simp [hc]

theorem assignId_unknown (s : RulesStorage) (rule : Rule) (hid : rule.Id = 0)
    (hno : mapFindIf s.rules_
      (fun stored => decide (stored.Application.Path = rule.Application.Path)) = none) :
    s.assignId rule = (rule.WithId s.last_id_, (s.last_id_ + 1) % 2 ^ 64) := by
  have : mapFindIf s.rules_
      (fun stored => decide (rule.Application.Path = stored.Application.Path)) = none := by
    rw [← hno]
    congr 1
    funext stored
    simp [eq_comm]
  simp [RulesStorage.assignId, hid, this]

theorem new_rule_Id (p : RulePermission) (a : Application) (now : Time) :
    (NetworkFilter.new_rule p a now).Id = 0 := by
  cases p <;> rfl

theorem new_rule_Application (p : RulePermission) (a : Application) (now : Time) :
    (NetworkFilter.new_rule p a now).Application = a := by
  cases p <;> rfl

theorem new_rule_Permission (p : RulePermission) (a : Application) (now : Time) :
    (NetworkFilter.new_rule p a now).Permission = p := by
  cases p <;> rfl

/-- Storing a synthesized rule for a path with no rule: the store then answers
lookups for that path with the new rule, keyed by the old counter value. -/
theorem AccessStatusWithNewRule_unknown (f : NetworkFilter) (p : RulePermission)
    (a : Application) (now : Time) (hno : f.RuleMatchingApplication a = none) :
    ∃ f1 out, f.AccessStatusWithNewRule p a now = some (ToAccessStatus p, f1, out) ∧
      f1.mode_ = f.mode_ ∧ f1.completions_ = f.completions_ ∧
      f1.rules_.rules_ = mapAssign f.rules_.rules_ f.rules_.last_id_
        ((NetworkFilter.new_rule p a now).WithId f.rules_.last_id_) ∧
      f1.RuleMatchingApplication a
        = some ((NetworkFilter.new_rule p a now).WithId f.rules_.last_id_) := by
  obtain ⟨s1, out, hu, hacc⟩ := AccessStatusWithNewRule_some f p a now
  have hfi : mapFindIf f.rules_.rules_
      (fun stored => decide (stored.Application.Path = a.Path)) = none := by
    unfold NetworkFilter.RuleMatchingApplication RulesStorage.Matching at hno
    cases hq : mapFindIf f.rules_.rules_
        (fun stored => decide (stored.Application.Path = a.Path)) with
    | none => rfl
    | some kv => simp [hq] at hno
  have hassign := assignId_unknown f.rules_ (NetworkFilter.new_rule p a now)
    (new_rule_Id p a now) (by rw [new_rule_Application]; exact hfi)
  obtain ⟨hr, _, _, _⟩ := UpdateRule_spec _ _ _ _ hu
  rw [hassign] at hr
  have hr2 : s1.rules_ = mapAssign f.rules_.rules_ f.rules_.last_id_
      ((NetworkFilter.new_rule p a now).WithId f.rules_.last_id_) := by
    simpa [Rule.WithId, Rule.Id] using hr
  refine ⟨{ f with rules_ := s1 }, out, hacc, rfl, rfl, hr2, ?_⟩
  have hfound := mapFindIf_mapAssign_new f.rules_.rules_
    (fun stored => decide (stored.Application.Path = a.Path)) f.rules_.last_id_
    ((NetworkFilter.new_rule p a now).WithId f.rules_.last_id_) hfi
    (by
      have := new_rule_Application p a now
      simp [Rule.WithId, Rule.Application] at this ⊢
      simp [this])
  simp [NetworkFilter.RuleMatchingApplication, RulesStorage.Matching, hr2, hfound]

theorem CheckAccess_found (f : NetworkFilter) (a : Application) (c : Completion)
    (now : Time) (rule : Rule) (hrule : f.RuleMatchingApplication a = some rule)
    (hmode : f.mode_ ≠ FilterMode.AllAllow) :
    ∃ res, f.CheckAccess a c now = some res ∧
      res.status = ToAccessStatus rule.Permission ∧
      res.effects.asked = [] ∧ res.effects.invoked = [] ∧
      res.filter.completions_ = f.completions_ := by
  unfold NetworkFilter.CheckAccess
  obtain ⟨f1, out, h1, hc, _⟩ := UpdateRuleAccessTime_some f rule.Id now
  cases hperm : rule.Permission <;>
    simp_all [ToAccessStatus, Effects.nothing]

/-- C1: the synchronous result of CheckAccess. The call always returns. With a
rule for the path: Allow in mode AllAllow, otherwise the permission of that rule
as an AccessStatus. Without a rule: Wait in mode Wait, Allow in modes AllAllow
and UnknownAllow, Deny in modes AllDeny and UnknownDeny. The result is Wait
exactly when no rule matches and the mode is Wait, and whenever the result is
not Wait the pending-completions map is unchanged and no completion is
invoked. -/
theorem CheckAccess_status (f : NetworkFilter) (application : Application)
    (completion : Completion) (now : Time) :
    ∃ res, f.CheckAccess application completion now = some res ∧
      res.status =
        (match f.RuleMatchingApplication application, f.mode_ with
          | some _, FilterMode.AllAllow => AccessStatus.Allow
          | some rule, _ => ToAccessStatus rule.Permission
          | none, FilterMode.Wait => AccessStatus.Wait
          | none, FilterMode.AllAllow => AccessStatus.Allow
          | none, FilterMode.UnknownAllow => AccessStatus.Allow
          | none, FilterMode.AllDeny => AccessStatus.Deny
          | none, FilterMode.UnknownDeny => AccessStatus.Deny) ∧
      (res.status = AccessStatus.Wait ↔
        (f.RuleMatchingApplication application = none ∧ f.mode_ = FilterMode.Wait)) ∧
      (res.status ≠ AccessStatus.Wait →
        res.filter.completions_ = f.completions_ ∧ res.effects.invoked = []) := by
  unfold NetworkFilter.CheckAccess
  cases hm : f.RuleMatchingApplication application with
  | some rule =>
    by_cases hmode : f.mode_ = FilterMode.AllAllow
    · simp [hmode, Effects.nothing]
    · cases hperm : rule.Permission with
      | Allow =>
        obtain ⟨f1, out, h1, hc, _⟩ := UpdateRuleAccessTime_some f rule.Id now
        cases hmd : f.mode_ <;>
          simp_all [ToAccessStatus, Effects.nothing]
      | Deny =>
        cases hmd : f.mode_ <;>
          simp_all [ToAccessStatus, Effects.nothing]
  | none =>
    obtain ⟨s1, out, _, h1⟩ :=
      AccessStatusWithNewRule_some f (RulePermissionForMode f.mode_) application now
    cases hmd : f.mode_ <;>
      simp_all [ToAccessStatus, RulePermissionForMode, Effects.nothing]

/-! ### Fail-open default and coalescing of interactive requests -/

/-- C2 (as stated, refuted): on a fresh engine in mode Wait, one CheckAccess for
an unknown application returns Wait and asks the observer; when that request
is dropped the queued completion is invoked with Allow, but the rule store is
still empty: no rule for the application has been persisted. -/
theorem failOpen_persists_no_rule :
    ((NetworkFilter.initial FilterMode.Wait).CheckAccess ⟨"/bin/app"⟩ 7 100).map
      (fun res =>
        (res.status, res.effects.asked,
         (res.filter.askDropped ⟨"/bin/app"⟩).2.invoked,
         (res.filter.askDropped ⟨"/bin/app"⟩).1.RuleMatchingApplication ⟨"/bin/app"⟩,
         (res.filter.askDropped ⟨"/bin/app"⟩).1.rules_.rules_))
      = some (AccessStatus.Wait, [⟨"/bin/app"⟩], [(7, AccessStatus.Allow)], none, []) := by
  rfl

/-- C2 (amended): in mode Wait, for an application with no rule and no request
pending, after one or more CheckAccess calls for its path (all return Wait, the
first one asks), dropping the AskPermission request invokes every queued
completion with Allow, in arrival order, removes the pending entry, dispatches
nothing and leaves the rule store unchanged: the application still has no
rule. -/
theorem failOpen_invokes_allow_keeps_store (f : NetworkFilter)
    (application : Application) (completion : Completion) (now : Time)
    (rest : List (Application × Completion × Time))
    (hmode : f.mode_ = FilterMode.Wait)
    (hno : f.RuleMatchingApplication application = none)
    (hpend : compsFind f.completions_ application.Path = none)
    (hrest : ∀ c ∈ rest, c.1.Path = application.Path) :
    ∃ f1 eff, f.checkAll ((application, completion, now) :: rest)
        = some (f1, List.replicate (rest.length + 1) AccessStatus.Wait, eff) ∧
      eff.asked = [application] ∧ eff.invoked = [] ∧
      (f1.askDropped application).2.invoked
        = ((application, completion, now) :: rest).map
            (fun c => (c.2.1, AccessStatus.Allow)) ∧
      (f1.askDropped application).2.sent = [] ∧
      (f1.askDropped application).2.asked = [] ∧
      (f1.askDropped application).1.rules_ = f.rules_ ∧
      (f1.askDropped application).1.RuleMatchingApplication application = none ∧
      compsFind (f1.askDropped application).1.completions_ application.Path = none := by
  obtain ⟨f1, eff, hrun, _, hr1, hinv, _, hasked, hfind⟩ :=
    checkAll_wait application.Path ((application, completion, now) :: rest) f hmode
      (fun a ha => by
        rw [← hno]
        exact RuleMatchingApplication_congr _ _ _ _ rfl ha)
      (fun c hc => by
        rcases List.mem_cons.1 hc with h | h
        · rw [h]
        · exact hrest c h)
  refine ⟨f1, eff, by simpa using hrun, by simpa [hpend] using hasked, hinv, ?_, rfl, rfl,
    hr1, ?_, ?_⟩
  · simp [NetworkFilter.askDropped, NetworkFilter.sharedCompletion, hfind, hpend]
  · rw [← hno]
    exact RuleMatchingApplication_congr _ _ _ _ (by
      simp [NetworkFilter.askDropped, NetworkFilter.sharedCompletion, hr1]) rfl
  · simp [NetworkFilter.askDropped, NetworkFilter.sharedCompletion, compsFind_compsErase_self]

theorem failOpen_invokes_allow_keeps_store_witness :
    (NetworkFilter.initial FilterMode.Wait).mode_ = FilterMode.Wait ∧
    (∃ f1 eff, (NetworkFilter.initial FilterMode.Wait).checkAll
        [(⟨"/bin/app"⟩, 7, 100), (⟨"/bin/app"⟩, 8, 101)]
        = some (f1, [AccessStatus.Wait, AccessStatus.Wait], eff) ∧
      eff.asked = [⟨"/bin/app"⟩] ∧
      (f1.askDropped ⟨"/bin/app"⟩).2.invoked
        = [(7, AccessStatus.Allow), (8, AccessStatus.Allow)] ∧
      (f1.askDropped ⟨"/bin/app"⟩).1.rules_ = RulesStorage.init) := by
  refine ⟨rfl, ?_⟩
  obtain ⟨f1, eff, h1, h2, _, h4, _, _, h7, _⟩ :=
    failOpen_invokes_allow_keeps_store (NetworkFilter.initial FilterMode.Wait)
      ⟨"/bin/app"⟩ 7 100 [(⟨"/bin/app"⟩, 8, 101)] rfl rfl rfl
      (by intro c hc; simp at hc; subst hc; rfl)
  exact ⟨f1, eff, h1, h2, h4, h7⟩

/-- C3: Wait-mode coalescing. In mode Wait, for a path with no rule and no
request pending, n >= 1 consecutive CheckAccess calls for that path all return
Wait and AskPermission is invoked exactly once, by the first call. When the
observer then replies with permission p, a rule with permission p is stored
for the path, the n completions are invoked once each, in arrival order, all
with ToAccessStatus p, and the pending entry of the path is removed; a later
CheckAccess for the path returns ToAccessStatus p synchronously, asks nobody
and queues nothing. -/
theorem wait_mode_coalescing (f : NetworkFilter)
    (application : Application) (completion : Completion) (now : Time)
    (rest : List (Application × Completion × Time))
    (p : RulePermission) (replyTime : Time)
    (hmode : f.mode_ = FilterMode.Wait)
    (hno : f.RuleMatchingApplication application = none)
    (hpend : compsFind f.completions_ application.Path = none)
    (hrest : ∀ c ∈ rest, c.1.Path = application.Path) :
    ∃ f1 eff, f.checkAll ((application, completion, now) :: rest)
        = some (f1, List.replicate (rest.length + 1) AccessStatus.Wait, eff) ∧
      eff.asked = [application] ∧ eff.invoked = [] ∧
      ∃ f2 eff2, f1.askReplied application p replyTime = some (f2, eff2) ∧
        (∃ rule, f2.RuleMatchingApplication application = some rule ∧
          rule.Permission = p ∧ rule.Application.Path = application.Path ∧
          mapFind f2.rules_.rules_ f.rules_.last_id_ = some rule) ∧
        eff2.invoked = ((application, completion, now) :: rest).map
            (fun c => (c.2.1, ToAccessStatus p)) ∧
        eff2.asked = [] ∧
        compsFind f2.completions_ application.Path = none ∧
        ∀ (a : Application) (c : Completion) (t : Time), a.Path = application.Path →
          ∃ res, f2.CheckAccess a c t = some res ∧
            res.status = ToAccessStatus p ∧ res.effects.asked = [] ∧
            res.effects.invoked = [] ∧ res.filter.completions_ = f2.completions_ := by
  obtain ⟨f1, eff, hrun, hm1, hr1, hinv, _, hasked, hfind⟩ :=
    checkAll_wait application.Path ((application, completion, now) :: rest) f hmode
      (fun a ha => by
        rw [← hno]
        exact RuleMatchingApplication_congr _ _ _ _ rfl ha)
      (fun c hc => by
        rcases List.mem_cons.1 hc with h | h
        · rw [h]
        · exact hrest c h)
  refine ⟨f1, eff, by simpa using hrun, by simpa [hpend] using hasked, hinv, ?_⟩
  have hno1 : f1.RuleMatchingApplication application = none := by
    rw [← hno]
    exact RuleMatchingApplication_congr _ _ _ _ (by rw [hr1]) rfl
  obtain ⟨g, out, hacc, hgm, hgc, hgr, hgfound⟩ :=
    AccessStatusWithNewRule_unknown f1 p application replyTime hno1
  have hstored : f.rules_.last_id_ = f1.rules_.last_id_ := by rw [hr1]
  refine ⟨{ g with completions_ := compsErase g.completions_ application.Path },
    { asked := [],
      invoked := ((compsFind g.completions_ application.Path).getD []).map
        (fun c => (c, ToAccessStatus p)),
      sent := out }, ?_, ?_, ?_, rfl, ?_, ?_⟩
  · simp [NetworkFilter.askReplied, hacc, NetworkFilter.sharedCompletion]
  · refine ⟨(NetworkFilter.new_rule p application replyTime).WithId f1.rules_.last_id_,
      ?_, ?_, ?_, ?_⟩
    · rw [← hgfound]
      exact RuleMatchingApplication_congr _ _ _ _ rfl rfl
    · have := new_rule_Permission p application replyTime
      simpa [Rule.WithId, Rule.Permission] using this
    · have := new_rule_Application p application replyTime
      simp [Rule.WithId, Rule.Application] at this ⊢
      simp [this]
    · simp only [hgr, hstored]
      exact mapFind_mapAssign_self _ _ _
  · simp [hgc, hfind, hpend]
  · simp [compsFind_compsErase_self]
  · intro a c t ha
    have hfound : ({ g with completions_ := compsErase g.completions_ application.Path }
        : NetworkFilter).RuleMatchingApplication a
        = some ((NetworkFilter.new_rule p application replyTime).WithId
            f1.rules_.last_id_) := by
      rw [← hgfound]
      exact RuleMatchingApplication_congr _ _ _ _ rfl ha
    obtain ⟨res, hres, hst, hask, hinv2, hcomp⟩ :=
      CheckAccess_found _ a c t _ hfound (by
        show g.mode_ ≠ FilterMode.AllAllow
        rw [hgm, hm1, hmode]
        decide)
    refine ⟨res, hres, ?_, hask, hinv2, hcomp⟩
    rw [hst]
    have := new_rule_Permission p application replyTime
    simp [Rule.WithId, Rule.Permission] at this ⊢
    simp [this]

theorem wait_mode_coalescing_witness :
    (NetworkFilter.initial FilterMode.Wait).mode_ = FilterMode.Wait ∧
    (∃ f1 eff, (NetworkFilter.initial FilterMode.Wait).checkAll
        [(⟨"/bin/app"⟩, 7, 100), (⟨"/bin/app"⟩, 8, 101), (⟨"/bin/app"⟩, 9, 102)]
        = some (f1, [AccessStatus.Wait, AccessStatus.Wait, AccessStatus.Wait], eff) ∧
      eff.asked = [⟨"/bin/app"⟩] ∧
      ∃ f2 eff2, f1.askReplied ⟨"/bin/app"⟩ RulePermission.Deny 200 = some (f2, eff2) ∧
        eff2.invoked
          = [(7, AccessStatus.Deny), (8, AccessStatus.Deny), (9, AccessStatus.Deny)]) := by
  refine ⟨rfl, ?_⟩
  obtain ⟨f1, eff, h1, h2, _, f2, eff2, h4, _, h6, _⟩ :=
    wait_mode_coalescing (NetworkFilter.initial FilterMode.Wait)
      ⟨"/bin/app"⟩ 7 100 [(⟨"/bin/app"⟩, 8, 101), (⟨"/bin/app"⟩, 9, 102)]
      RulePermission.Deny 200 rfl rfl rfl
      (by
        intro c hc
        simp at hc
        rcases hc with h | h <;> subst h <;> rfl)
  exact ⟨f1, eff, h1, h2, f2, eff2, h4, h6⟩

theorem UpdateRule_disconnected (s : RulesStorage) (rule : Rule)
    (h : s.client_connected_ = false) :
    s.UpdateRule rule =
      some ({ s with last_id_ := (s.assignId rule).2,
                     rules_ := mapAssign s.rules_ (s.assignId rule).1.Id (s.assignId rule).1 },
            []) := by
  simp [RulesStorage.UpdateRule, h]

theorem assignId_single_known (s : RulesStorage) (k : RuleId) (stored rule : Rule)
    (hrules : s.rules_ = [(k, stored)]) (hid : rule.Id = 0)
    (hpath : rule.Application.Path = stored.Application.Path) :
    s.assignId rule = (stored.WithPermission rule.Permission, s.last_id_) := by
  simp [RulesStorage.assignId, hid, hrules, mapFindIf, hpath]

theorem updates_same_path (k : RuleId) :
    ∀ (rest : List Rule) (stored : Rule) (c : Channel),
      c.store.client_connected_ = false →
      c.store.rules_ = [(k, stored)] →
      stored.Id = k →
      (∀ r ∈ rest, r.Id = 0 ∧ r.Application.Path = stored.Application.Path) →
      ∃ c1, c.run (rest.map Call.UpdateRule) = some c1 ∧
        c1.store.rules_ =
          [(k, { stored with
                 permission_ := (rest.getLast?.map Rule.Permission).getD stored.Permission })] ∧
        c1.store.last_id_ = c.store.last_id_ ∧ c1.sent = c.sent := by
  intro rest
  induction rest with
  | nil =>
    intro stored c _ hrules _ _
    exact ⟨c, rfl, by simpa [Rule.Permission] using hrules, rfl, rfl⟩
  | cons r rest ih =>
    intro stored c hdis hrules hid hall
    obtain ⟨hr0, hrp⟩ := hall r (List.mem_cons_self _ _)
    have hassign := assignId_single_known c.store k stored r hrules hr0 hrp
    have hstep : c.step (Call.UpdateRule r) =
        some { store := { c.store with
                          rules_ := [(k, stored.WithPermission r.Permission)] },
               sent := c.sent, completed := c.completed } := by
      have hk : (stored.WithPermission r.Permission).Id = k := by
        simpa [Rule.WithPermission, Rule.Id] using hid
      simp [Channel.step, Channel.enabled, RulesStorage.call,
        UpdateRule_disconnected _ _ hdis, hassign, hk, hrules, mapAssign]
    obtain ⟨c1, hrun, hr1, hl1, hs1⟩ :=
      ih (stored.WithPermission r.Permission)
        { store := { c.store with rules_ := [(k, stored.WithPermission r.Permission)] },
          sent := c.sent, completed := c.completed }
        hdis rfl (by simpa [Rule.WithPermission, Rule.Id] using hid)
        (fun x hx => by
          have := hall x (List.mem_cons_of_mem _ hx)
          simpa [Rule.WithPermission, Rule.Application] using this)
    refine ⟨c1, by simp [Channel.run, hstep, hrun], ?_, hl1, hs1⟩
    rw [hr1]
    cases rest with
    | nil => simp [Rule.WithPermission, Rule.Permission, Rule.Id, Rule.Application,
        Rule.LastAccessTime, Rule.AccessCount]
    | cons r2 rest2 =>
      have hlast : (r2 :: rest2).getLast? = some ((r2 :: rest2).getLast (by simp)) :=
        List.getLast?_eq_getLast _ _
      simp [List.getLast?_cons_cons, hlast, Rule.WithPermission, Rule.Permission, Rule.Id,
        Rule.Application, Rule.LastAccessTime, Rule.AccessCount]

/-- C4: single rule per path. From the freshly constructed store, after
UpdateRule calls that all carry id 0 and the same application path (at least
one call), the rule map holds exactly one rule; it sits under id 1, the id the
first call assigned, keeps the application, last_access and access_count of the
first call, and has the permission of the last call. The counter is 2 and
nothing was dispatched. -/
theorem single_rule_per_path (first : Rule) (rest : List Rule)
    (hfirst : first.Id = 0)
    (hrest : ∀ r ∈ rest, r.Id = 0 ∧ r.Application.Path = first.Application.Path) :
    ∃ c, Channel.init.run ((first :: rest).map Call.UpdateRule) = some c ∧
      c.store.rules_ =
        [(1, { id_ := 1,
               permission_ := (rest.getLast?.map Rule.Permission).getD first.Permission,
               application_ := first.Application,
               last_access_ := first.LastAccessTime,
               access_count_ := first.AccessCount })] ∧
      c.store.last_id_ = 2 ∧ c.sent = [] := by
  have hassign : RulesStorage.init.assignId first = (first.WithId 1, 2) := by
    simp [RulesStorage.assignId, hfirst, RulesStorage.init, mapFindIf]
  have hstep : Channel.init.step (Call.UpdateRule first) =
      some { store := { RulesStorage.init with last_id_ := 2, rules_ := [(1, first.WithId 1)] },
             sent := [], completed := 0 } := by
    simp [Channel.step, Channel.enabled, RulesStorage.call, Channel.init,
      UpdateRule_disconnected RulesStorage.init first rfl, hassign]
    simp [RulesStorage.init, mapAssign, Rule.WithId, Rule.Id]
  obtain ⟨c1, hrun, hr1, hl1, hs1⟩ :=
    updates_same_path 1 rest (first.WithId 1)
      { store := { RulesStorage.init with last_id_ := 2, rules_ := [(1, first.WithId 1)] },
        sent := [], completed := 0 }
      rfl rfl rfl
      (fun r hr => by simpa [Rule.WithId, Rule.Application] using hrest r hr)
  refine ⟨c1, by simp [Channel.run, hstep, hrun], ?_, hl1, hs1⟩
  rw [hr1]
  simp [Rule.WithId, Rule.Permission, Rule.Application, Rule.LastAccessTime, Rule.AccessCount]

theorem single_rule_per_path_witness :
    (Rule.mk3 0 RulePermission.Allow ⟨"/bin/app"⟩).Id = 0 ∧
    ∃ c, Channel.init.run
        ([NetworkFilter.CreateRuleWithAccessTime RulePermission.Allow ⟨"/bin/app"⟩ 50,
          Rule.mk3 0 RulePermission.Deny ⟨"/bin/app"⟩,
          Rule.mk3 0 RulePermission.Allow ⟨"/bin/app"⟩,
          Rule.mk3 0 RulePermission.Deny ⟨"/bin/app"⟩].map Call.UpdateRule) = some c ∧
      c.store.rules_ =
        [(1, { id_ := 1, permission_ := RulePermission.Deny,
               application_ := ⟨"/bin/app"⟩, last_access_ := some 50,
               access_count_ := 1 })] := by
  refine ⟨rfl, ?_⟩
  obtain ⟨c, h1, h2, _⟩ :=
    single_rule_per_path
      (NetworkFilter.CreateRuleWithAccessTime RulePermission.Allow ⟨"/bin/app"⟩ 50)
      [Rule.mk3 0 RulePermission.Deny ⟨"/bin/app"⟩,
       Rule.mk3 0 RulePermission.Allow ⟨"/bin/app"⟩,
       Rule.mk3 0 RulePermission.Deny ⟨"/bin/app"⟩]
      rfl
      (by
        intro r hr
        simp at hr
        rcases hr with h | h | h <;> subst h <;> exact ⟨rfl, rfl⟩)
  exact ⟨c, h1, h2⟩

/-! ### Well-formedness of the rule map -/

theorem mem_mapAssign (m : RuleMap) (id : RuleId) (r : Rule) (kv : RuleId × Rule)
    (h : kv ∈ mapAssign m id r) : kv ∈ m ∨ kv = (id, r) := by
  induction m with
  | nil => simpa [mapAssign] using h
  | cons e rest ih =>
    obtain ⟨k, v⟩ := e
    by_cases hk : k = id
    · subst hk
      simp only [mapAssign, if_true, List.mem_cons] at h
      rcases h with h | h
      · exact Or.inr h
      · exact Or.inl (List.mem_cons_of_mem _ h)
    · simp only [mapAssign, hk, if_false, List.mem_cons] at h
      rcases h with h | h
      · exact Or.inl (h ▸ List.mem_cons_self _ _)
      · rcases ih h with h2 | h2
        · exact Or.inl (List.mem_cons_of_mem _ h2)
        · exact Or.inr h2

theorem mem_of_mapFind (m : RuleMap) (id : RuleId) (r : Rule)
    (h : mapFind m id = some r) : (id, r) ∈ m := by
  induction m with
  | nil => simp [mapFind] at h
  | cons e rest ih =>
    obtain ⟨k, v⟩ := e
    by_cases hk : k = id
    · subst hk
      simp [mapFind] at h
      simp [h]
    · simp [mapFind, hk] at h
      exact List.mem_cons_of_mem _ (ih h)

theorem mapFind_eq_none_iff (m : RuleMap) (id : RuleId) :
    mapFind m id = none ↔ id ∉ mapKeys m := by
  induction m with
  | nil => simp [mapFind, mapKeys]
  | cons e rest ih =>
    obtain ⟨k, v⟩ := e
    by_cases hk : k = id
    · subst hk
      simp [mapFind, mapKeys]
    · have hk2 : ¬ id = k := fun h => hk h.symm
      simp [mapFind, hk, hk2, mapKeys] at ih ⊢
      exact ih

theorem mapKeys_mapAssign_nodup (m : RuleMap) (id : RuleId) (r : Rule)
    (h : (mapKeys m).Nodup) : (mapKeys (mapAssign m id r)).Nodup := by
  induction m with
  | nil => simp [mapAssign, mapKeys]
  | cons e rest ih =>
    obtain ⟨k, v⟩ := e
    simp only [mapKeys, List.map_cons, List.nodup_cons] at h
    by_cases hk : k = id
    · subst hk
      simp only [mapAssign, if_true, mapKeys, List.map_cons, List.nodup_cons]
      exact h
    · simp only [mapAssign, hk, if_false, mapKeys, List.map_cons, List.nodup_cons]
      refine ⟨?_, ih h.2⟩
      intro hmem
      obtain ⟨kv, hkv, hfst⟩ := List.mem_map.1 hmem
      rcases mem_mapAssign _ _ _ _ hkv with h2 | h2
      · exact h.1 (List.mem_map.2 ⟨kv, h2, hfst⟩)
      · subst h2
        exact hk hfst.symm

theorem mapPaths_mapAssign_nodup (m : RuleMap) (id : RuleId) (r : Rule)
    (hkeys : (mapKeys m).Nodup) (hpaths : (mapPaths m).Nodup)
    (hguard : ∀ kv ∈ m, kv.2.Application.Path = r.Application.Path → kv.1 = id) :
    (mapPaths (mapAssign m id r)).Nodup := by
  induction m with
  | nil => simp [mapAssign, mapPaths]
  | cons e rest ih =>
    obtain ⟨k, v⟩ := e
    simp only [mapKeys, List.map_cons, List.nodup_cons] at hkeys
    simp only [mapPaths, List.map_cons, List.nodup_cons] at hpaths
    by_cases hk : k = id
    · subst hk
      simp only [mapAssign, if_true, mapPaths, List.map_cons, List.nodup_cons]
      refine ⟨?_, hpaths.2⟩
      intro hmem
      obtain ⟨kv, hkv, hp⟩ := List.mem_map.1 hmem
      have := hguard kv (List.mem_cons_of_mem _ hkv) hp
      exact hkeys.1 (List.mem_map.2 ⟨kv, hkv, this⟩)
    · simp only [mapAssign, hk, if_false, mapPaths, List.map_cons, List.nodup_cons]
      refine ⟨?_, ih hkeys.2 hpaths.2 (fun kv hkv => hguard kv (List.mem_cons_of_mem _ hkv))⟩
      intro hmem
      obtain ⟨kv, hkv, hp⟩ := List.mem_map.1 hmem
      rcases mem_mapAssign _ _ _ _ hkv with h2 | h2
      · exact hpaths.1 (List.mem_map.2 ⟨kv, h2, hp⟩)
      · subst h2
        exact hk (hguard (k, v) (List.mem_cons_self _ _) hp.symm)

theorem mapKeys_mapErase_nodup (m : RuleMap) (id : RuleId)
    (h : (mapKeys m).Nodup) : (mapKeys (mapErase m id)).Nodup := by
  unfold mapKeys mapErase
  exact ((List.filter_sublist _).map Prod.fst).nodup h

theorem mapPaths_mapErase_nodup (m : RuleMap) (id : RuleId)
    (h : (mapPaths m).Nodup) : (mapPaths (mapErase m id)).Nodup := by
  unfold mapPaths mapErase
  exact ((List.filter_sublist _).map _).nodup h

theorem mem_mapErase (m : RuleMap) (id : RuleId) (kv : RuleId × Rule)
    (h : kv ∈ mapErase m id) : kv ∈ m ∧ kv.1 ≠ id := by
  simpa [mapErase] using h

/-! ### What each operation does to the rule map -/

theorem RemoveRule_rules (s s1 : RulesStorage) (rule_id : RuleId) (out : List RulesUpdate)
    (h : s.RemoveRule rule_id = some (s1, out)) :
    (s1.rules_ = s.rules_ ∨ s1.rules_ = mapErase s.rules_ rule_id) ∧
      s1.last_id_ = s.last_id_ := by
  unfold RulesStorage.RemoveRule at h
  cases hf : mapFind s.rules_ rule_id <;>
    cases hc : s.client_connected_ <;> cases hp : s.in_progress_ <;>
    simp [hf, hc, hp, RulesStorage.CollectChanges, mapAtAll] at h <;>
    obtain ⟨rfl, _⟩ := h <;> simp

theorem ModifyInPlace_rules (s s1 : RulesStorage) (rule_id : RuleId) (fn : Rule → Rule)
    (out : List RulesUpdate) (h : s.ModifyInPlace rule_id fn = some (s1, out)) :
    (s1.rules_ = s.rules_ ∨
      ∃ found, mapFind s.rules_ rule_id = some found ∧
        s1.rules_ = mapAssign s.rules_ rule_id (fn found)) ∧
      s1.last_id_ = s.last_id_ := by
  unfold RulesStorage.ModifyInPlace at h
  cases hf : mapFind s.rules_ rule_id <;>
    cases hc : s.client_connected_ <;> cases hp : s.in_progress_ <;>
    simp [hf, hc, hp, RulesStorage.CollectChanges, mapAtAll, mapFind_mapAssign_self] at h <;>
    obtain ⟨rfl, _⟩ := h <;> simp

theorem ClientConnected_rules (s s1 : RulesStorage) (out : List RulesUpdate)
    (h : s.ClientConnected = some (s1, out)) :
    s1.rules_ = s.rules_ ∧ s1.last_id_ = s.last_id_ := by
  unfold RulesStorage.ClientConnected at h
  cases hp : s.in_progress_ <;> simp [hp] at h <;> obtain ⟨rfl, _⟩ := h <;> simp

theorem DidSendUpdate_rules (s s1 : RulesStorage) (success : Bool) (out : List RulesUpdate)
    (h : s.DidSendUpdate success = some (s1, out)) :
    s1.rules_ = s.rules_ ∧ s1.last_id_ = s.last_id_ := by
  unfold RulesStorage.DidSendUpdate at h
  cases hr : s.client_reconnected_ <;> cases success <;>
    cases he : s.pending_update_.IsEmpty <;>
    simp [hr, he] at h
  all_goals first
    | (obtain ⟨rfl, _⟩ := h; simp)
    | (cases hcc : s.CollectChanges s.pending_update_ <;> simp [hcc] at h
       obtain ⟨rfl, _⟩ := h; simp)

theorem assignId_Id_of_nonzero (s : RulesStorage) (rule : Rule) (h : rule.Id ≠ 0) :
    s.assignId rule = (rule, s.last_id_) := by
  simp [RulesStorage.assignId, h]

/-- The rule chosen by `assignId` and the key it will be stored under,
in the three cases of the source. -/
theorem assignId_cases (s : RulesStorage) (rule : Rule) :
    (rule.Id ≠ 0 ∧ (s.assignId rule).1 = rule) ∨
    (rule.Id = 0 ∧ (∀ kv ∈ s.rules_, kv.2.Application.Path ≠ rule.Application.Path) ∧
      (s.assignId rule).1 = rule.WithId s.last_id_) ∨
    (rule.Id = 0 ∧ ∃ kv ∈ s.rules_, kv.2.Application.Path = rule.Application.Path ∧
      (s.assignId rule).1 = kv.2.WithPermission rule.Permission) := by
  by_cases hid : rule.Id = 0
  · right
    cases hq : mapFindIf s.rules_
        (fun stored => decide (rule.Application.Path = stored.Application.Path)) with
    | none =>
      left
      refine ⟨hid, ?_, by simp [RulesStorage.assignId, hid, hq]⟩
      intro kv hkv hp
      have := (mapFindIf_eq_none _ _).1 hq kv hkv
      simp [hp] at this
    | some kv =>
      right
      refine ⟨hid, kv, ?_, ?_, by simp [RulesStorage.assignId, hid, hq]⟩
      · exact List.mem_of_find?_eq_some hq
      · have := List.find?_some hq
        simpa [eq_comm] using this
  · left
    exact ⟨hid, by simp [RulesStorage.assignId, hid]⟩

theorem RuleMapWF_mapAssign (m : RuleMap) (r : Rule) (h : RuleMapWF m) :
    RuleMapWF (mapAssign m r.Id r) := by
  refine ⟨mapKeys_mapAssign_nodup _ _ _ h.1, ?_⟩
  intro kv hkv
  rcases mem_mapAssign _ _ _ _ hkv with h2 | h2
  · exact h.2 kv h2
  · subst h2
    rfl

theorem RuleMapWF_mapErase (m : RuleMap) (id : RuleId) (h : RuleMapWF m) :
    RuleMapWF (mapErase m id) :=
  ⟨mapKeys_mapErase_nodup _ _ h.1, fun kv hkv => h.2 kv (mem_mapErase _ _ _ hkv).1⟩

/-- Every call of the firewall keeps the rule map well formed. -/
theorem RuleMapWF_call (s s1 : RulesStorage) (a : EngineCall) (out : List RulesUpdate)
    (hwf : RuleMapWF s.rules_) (h : s.call a.toCall = some (s1, out)) :
    RuleMapWF s1.rules_ := by
  cases a with
  | UpdateRule rule =>
    obtain ⟨hr, _⟩ := UpdateRule_spec _ _ _ _ h
    rw [hr]
    exact RuleMapWF_mapAssign _ _ hwf
  | RemoveRule rule_id =>
    rcases (RemoveRule_rules _ _ _ _ h).1 with hr | hr <;> rw [hr]
    · exact hwf
    · exact RuleMapWF_mapErase _ _ hwf
  | UpdateRuleAccessTime rule_id time =>
    rcases (ModifyInPlace_rules _ _ _ _ _ h).1 with hr | ⟨found, hf, hr⟩ <;> rw [hr]
    · exact hwf
    · have hid : (found.WithAccessTime time).Id = rule_id :=
        hwf.2 (rule_id, found) (mem_of_mapFind _ _ _ hf)
      have := RuleMapWF_mapAssign s.rules_ (found.WithAccessTime time) hwf
      rwa [hid] at this
  | ClientConnected =>
    rw [(ClientConnected_rules _ _ _ h).1]
    exact hwf
  | DidSendUpdate success =>
    rw [(DidSendUpdate_rules _ _ _ _ h).1]
    exact hwf

/-! ### One rule per application path -/

theorem mapPaths_call (s s1 : RulesStorage) (a : EngineCall) (out : List RulesUpdate)
    (hwf : RuleMapWF s.rules_) (hpaths : (mapPaths s.rules_).Nodup)
    (hresp : respectsPaths s a = true) (h : s.call a.toCall = some (s1, out)) :
    (mapPaths s1.rules_).Nodup := by
  cases a with
  | UpdateRule rule =>
    obtain ⟨hr, _⟩ := UpdateRule_spec _ _ _ _ h
    rw [hr]
    apply mapPaths_mapAssign_nodup _ _ _ hwf.1 hpaths
    rcases assignId_cases s rule with ⟨hid, hrule⟩ | ⟨_, hnone, hrule⟩ | ⟨_, kv0, hkv0, hp0, hrule⟩
    · rw [hrule]
      simp only [respectsPaths, hid, decide_False, Bool.false_or, List.all_eq_true,
        decide_eq_true_eq] at hresp
      exact fun kv hkv hp => hresp kv hkv hp
    · rw [hrule]
      intro kv hkv hp
      exact absurd hp (hnone kv hkv)
    · rw [hrule]
      intro kv hkv hp
      have hsame : kv.2.Application.Path = kv0.2.Application.Path := hp
      have hEq : kv = kv0 :=
        List.inj_on_of_nodup_map hpaths hkv hkv0 hsame
      rw [hEq]
      exact (hwf.2 kv0 hkv0).symm
  | RemoveRule rule_id =>
    rcases (RemoveRule_rules _ _ _ _ h).1 with hr | hr <;> rw [hr]
    · exact hpaths
    · exact mapPaths_mapErase_nodup _ _ hpaths
  | UpdateRuleAccessTime rule_id time =>
    rcases (ModifyInPlace_rules _ _ _ _ _ h).1 with hr | ⟨found, hf, hr⟩ <;> rw [hr]
    · exact hpaths
    · apply mapPaths_mapAssign_nodup _ _ _ hwf.1 hpaths
      intro kv hkv hp
      have hmem := mem_of_mapFind _ _ _ hf
      have hEq : kv = (rule_id, found) :=
        List.inj_on_of_nodup_map hpaths hkv hmem hp
      rw [hEq]
  | ClientConnected =>
    rw [(ClientConnected_rules _ _ _ h).1]
    exact hpaths
  | DidSendUpdate success =>
    rw [(DidSendUpdate_rules _ _ _ _ h).1]
    exact hpaths

theorem runRespecting_invariant :
    ∀ (calls : List EngineCall) (c c1 : Channel),
      RuleMapWF c.store.rules_ → (mapPaths c.store.rules_).Nodup →
      c.runRespecting calls = some c1 →
      RuleMapWF c1.store.rules_ ∧ (mapPaths c1.store.rules_).Nodup := by
  intro calls
  induction calls with
  | nil =>
    intro c c1 hwf hp h
    simp [Channel.runRespecting] at h
    subst h
    exact ⟨hwf, hp⟩
  | cons a rest ih =>
    intro c c1 hwf hp h
    simp only [Channel.runRespecting] at h
    by_cases hresp : respectsPaths c.store a = true
    · simp only [hresp, if_true] at h
      cases hstep : c.step a.toCall with
      | none => simp [hstep] at h
      | some c2 =>
        simp only [hstep] at h
        unfold Channel.step at hstep
        by_cases hen : c.enabled a.toCall = true
        · simp only [hen, if_true] at hstep
          cases hcall : c.store.call a.toCall with
          | none => simp [hcall] at hstep
          | some res =>
            obtain ⟨s2, out⟩ := res
            simp only [hcall, Option.some.injEq] at hstep
            subst hstep
            exact ih _ c1 (RuleMapWF_call _ _ _ _ hwf hcall)
              (mapPaths_call _ _ _ _ hwf hp hresp hcall) h
        · simp [hen] at hstep
    · simp [hresp] at h

/-- C5 (as stated, refuted): two UpdateRule calls with the explicit ids 1 and 2
and the same application path leave two stored rules with that path. -/
theorem explicit_ids_duplicate_path :
    (Channel.init.run
        [Call.UpdateRule (Rule.mk3 1 RulePermission.Allow ⟨"/bin/app"⟩),
         Call.UpdateRule (Rule.mk3 2 RulePermission.Deny ⟨"/bin/app"⟩)]).map
      (fun c => c.store.rules_.map (fun kv => (kv.1, kv.2.Application.Path)))
      = some [(1, "/bin/app"), (2, "/bin/app")] := by
  rfl

/-- C5 (amended): in every state reached from the freshly constructed store by
UpdateRule calls that carry id 0 or a path that no rule stored under another
id has, RemoveRule calls, ModifyInPlace calls with the access-time mutator,
ClientConnected calls and send completions, no two stored rules have the same
application path (and no two have the same id). -/
theorem one_rule_per_path (calls : List EngineCall) (c : Channel)
    (h : Channel.init.runRespecting calls = some c) :
    (mapPaths c.store.rules_).Nodup ∧ (mapKeys c.store.rules_).Nodup := by
  have hinit : RuleMapWF Channel.init.store.rules_ := by
    simp [RuleMapWF, Channel.init, RulesStorage.init, mapKeys]
  have hpinit : (mapPaths Channel.init.store.rules_).Nodup := by
    simp [Channel.init, RulesStorage.init, mapPaths]
  obtain ⟨hwf, hp⟩ := runRespecting_invariant calls _ c hinit hpinit h
  exact ⟨hp, hwf.1⟩

theorem one_rule_per_path_witness :
    (mapPaths (RulesStorage.mk 3
        [(2, ⟨2, RulePermission.Deny, ⟨"/bin/b"⟩, some 9, 0⟩),
         (7, ⟨7, RulePermission.Allow, ⟨"/bin/c"⟩, none, 0⟩)]
        true false true ⟨[2, 7], [1]⟩).rules_).Nodup :=
  (one_rule_per_path
    [EngineCall.UpdateRule (Rule.mk3 0 RulePermission.Allow ⟨"/bin/a"⟩),
     EngineCall.UpdateRule (Rule.mk3 0 RulePermission.Allow ⟨"/bin/b"⟩),
     EngineCall.ClientConnected,
     EngineCall.UpdateRule (Rule.mk3 0 RulePermission.Deny ⟨"/bin/b"⟩),
     EngineCall.UpdateRuleAccessTime 2 9,
     EngineCall.RemoveRule 1,
     EngineCall.UpdateRule (Rule.mk3 7 RulePermission.Allow ⟨"/bin/c"⟩)]
    ⟨RulesStorage.mk 3
        [(2, ⟨2, RulePermission.Deny, ⟨"/bin/b"⟩, some 9, 0⟩),
         (7, ⟨7, RulePermission.Allow, ⟨"/bin/c"⟩, none, 0⟩)]
        true false true ⟨[2, 7], [1]⟩,
      [⟨true, [⟨1, RulePermission.Allow, ⟨"/bin/a"⟩, none, 0⟩,
               ⟨2, RulePermission.Allow, ⟨"/bin/b"⟩, none, 0⟩], []⟩], 0⟩
    (by rfl)).1

/-! ### Pending sets -/

theorem mem_setInsert (s : List RuleId) (id x : RuleId) :
    x ∈ setInsert s id ↔ x ∈ s ∨ x = id := by
  unfold setInsert
  by_cases h : id ∈ s
  · simp only [h, if_true]
    constructor
    · exact Or.inl
    · rintro (h1 | h1)
      · exact h1
      · exact h1 ▸ h
  · simp [h]

theorem nodup_setInsert (s : List RuleId) (id : RuleId) (h : s.Nodup) :
    (setInsert s id).Nodup := by
  unfold setInsert
  by_cases hm : id ∈ s
  · simpa [hm] using h
  · simp only [hm, if_false]
    exact List.Nodup.append h (List.nodup_singleton _) (by simpa using hm)

theorem mem_setErase (s : List RuleId) (id x : RuleId) :
    x ∈ setErase s id ↔ x ∈ s ∧ x ≠ id := by
  simp [setErase]

theorem nodup_setErase (s : List RuleId) (id : RuleId) (h : s.Nodup) :
    (setErase s id).Nodup :=
  h.filter _

/-- While a send is in flight on a connected store, a mutation call dispatches
nothing, keeps the flags, and records its change of the rule map in the
pending set. -/
theorem call_in_progress (s : RulesStorage) (a : Call)
    (hp : s.in_progress_ = true) (hc : s.client_connected_ = true)
    (hm : a.isMutation = true) :
    ∃ s1, s.call a = some (s1, []) ∧
      s1.in_progress_ = true ∧ s1.client_connected_ = true ∧
      s1.client_reconnected_ = s.client_reconnected_ ∧
      (match touchOf s a with
        | none => s1 = s
        | some (Touch.wrote id) =>
          mapFind s1.rules_ id ≠ none ∧
          (∀ k, k ≠ id → mapFind s1.rules_ k = mapFind s.rules_ k) ∧
          s1.pending_update_ =
            { updated := setInsert s.pending_update_.updated id,
              removed := s.pending_update_.removed }
        | some (Touch.erased id) =>
          mapFind s1.rules_ id = none ∧
          (∀ k, k ≠ id → mapFind s1.rules_ k = mapFind s.rules_ k) ∧
          s1.pending_update_ =
            { updated := setErase s.pending_update_.updated id,
              removed := setInsert s.pending_update_.removed id }) := by
  cases a with
  | UpdateRule rule =>
    refine ⟨{ s with
        last_id_ := (s.assignId rule).2,
        rules_ := mapAssign s.rules_ (s.assignId rule).1.Id (s.assignId rule).1,
        pending_update_ :=
          { updated := setInsert s.pending_update_.updated (s.assignId rule).1.Id,
            removed := s.pending_update_.removed } },
      by simp [RulesStorage.call, RulesStorage.UpdateRule, hp, hc], hp, hc, rfl, ?_⟩
    simp only [touchOf]
    exact ⟨by simp [mapFind_mapAssign_self],
      fun k hk => mapFind_mapAssign_ne _ _ _ _ hk, trivial⟩
  | RemoveRule rule_id =>
    cases hf : mapFind s.rules_ rule_id with
    | none =>
      exact ⟨s, by simp [RulesStorage.call, RulesStorage.RemoveRule, hf], hp, hc, rfl,
        by simp [touchOf, hf]⟩
    | some found =>
      refine ⟨{ s with
          rules_ := mapErase s.rules_ rule_id,
          pending_update_ :=
            { updated := setErase s.pending_update_.updated rule_id,
              removed := setInsert s.pending_update_.removed rule_id } },
        by simp [RulesStorage.call, RulesStorage.RemoveRule, hf, hp, hc], hp, hc, rfl, ?_⟩
      simp only [touchOf, hf, Option.isSome_some, if_true]
      exact ⟨mapFind_mapErase_self _ _, fun k hk => mapFind_mapErase_ne _ _ _ hk, trivial⟩
  | ModifyInPlace rule_id fn =>
    cases hf : mapFind s.rules_ rule_id with
    | none =>
      exact ⟨s, by simp [RulesStorage.call, RulesStorage.ModifyInPlace, hf], hp, hc, rfl,
        by simp [touchOf, hf]⟩
    | some found =>
      refine ⟨{ s with
          rules_ := mapAssign s.rules_ rule_id (fn found),
          pending_update_ :=
            { updated := setInsert s.pending_update_.updated rule_id,
              removed := s.pending_update_.removed } },
        by simp [RulesStorage.call, RulesStorage.ModifyInPlace, hf, hp, hc], hp, hc, rfl, ?_⟩
      simp only [touchOf, hf, Option.isSome_some, if_true]
      exact ⟨by simp [mapFind_mapAssign_self],
        fun k hk => mapFind_mapAssign_ne _ _ _ _ hk, trivial⟩
  | ClientConnected => simp [Call.isMutation] at hm
  | DidSendUpdate success => simp [Call.isMutation] at hm

theorem step_mutation (c : Channel) (a : Call) (hm : a.isMutation = true) :
    c.step a = match c.store.call a with
      | none => none
      | some (s, out) => some { store := s, sent := c.sent ++ out, completed := c.completed } := by
  cases a <;> simp [Call.isMutation] at hm <;> simp [Channel.step, Channel.enabled]

theorem getLast?_cons_of_ne_nil {α : Type} (x : α) (l : List α) (h : l ≠ []) :
    (x :: l).getLast? = l.getLast? := by
  cases l with
  | nil => exact absurd rfl h
  | cons y ys => exact List.getLast?_cons_cons

theorem mapAtAll_isSome (m : RuleMap) (ids : List RuleId)
    (h : ∀ id ∈ ids, mapFind m id ≠ none) : ∃ rs, mapAtAll m ids = some rs := by
  induction ids with
  | nil => exact ⟨[], rfl⟩
  | cons id rest ih =>
    obtain ⟨rs, hrs⟩ := ih (fun x hx => h x (List.mem_cons_of_mem _ hx))
    cases hf : mapFind m id with
    | none => exact absurd hf (h id (List.mem_cons_self _ _))
    | some r => exact ⟨r :: rs, by simp [mapAtAll, hf, hrs]⟩

theorem Consistent_init : Channel.init.Consistent := by
  simp [Channel.Consistent, Channel.init, RulesStorage.init, Update.empty]

theorem Consistent_mutation (c c1 : Channel) (a : Call) (hm : a.isMutation = true)
    (hc : c.Consistent) (h : c.step a = some c1) : c1.Consistent := by
  obtain ⟨h1, h2, h3, h4, h5, h6, h7⟩ := hc
  rw [step_mutation c a hm] at h
  cases hp : c.store.in_progress_ with
  | true =>
    have hconn := h2 hp
    obtain ⟨s1, hcall, hp1, hc1, hr1, htouch⟩ := call_in_progress c.store a hp hconn hm
    rw [hcall] at h
    simp only [Option.some.injEq] at h
    subst h
    refine ⟨by simpa [hp1, hp] using h1, fun _ => hc1, fun _ => hp1,
      fun hf => by simp [hp1] at hf, ?_, ?_, ?_⟩
    · cases ht : touchOf c.store a with
      | none =>
        simp only [ht] at htouch
        simpa [htouch] using h5
      | some t =>
        cases t with
        | wrote j =>
          simp only [ht] at htouch
          obtain ⟨hfj, hother, hpend⟩ := htouch
          intro id hid
          simp only [hpend] at hid
          rcases (mem_setInsert _ _ _).1 hid with hh | hh
          · by_cases hj : id = j
            · rw [hj]; exact hfj
            · simp only [hother id hj]; exact h5 id hh
          · rw [hh]; exact hfj
        | erased j =>
          simp only [ht] at htouch
          obtain ⟨hfj, hother, hpend⟩ := htouch
          intro id hid
          simp only [hpend] at hid
          obtain ⟨hh, hj⟩ := (mem_setErase _ _ _).1 hid
          simp only [hother id hj]
          exact h5 id hh
    · cases ht : touchOf c.store a with
      | none =>
        simp only [ht] at htouch
        simpa [htouch] using h6
      | some t =>
        cases t with
        | wrote j =>
          simp only [ht] at htouch
          simp only [htouch.2.2]
          exact nodup_setInsert _ _ h6
        | erased j =>
          simp only [ht] at htouch
          simp only [htouch.2.2]
          exact nodup_setErase _ _ h6
    · cases ht : touchOf c.store a with
      | none =>
        simp only [ht] at htouch
        simpa [htouch] using h7
      | some t =>
        cases t with
        | wrote j =>
          simp only [ht] at htouch
          simp only [htouch.2.2]
          exact h7
        | erased j =>
          simp only [ht] at htouch
          simp only [htouch.2.2]
          exact nodup_setInsert _ _ h7
  | false =>
    have hpe := h4 hp
    have hrec : c.store.client_reconnected_ = false := by
      cases hr : c.store.client_reconnected_ with
      | false => rfl
      | true => rw [h3 hr] at hp; exact absurd hp (by decide)
    simp only [hp, Bool.toNat_false, Nat.add_zero] at h1
    cases a with
    | UpdateRule rule =>
      cases hconn : c.store.client_connected_ <;>
        simp [RulesStorage.call, RulesStorage.UpdateRule, hp, hconn,
          RulesStorage.CollectChanges, mapAtAll, mapFind_mapAssign_self] at h <;>
        subst h <;>
        simp [Channel.Consistent, hp, hconn, hpe, hrec, h1, Update.empty]
    | RemoveRule rule_id =>
      cases hf : mapFind c.store.rules_ rule_id <;>
        cases hconn : c.store.client_connected_ <;>
        simp [RulesStorage.call, RulesStorage.RemoveRule, hp, hconn, hf,
          RulesStorage.CollectChanges, mapAtAll] at h <;>
        subst h <;>
        simp [Channel.Consistent, hp, hconn, hpe, hrec, h1, Update.empty]
    | ModifyInPlace rule_id fn =>
      cases hf : mapFind c.store.rules_ rule_id <;>
        cases hconn : c.store.client_connected_ <;>
        simp [RulesStorage.call, RulesStorage.ModifyInPlace, hp, hconn, hf,
          RulesStorage.CollectChanges, mapAtAll, mapFind_mapAssign_self] at h <;>
        subst h <;>
        simp [Channel.Consistent, hp, hconn, hpe, hrec, h1, Update.empty]
    | ClientConnected => simp [Call.isMutation] at hm
    | DidSendUpdate success => simp [Call.isMutation] at hm

theorem Consistent_ClientConnected (c c1 : Channel) (hc : c.Consistent)
    (h : c.step Call.ClientConnected = some c1) : c1.Consistent := by
  obtain ⟨h1, h2, h3, h4, h5, h6, h7⟩ := hc
  cases hp : c.store.in_progress_ with
  | true =>
    simp [Channel.step, Channel.enabled, RulesStorage.call, RulesStorage.ClientConnected, hp] at h
    subst h
    refine ⟨by simpa [hp] using h1, fun _ => h2 hp, fun _ => rfl, ?_, h5, h6, h7⟩
    intro hf
    simp at hf
  | false =>
    simp [Channel.step, Channel.enabled, RulesStorage.call, RulesStorage.ClientConnected, hp] at h
    subst h
    have hpe := h4 hp
    simp only [hp, Bool.toNat_false, Nat.add_zero] at h1
    simp [Channel.Consistent, hpe, h1, Update.empty]

theorem Consistent_DidSendUpdate (c c1 : Channel) (success : Bool) (hc : c.Consistent)
    (h : c.step (Call.DidSendUpdate success) = some c1) : c1.Consistent := by
  obtain ⟨h1, h2, h3, h4, h5, h6, h7⟩ := hc
  have hen : c.completed < c.sent.length := by
    by_contra hlt
    simp [Channel.step, Channel.enabled, hlt] at h
  have hp : c.store.in_progress_ = true := by
    cases hp : c.store.in_progress_ with
    | true => rfl
    | false =>
      simp only [hp, Bool.toNat_false, Nat.add_zero] at h1
      omega
  simp only [hp, Bool.toNat_true] at h1
  simp only [Channel.step, Channel.enabled, hen, decide_True, if_true, RulesStorage.call] at h
  cases hr : c.store.client_reconnected_ with
  | true =>
    simp [RulesStorage.DidSendUpdate, hr] at h
    subst h
    simp [Channel.Consistent, hp, h1, Update.Clear, Update.empty]
  | false =>
    cases success with
    | false =>
      simp [RulesStorage.DidSendUpdate, hr] at h
      subst h
      simp [Channel.Consistent, hr, h1, Update.Clear, Update.empty]
    | true =>
      cases he : c.store.pending_update_.IsEmpty with
      | true =>
        simp [RulesStorage.DidSendUpdate, hr, he] at h
        subst h
        have hu : c.store.pending_update_ = Update.empty := by
          cases hq : c.store.pending_update_ with
          | mk up rm =>
            rw [hq] at he
            cases up <;> cases rm <;> simp [Update.IsEmpty] at he
            rfl
        simp [Channel.Consistent, hr, h1, hu, Update.empty]
      | false =>
        obtain ⟨rs, hrs⟩ := mapAtAll_isSome c.store.rules_ _ h5
        simp [RulesStorage.DidSendUpdate, hr, he, RulesStorage.CollectChanges, hrs] at h
        subst h
        simp [Channel.Consistent, hp, hr, h1, h2 hp, Update.Clear, Update.empty]

theorem Consistent_step (c c1 : Channel) (a : Call) (hc : c.Consistent)
    (h : c.step a = some c1) : c1.Consistent := by
  cases a with
  | UpdateRule rule => exact Consistent_mutation c c1 (Call.UpdateRule rule) rfl hc h
  | RemoveRule rule_id => exact Consistent_mutation c c1 (Call.RemoveRule rule_id) rfl hc h
  | ModifyInPlace rule_id fn =>
    exact Consistent_mutation c c1 (Call.ModifyInPlace rule_id fn) rfl hc h
  | ClientConnected => exact Consistent_ClientConnected c c1 hc h
  | DidSendUpdate success => exact Consistent_DidSendUpdate c c1 success hc h

theorem Consistent_run :
    ∀ (calls : List Call) (c c1 : Channel), c.Consistent → c.run calls = some c1 →
      c1.Consistent := by
  intro calls
  induction calls with
  | nil =>
    intro c c1 hc h
    simp [Channel.run] at h
    subst h
    exact hc
  | cons a rest ih =>
    intro c c1 hc h
    simp only [Channel.run] at h
    cases hs : c.step a with
    | none => simp [hs] at h
    | some c2 =>
      simp only [hs] at h
      exact ih c2 c1 (Consistent_step c c2 a hc hs) h

/-! ### Dispatching -/

/-- A call dispatches at most one diff, and it dispatches one only when no
send was in progress or when it is a send completion. -/
theorem call_out (s s1 : RulesStorage) (a : Call) (out : List RulesUpdate)
    (h : s.call a = some (s1, out)) :
    out = [] ∨ ∃ d, out = [d] ∧ (s.in_progress_ = false ∨ ∃ ok, a = Call.DidSendUpdate ok) := by
  cases a with
  | UpdateRule rule =>
    cases hc : s.client_connected_ <;> cases hp : s.in_progress_ <;>
      simp [RulesStorage.call, RulesStorage.UpdateRule, hc, hp,
        RulesStorage.CollectChanges, mapAtAll, mapFind_mapAssign_self] at h <;>
      obtain ⟨_, rfl⟩ := h <;> simp
  | RemoveRule rule_id =>
    cases hf : mapFind s.rules_ rule_id <;>
      cases hc : s.client_connected_ <;> cases hp : s.in_progress_ <;>
      simp [RulesStorage.call, RulesStorage.RemoveRule, hc, hp, hf,
        RulesStorage.CollectChanges, mapAtAll] at h <;>
      obtain ⟨_, rfl⟩ := h <;> simp
  | ModifyInPlace rule_id fn =>
    cases hf : mapFind s.rules_ rule_id <;>
      cases hc : s.client_connected_ <;> cases hp : s.in_progress_ <;>
      simp [RulesStorage.call, RulesStorage.ModifyInPlace, hc, hp, hf,
        RulesStorage.CollectChanges, mapAtAll, mapFind_mapAssign_self] at h <;>
      obtain ⟨_, rfl⟩ := h <;> simp
  | ClientConnected =>
    cases hp : s.in_progress_ <;>
      simp [RulesStorage.call, RulesStorage.ClientConnected, hp] at h <;>
      obtain ⟨_, rfl⟩ := h <;> simp
  | DidSendUpdate success =>
    cases hr : s.client_reconnected_ <;> cases success <;>
      cases he : s.pending_update_.IsEmpty <;>
      simp [RulesStorage.call, RulesStorage.DidSendUpdate, hr, he] at h
    all_goals first
      | (obtain ⟨_, rfl⟩ := h; simp)
      | (cases hcc : s.CollectChanges s.pending_update_ <;> simp [hcc] at h
         obtain ⟨_, rfl⟩ := h; simp)

/-- While a send is in progress, a call other than a completion dispatches
nothing, leaves `in_progress_` set and does not clear `client_reconnected_`. -/
theorem call_quiet (s : RulesStorage) (a : Call) (hp : s.in_progress_ = true)
    (hnc : ∀ ok, a ≠ Call.DidSendUpdate ok) :
    ∃ s1, s.call a = some (s1, []) ∧ s1.in_progress_ = true ∧
      (s.client_reconnected_ = true → s1.client_reconnected_ = true) := by
  cases a with
  | UpdateRule rule =>
    cases hc : s.client_connected_ <;>
      simp [RulesStorage.call, RulesStorage.UpdateRule, hc, hp]
  | RemoveRule rule_id =>
    cases hf : mapFind s.rules_ rule_id <;> cases hc : s.client_connected_ <;>
      simp [RulesStorage.call, RulesStorage.RemoveRule, hc, hp, hf]
  | ModifyInPlace rule_id fn =>
    cases hf : mapFind s.rules_ rule_id <;> cases hc : s.client_connected_ <;>
      simp [RulesStorage.call, RulesStorage.ModifyInPlace, hc, hp, hf]
  | ClientConnected =>
    simp [RulesStorage.call, RulesStorage.ClientConnected, hp]
  | DidSendUpdate success => exact absurd rfl (hnc success)

theorem step_of_call (c : Channel) (a : Call) (s1 : RulesStorage) (out : List RulesUpdate)
    (hnc : ∀ ok, a ≠ Call.DidSendUpdate ok) (h : c.store.call a = some (s1, out)) :
    c.step a = some { store := s1, sent := c.sent ++ out, completed := c.completed } := by
  cases a with
  | DidSendUpdate success => exact absurd rfl (hnc success)
  | UpdateRule rule => simp [Channel.step, Channel.enabled, h]
  | RemoveRule rule_id => simp [Channel.step, Channel.enabled, h]
  | ModifyInPlace rule_id fn => simp [Channel.step, Channel.enabled, h]
  | ClientConnected => simp [Channel.step, Channel.enabled, h]

theorem run_quiet :
    ∀ (calls : List Call) (c : Channel), c.store.in_progress_ = true →
      (∀ a ∈ calls, ∀ ok, a ≠ Call.DidSendUpdate ok) →
      ∃ c1, c.run calls = some c1 ∧ c1.sent = c.sent ∧ c1.completed = c.completed ∧
        c1.store.in_progress_ = true ∧
        (c.store.client_reconnected_ = true → c1.store.client_reconnected_ = true) := by
  intro calls
  induction calls with
  | nil => exact fun c hp _ => ⟨c, rfl, rfl, rfl, hp, id⟩
  | cons a rest ih =>
    intro c hp hnc
    obtain ⟨s1, hcall, hp1, hr1⟩ := call_quiet c.store a hp (hnc a (List.mem_cons_self _ _))
    have hstep := step_of_call c a s1 [] (hnc a (List.mem_cons_self _ _)) hcall
    obtain ⟨c1, h1, h2, h3, h4, h5⟩ :=
      ih { store := s1, sent := c.sent ++ [], completed := c.completed } hp1
        (fun b hb => hnc b (List.mem_cons_of_mem _ hb))
    exact ⟨c1, by simp only [Channel.run, hstep]; exact h1, by simpa using h2, h3, h4,
      fun h => h5 (hr1 h)⟩

/-- On a store with no client connected, a mutation call dispatches nothing
and changes nothing but the rule map and the id counter. -/
theorem call_disconnected (s : RulesStorage) (a : Call) (hc : s.client_connected_ = false)
    (hm : a.isMutation = true) :
    ∃ s1, s.call a = some (s1, []) ∧ s1.client_connected_ = false ∧
      s1.client_reconnected_ = s.client_reconnected_ ∧
      s1.in_progress_ = s.in_progress_ ∧ s1.pending_update_ = s.pending_update_ := by
  cases a with
  | UpdateRule rule => simp [RulesStorage.call, RulesStorage.UpdateRule, hc]
  | RemoveRule rule_id =>
    cases hf : mapFind s.rules_ rule_id <;>
      simp [RulesStorage.call, RulesStorage.RemoveRule, hc, hf]
  | ModifyInPlace rule_id fn =>
    cases hf : mapFind s.rules_ rule_id <;>
      simp [RulesStorage.call, RulesStorage.ModifyInPlace, hc, hf]
  | ClientConnected => simp [Call.isMutation] at hm
  | DidSendUpdate success => simp [Call.isMutation] at hm

theorem isMutation_not_completion (a : Call) (hm : a.isMutation = true) :
    ∀ ok, a ≠ Call.DidSendUpdate ok := by
  intro ok h
  subst h
  simp [Call.isMutation] at hm

theorem run_disconnected :
    ∀ (calls : List Call) (c : Channel), c.store.client_connected_ = false →
      (∀ a ∈ calls, a.isMutation = true) →
      ∃ c1, c.run calls = some c1 ∧ c1.sent = c.sent ∧ c1.completed = c.completed ∧
        c1.store.client_connected_ = false ∧
        c1.store.client_reconnected_ = c.store.client_reconnected_ ∧
        c1.store.in_progress_ = c.store.in_progress_ ∧
        c1.store.pending_update_ = c.store.pending_update_ := by
  intro calls
  induction calls with
  | nil => exact fun c hc _ => ⟨c, rfl, rfl, rfl, hc, rfl, rfl, rfl⟩
  | cons a rest ih =>
    intro c hc hm
    have hma := hm a (List.mem_cons_self _ _)
    obtain ⟨s1, hcall, hc1, hr1, hp1, hq1⟩ := call_disconnected c.store a hc hma
    have hstep := step_of_call c a s1 [] (isMutation_not_completion a hma) hcall
    obtain ⟨c1, h1, h2, h3, h4, h5, h6, h7⟩ :=
      ih { store := s1, sent := c.sent ++ [], completed := c.completed } hc1
        (fun b hb => hm b (List.mem_cons_of_mem _ hb))
    exact ⟨c1, by simp only [Channel.run, hstep]; exact h1, by simpa using h2, h3, h4,
      h5.trans hr1, h6.trans hp1, h7.trans hq1⟩

/-! ### The synchronisation protocol -/

/-- C6 (code defect): after ClientConnected, while the full diff is in flight,
rule 5 is written, removed and written again; UpdateRule puts the id back into
the pending updated set without taking it out of the pending removed set. The
follow-up diff lists rule 5 both as updated and as removed. Once every send has
completed the store holds rule 5, but the map the observer builds from the
dispatched diffs with RulesUpdated does not. -/
theorem observer_diverges_on_readd :
    (Channel.init.run
        [Call.ClientConnected,
         Call.UpdateRule (Rule.mk3 5 RulePermission.Allow ⟨"/bin/app"⟩),
         Call.RemoveRule 5,
         Call.UpdateRule (Rule.mk3 5 RulePermission.Allow ⟨"/bin/app"⟩),
         Call.DidSendUpdate true,
         Call.DidSendUpdate true]).map
      (fun c => (c.store.in_progress_, c.sent, mapFind c.store.rules_ 5,
                 mapFind (observe ⟨[]⟩ c.sent).rules_ 5))
      = some (false,
              [⟨true, [], []⟩,
               ⟨false, [Rule.mk3 5 RulePermission.Allow ⟨"/bin/app"⟩], [5]⟩],
              some (Rule.mk3 5 RulePermission.Allow ⟨"/bin/app"⟩),
              none) := by
  rfl

theorem step_sent (c c1 : Channel) (a : Call) (h : c.step a = some c1) :
    c1.sent = c.sent ∨
      ∃ d, c1.sent = c.sent ++ [d] ∧
        (c.store.in_progress_ = false ∨ ∃ ok, a = Call.DidSendUpdate ok) := by
  unfold Channel.step at h
  by_cases hen : c.enabled a = true
  · simp only [hen, if_true] at h
    cases hcall : c.store.call a with
    | none => simp [hcall] at h
    | some res =>
      obtain ⟨s1, out⟩ := res
      simp only [hcall, Option.some.injEq] at h
      subst h
      rcases call_out _ _ _ _ hcall with ho | ⟨d, ho, hd⟩
      · left; simp [ho]
      · right; exact ⟨d, by simp [ho], hd⟩
  · simp [hen] at h

theorem inFlight_of_Consistent (c : Channel) (hc : c.Consistent) :
    c.inFlight = c.store.in_progress_.toNat := by
  unfold Channel.inFlight
  rw [hc.1]
  omega

/-- C9: at most one sync message in flight. In every state reached from the
initial state by UpdateRule, RemoveRule, ModifyInPlace, ClientConnected and
completions (success or failure) of outstanding sends, the number of diffs
dispatched and not yet completed is at most 1, and it is 1 exactly when
in_progress is set; and every further step keeps it so, dispatches at most one
diff, and dispatches one only if in_progress was false before the step or the
step is the completion of the previous diff. -/
theorem at_most_one_in_flight (calls : List Call) (c : Channel)
    (h : Channel.init.run calls = some c) :
    c.inFlight ≤ 1 ∧ (c.inFlight = 1 ↔ c.store.in_progress_ = true) ∧
    ∀ (a : Call) (c1 : Channel), c.step a = some c1 →
      c1.inFlight ≤ 1 ∧
      (c1.sent = c.sent ∨
        ∃ d, c1.sent = c.sent ++ [d] ∧
          (c.store.in_progress_ = false ∨ ∃ ok, a = Call.DidSendUpdate ok)) := by
  have hc := Consistent_run calls _ c Consistent_init h
  have hf := inFlight_of_Consistent c hc
  refine ⟨?_, ?_, ?_⟩
  · rw [hf]
    cases c.store.in_progress_ <;> simp
  · rw [hf]
    cases c.store.in_progress_ <;> simp
  · intro a c1 hstep
    have hf1 := inFlight_of_Consistent c1 (Consistent_step c c1 a hc hstep)
    refine ⟨?_, step_sent c c1 a hstep⟩
    rw [hf1]
    cases c1.store.in_progress_ <;> simp

theorem at_most_one_in_flight_witness :
    (Channel.mk
        ⟨2, [(1, ⟨1, RulePermission.Deny, ⟨"/bin/app"⟩, none, 0⟩)], true, false, true,
          ⟨[1], []⟩⟩
        [⟨true, [], []⟩] 0).inFlight ≤ 1 :=
  (at_most_one_in_flight
    [Call.ClientConnected, Call.UpdateRule (Rule.mk3 0 RulePermission.Deny ⟨"/bin/app"⟩)]
    (Channel.mk
        ⟨2, [(1, ⟨1, RulePermission.Deny, ⟨"/bin/app"⟩, none, 0⟩)], true, false, true,
          ⟨[1], []⟩⟩
        [⟨true, [], []⟩] 0)
    (by rfl)).1

/-- C8: reconnect supersedes backlog. In a reachable state with a send in
flight, after ClientConnected and then any calls other than completions
(mutations, further ClientConnected calls), nothing has been dispatched; the
completion of the in-flight send, with success or failure, dispatches exactly
one diff, a full one listing every rule stored at that time with an empty
removed list; the pending set is emptied, client_reconnected is cleared,
client_connected is true, a send remains in progress and the rule map is as
before the completion. -/
theorem reconnect_supersedes_backlog (pre : List Call) (c : Channel)
    (hreach : Channel.init.run pre = some c) (hprog : c.store.in_progress_ = true)
    (calls : List Call) (hcalls : ∀ a ∈ calls, ∀ ok, a ≠ Call.DidSendUpdate ok)
    (success : Bool) :
    ∃ c1 c2 c3, c.step Call.ClientConnected = some c1 ∧ c1.sent = c.sent ∧
      c1.store.client_reconnected_ = true ∧
      c1.run calls = some c2 ∧ c2.sent = c.sent ∧
      c2.step (Call.DidSendUpdate success) = some c3 ∧
      c3.sent = c.sent ++
        [{ is_full := true, updated := c2.store.rules_.map Prod.snd, removed := [] }] ∧
      c3.store.rules_ = c2.store.rules_ ∧
      c3.store.pending_update_ = Update.empty ∧
      c3.store.client_reconnected_ = false ∧
      c3.store.client_connected_ = true ∧
      c3.store.in_progress_ = true := by
  have hc := Consistent_run pre _ c Consistent_init hreach
  have hlen : c.sent.length = c.completed + 1 := by
    have := hc.1
    simpa [hprog] using this
  have hstep1 : c.step Call.ClientConnected =
      some { store := { c.store with client_reconnected_ := true },
             sent := c.sent, completed := c.completed } := by
    simp [Channel.step, Channel.enabled, RulesStorage.call, RulesStorage.ClientConnected,
      hprog]
  obtain ⟨c2, hrun, hsent2, hcomp2, hprog2, hrec2⟩ :=
    run_quiet calls { store := { c.store with client_reconnected_ := true },
                      sent := c.sent, completed := c.completed } hprog hcalls
  have hrec2 := hrec2 rfl
  have hen : c2.completed < c2.sent.length := by
    rw [hsent2, hcomp2]
    show c.completed < c.sent.length
    omega
  refine ⟨_, c2,
    { store := { c2.store with client_connected_ := true, client_reconnected_ := false,
                               pending_update_ := Update.empty },
      sent := c2.sent ++
        [{ is_full := true, updated := c2.store.rules_.map Prod.snd, removed := [] }],
      completed := c2.completed + 1 },
    hstep1, rfl, rfl, hrun, hsent2, ?_, ?_, rfl, rfl, rfl, rfl, hprog2⟩
  · simp [Channel.step, Channel.enabled, hen, RulesStorage.call, RulesStorage.DidSendUpdate,
      hrec2, RulesStorage.FullUpdate, Update.Clear]
  · simp [hsent2]

theorem reconnect_supersedes_backlog_witness :
    ∃ c1 c2 c3,
      (Channel.mk
        ⟨2, [(1, ⟨1, RulePermission.Deny, ⟨"/bin/app"⟩, none, 0⟩)], true, false, true,
          ⟨[1], []⟩⟩
        [⟨true, [], []⟩] 0).step Call.ClientConnected = some c1 ∧
      c1.run [Call.RemoveRule 1, Call.RemoveRule 9] = some c2 ∧
      c2.step (Call.DidSendUpdate false) = some c3 ∧
      c3.sent = [⟨true, [], []⟩, ⟨true, c2.store.rules_.map Prod.snd, []⟩] ∧
      c3.store.pending_update_ = Update.empty ∧
      c3.store.client_connected_ = true := by
  obtain ⟨c1, c2, c3, h1, _, _, h4, _, h6, h7, _, h9, _, h11, _⟩ :=
    reconnect_supersedes_backlog
      [Call.ClientConnected, Call.UpdateRule (Rule.mk3 0 RulePermission.Deny ⟨"/bin/app"⟩)]
      (Channel.mk
        ⟨2, [(1, ⟨1, RulePermission.Deny, ⟨"/bin/app"⟩, none, 0⟩)], true, false, true,
          ⟨[1], []⟩⟩
        [⟨true, [], []⟩] 0)
      (by rfl) rfl
      [Call.RemoveRule 1, Call.RemoveRule 9]
      (by
        intro a ha ok
        simp at ha
        rcases ha with h | h <;> subst h <;> simp)
      false
  exact ⟨c1, c2, c3, h1, h4, h6, h7, h9, h11⟩

/-- C10: delivery failure demotes the store. In a reachable state with a send
in flight and no reconnect flagged, the failed completion dispatches nothing
and changes only client_connected (now false), in_progress (now false) and the
pending set (now empty); the rule map and the id counter are untouched. From
then on, UpdateRule, RemoveRule and ModifyInPlace calls (any number, until the
next ClientConnected) dispatch nothing and keep client_connected = false,
in_progress = false, client_reconnected = false and the pending set empty. -/
theorem delivery_failure_demotes (pre : List Call) (c : Channel)
    (hreach : Channel.init.run pre = some c) (hprog : c.store.in_progress_ = true)
    (hrec : c.store.client_reconnected_ = false)
    (calls : List Call) (hmut : ∀ a ∈ calls, a.isMutation = true) :
    ∃ c1 c2, c.step (Call.DidSendUpdate false) = some c1 ∧ c1.sent = c.sent ∧
      c1.store = { c.store with client_connected_ := false, in_progress_ := false,
                                pending_update_ := Update.empty } ∧
      c1.run calls = some c2 ∧ c2.sent = c.sent ∧
      c2.store.client_connected_ = false ∧ c2.store.in_progress_ = false ∧
      c2.store.client_reconnected_ = false ∧ c2.store.pending_update_ = Update.empty := by
  have hc := Consistent_run pre _ c Consistent_init hreach
  have hen : c.completed < c.sent.length := by
    have := hc.1
    simp only [hprog, Bool.toNat_true] at this
    omega
  have hstep : c.step (Call.DidSendUpdate false) =
      some { store := { c.store with client_connected_ := false, in_progress_ := false,
                                     pending_update_ := Update.empty },
             sent := c.sent, completed := c.completed + 1 } := by
    simp [Channel.step, Channel.enabled, hen, RulesStorage.call, RulesStorage.DidSendUpdate,
      hrec, Update.Clear]
  obtain ⟨c2, h1, h2, _, h4, h5, h6, h7⟩ :=
    run_disconnected calls
      { store := { c.store with client_connected_ := false, in_progress_ := false,
                                pending_update_ := Update.empty },
        sent := c.sent, completed := c.completed + 1 } rfl hmut
  exact ⟨_, c2, hstep, rfl, rfl, h1, h2, h4, h6, h5.trans hrec, h7⟩

theorem delivery_failure_demotes_witness :
    ∃ c1 c2,
      (Channel.mk
        ⟨2, [(1, ⟨1, RulePermission.Deny, ⟨"/bin/app"⟩, none, 0⟩)], true, false, true,
          ⟨[1], []⟩⟩
        [⟨true, [], []⟩] 0).step (Call.DidSendUpdate false) = some c1 ∧
      c1.store = ⟨2, [(1, ⟨1, RulePermission.Deny, ⟨"/bin/app"⟩, none, 0⟩)], false, false,
          false, ⟨[], []⟩⟩ ∧
      c1.run [Call.RemoveRule 1,
              Call.UpdateRule (Rule.mk3 0 RulePermission.Allow ⟨"/bin/app"⟩)] = some c2 ∧
      c2.sent = [⟨true, [], []⟩] ∧ c2.store.in_progress_ = false := by
  obtain ⟨c1, c2, h1, _, h3, h4, h5, _, h7, _⟩ :=
    delivery_failure_demotes
      [Call.ClientConnected, Call.UpdateRule (Rule.mk3 0 RulePermission.Deny ⟨"/bin/app"⟩)]
      (Channel.mk
        ⟨2, [(1, ⟨1, RulePermission.Deny, ⟨"/bin/app"⟩, none, 0⟩)], true, false, true,
          ⟨[1], []⟩⟩
        [⟨true, [], []⟩] 0)
      (by rfl) rfl rfl
      [Call.RemoveRule 1, Call.UpdateRule (Rule.mk3 0 RulePermission.Allow ⟨"/bin/app"⟩)]
      (by
        intro a ha
        simp at ha
        rcases ha with h | h <;> subst h <;> rfl)
  exact ⟨c1, c2, h1, h3, h4, h5, h7⟩

theorem observe_append (m : nf_manager) (l : List RulesUpdate) (d : RulesUpdate) :
    observe m (l ++ [d]) = (observe m l).RulesUpdated d := by
  induction l generalizing m with
  | nil => rfl
  | cons u rest ih => simp [observe, ih]

theorem mapFind_append_single (m : RuleMap) (k id : RuleId) (v : Rule) :
    mapFind (m ++ [(k, v)]) id =
      match mapFind m id with
      | some r => some r
      | none => if k = id then some v else none := by
  induction m with
  | nil => simp [mapFind]
  | cons e rest ih =>
    obtain ⟨j, w⟩ := e
    by_cases hj : j = id
    · simp [mapFind, hj]
    · simp [mapFind, hj, ih]

theorem mapFind_emplaceAll (rs : List Rule) :
    ∀ (m : RuleMap) (id : RuleId),
      mapFind (emplaceAll m rs) id =
        match mapFind m id with
        | some r => some r
        | none => rs.find? (fun r => decide (r.Id = id)) := by
  induction rs with
  | nil =>
    intro m id
    cases h : mapFind m id <;> simp [emplaceAll, h]
  | cons r rest ih =>
    intro m id
    cases hr : mapFind m r.Id with
    | some old =>
      simp only [emplaceAll, hr]
      rw [ih m id]
      cases hm : mapFind m id with
      | some x => rfl
      | none =>
        have hne : ¬ r.Id = id := by
          intro h
          rw [h] at hr
          rw [hr] at hm
          exact absurd hm (by simp)
        simp [List.find?_cons, hne]
    | none =>
      simp only [emplaceAll, hr]
      rw [ih (m ++ [(r.Id, r)]) id, mapFind_append_single]
      cases hm : mapFind m id with
      | some x => rfl
      | none =>
        by_cases hne : r.Id = id
        · simp [List.find?_cons, hne]
        · simp [List.find?_cons, hne]

theorem find?_values_of_WF (m : RuleMap) (id : RuleId) (h : ∀ kv ∈ m, kv.2.Id = kv.1) :
    (m.map Prod.snd).find? (fun r => decide (r.Id = id)) = mapFind m id := by
  induction m with
  | nil => rfl
  | cons e rest ih =>
    obtain ⟨k, v⟩ := e
    have hk : v.Id = k := h (k, v) (List.mem_cons_self _ _)
    have ih2 := ih (fun kv hkv => h kv (List.mem_cons_of_mem _ hkv))
    by_cases hj : k = id
    · simp [mapFind, List.find?_cons, hk, hj]
    · simp [mapFind, List.find?_cons, hk, hj, ih2]

/-- A full diff of a well-formed rule map rebuilds that map at the observer. -/
theorem mapFind_full (m : RuleMap) (id : RuleId) (h : RuleMapWF m) :
    mapFind (emplaceAll [] (m.map Prod.snd)) id = mapFind m id := by
  rw [mapFind_emplaceAll]
  simp only [mapFind]
  exact find?_values_of_WF m id h.2

theorem mapFind_eraseAll (ids : List RuleId) :
    ∀ (m : RuleMap) (id : RuleId),
      mapFind (eraseAll m ids) id = if id ∈ ids then none else mapFind m id := by
  induction ids with
  | nil => intro m id; simp [eraseAll]
  | cons j rest ih =>
    intro m id
    simp only [eraseAll]
    rw [ih]
    by_cases hr : id ∈ rest
    · simp [hr]
    · by_cases hj : id = j
      · subst hj
        simp [hr, mapFind_mapErase_self]
      · simp [hr, hj, mapFind_mapErase_ne _ _ _ hj]

theorem mapFind_insertOrAssignAll (R : RuleMap) (hwf : RuleMapWF R) :
    ∀ (ids : List RuleId) (rs : List Rule) (m : RuleMap) (id : RuleId),
      mapAtAll R ids = some rs →
      mapFind (insertOrAssignAll m rs) id =
        if id ∈ ids then mapFind R id else mapFind m id := by
  intro ids
  induction ids with
  | nil =>
    intro rs m id h
    simp [mapAtAll] at h
    subst h
    simp [insertOrAssignAll]
  | cons j rest ih =>
    intro rs m id h
    cases hf : mapFind R j with
    | none => simp [mapAtAll, hf] at h
    | some r =>
      cases hr : mapAtAll R rest with
      | none => simp [mapAtAll, hf, hr] at h
      | some tail =>
        simp [mapAtAll, hf, hr] at h
        subst h
        have hid : r.Id = j := hwf.2 (j, r) (mem_of_mapFind _ _ _ hf)
        simp only [insertOrAssignAll, hid]
        rw [ih tail (mapAssign m j r) id hr]
        by_cases hrest : id ∈ rest
        · simp [hrest]
        · by_cases hj : id = j
          · subst hj
            simp [hrest, mapFind_mapAssign_self, hf]
          · simp [hrest, hj, mapFind_mapAssign_ne _ _ _ _ hj]

/-- On a connected store with no send in progress, a mutation call of the
firewall dispatches exactly the change it makes to the rule map. -/
theorem call_idle (s : RulesStorage) (a : EngineCall)
    (hm : a.toCall.isMutation = true) (hc : s.client_connected_ = true)
    (hp : s.in_progress_ = false) (hwf : RuleMapWF s.rules_) :
    ∃ s1 out, s.call a.toCall = some (s1, out) ∧ s1.client_connected_ = true ∧
      s1.pending_update_ = s.pending_update_ ∧
      (match touchOf s a.toCall with
        | none => s1 = s ∧ out = []
        | some (Touch.wrote j) =>
          ∃ r, r.Id = j ∧ mapFind s1.rules_ j = some r ∧
            (∀ k, k ≠ j → mapFind s1.rules_ k = mapFind s.rules_ k) ∧
            out = [{ is_full := false, updated := [r], removed := [] }]
        | some (Touch.erased j) =>
          mapFind s1.rules_ j = none ∧
            (∀ k, k ≠ j → mapFind s1.rules_ k = mapFind s.rules_ k) ∧
            out = [{ is_full := false, updated := [], removed := [j] }]) := by
  cases a with
  | UpdateRule rule =>
    refine ⟨{ s with
        last_id_ := (s.assignId rule).2,
        rules_ := mapAssign s.rules_ (s.assignId rule).1.Id (s.assignId rule).1,
        in_progress_ := true },
      [{ is_full := false, updated := [(s.assignId rule).1], removed := [] }],
      by simp [EngineCall.toCall, RulesStorage.call, RulesStorage.UpdateRule, hp, hc,
        RulesStorage.CollectChanges, mapAtAll, mapFind_mapAssign_self],
      hc, rfl, ?_⟩
    simp only [EngineCall.toCall, touchOf]
    exact ⟨(s.assignId rule).1, rfl, mapFind_mapAssign_self _ _ _,
      fun k hk => mapFind_mapAssign_ne _ _ _ _ hk, rfl⟩
  | RemoveRule rule_id =>
    cases hf : mapFind s.rules_ rule_id with
    | none =>
      exact ⟨s, [], by simp [EngineCall.toCall, RulesStorage.call, RulesStorage.RemoveRule, hf],
        hc, rfl, by simp [EngineCall.toCall, touchOf, hf]⟩
    | some found =>
      refine ⟨{ s with rules_ := mapErase s.rules_ rule_id, in_progress_ := true },
        [{ is_full := false, updated := [], removed := [rule_id] }],
        by simp [EngineCall.toCall, RulesStorage.call, RulesStorage.RemoveRule, hf, hp, hc,
          RulesStorage.CollectChanges, mapAtAll],
        hc, rfl, ?_⟩
      simp only [EngineCall.toCall, touchOf, hf, Option.isSome_some, if_true]
      exact ⟨mapFind_mapErase_self _ _, fun k hk => mapFind_mapErase_ne _ _ _ hk, trivial⟩
  | UpdateRuleAccessTime rule_id time =>
    cases hf : mapFind s.rules_ rule_id with
    | none =>
      exact ⟨s, [],
        by simp [EngineCall.toCall, RulesStorage.call, RulesStorage.ModifyInPlace, hf],
        hc, rfl, by simp [EngineCall.toCall, touchOf, hf]⟩
    | some found =>
      refine ⟨{ s with rules_ := mapAssign s.rules_ rule_id (found.WithAccessTime time),
                       in_progress_ := true },
        [{ is_full := false, updated := [found.WithAccessTime time], removed := [] }],
        by simp [EngineCall.toCall, RulesStorage.call, RulesStorage.ModifyInPlace, hf, hp,
          hc, RulesStorage.CollectChanges, mapAtAll, mapFind_mapAssign_self],
        hc, rfl, ?_⟩
      simp only [EngineCall.toCall, touchOf, hf, Option.isSome_some, if_true]
      exact ⟨found.WithAccessTime time, hwf.2 (rule_id, found) (mem_of_mapFind _ _ _ hf),
        mapFind_mapAssign_self _ _ _, fun k hk => mapFind_mapAssign_ne _ _ _ _ hk, rfl⟩
  | ClientConnected => simp [EngineCall.toCall, Call.isMutation] at hm
  | DidSendUpdate success => simp [EngineCall.toCall, Call.isMutation] at hm

theorem Synced_mutation (c c1 : Channel) (a : EngineCall)
    (hm : a.toCall.isMutation = true)
    (hcons : c.Consistent) (hwf : RuleMapWF c.store.rules_) (hs : c.Synced)
    (hno : noReadd c.store a = true) (h : c.step a.toCall = some c1) : c1.Synced := by
  rw [step_mutation c a.toCall hm] at h
  cases hc : c.store.client_connected_ with
  | false =>
    obtain ⟨s1, hcall, hc1, _⟩ := call_disconnected c.store a.toCall hc hm
    rw [hcall] at h
    simp only [Option.some.injEq] at h
    subst h
    intro hconn
    rw [hc1] at hconn
    exact absurd hconn (by decide)
  | true =>
    obtain ⟨hsync, hrem⟩ := hs hc
    cases hp : c.store.in_progress_ with
    | true =>
      obtain ⟨s1, hcall, _, _, _, htouch⟩ := call_in_progress c.store a.toCall hp hc hm
      rw [hcall] at h
      simp only [Option.some.injEq] at h
      subst h
      intro _
      simp only [List.append_nil]
      cases ht : touchOf c.store a.toCall with
      | none =>
        simp only [ht] at htouch
        rw [htouch]
        exact ⟨hsync, hrem⟩
      | some t =>
        cases t with
        | wrote j =>
          simp only [ht] at htouch
          obtain ⟨hfj, hother, hpend⟩ := htouch
          have hjD : j ∉ c.store.pending_update_.removed := by
            cases a with
            | UpdateRule rule =>
              simp only [EngineCall.toCall, touchOf, Option.some.injEq,
                Touch.wrote.injEq] at ht
              simpa [noReadd, ht] using hno
            | RemoveRule rule_id =>
              simp only [EngineCall.toCall, touchOf] at ht
              split at ht <;> simp at ht
            | UpdateRuleAccessTime rule_id time =>
              simp only [EngineCall.toCall, touchOf] at ht
              split at ht
              · rename_i hsome
                simp only [Option.some.injEq, Touch.wrote.injEq] at ht
                subst ht
                intro hmem
                rw [hrem _ hmem] at hsome
                simp at hsome
              · simp at ht
            | ClientConnected => simp [EngineCall.toCall, touchOf] at ht
            | DidSendUpdate success => simp [EngineCall.toCall, touchOf] at ht
          refine ⟨?_, ?_⟩
          · intro id hU hD
            rw [hpend] at hU hD
            have hne : id ≠ j := fun e => hU ((mem_setInsert _ _ _).2 (Or.inr e))
            rw [hother id hne]
            exact hsync id (fun hh => hU ((mem_setInsert _ _ _).2 (Or.inl hh))) hD
          · intro id hD
            rw [hpend] at hD
            have hne : id ≠ j := fun e => hjD (e ▸ hD)
            rw [hother id hne]
            exact hrem id hD
        | erased j =>
          simp only [ht] at htouch
          obtain ⟨hfj, hother, hpend⟩ := htouch
          refine ⟨?_, ?_⟩
          · intro id hU hD
            rw [hpend] at hU hD
            have hne : id ≠ j := fun e => hD ((mem_setInsert _ _ _).2 (Or.inr e))
            rw [hother id hne]
            exact hsync id (fun hh => hU ((mem_setErase _ _ _).2 ⟨hh, hne⟩))
              (fun hh => hD ((mem_setInsert _ _ _).2 (Or.inl hh)))
          · intro id hD
            rw [hpend] at hD
            rcases (mem_setInsert _ _ _).1 hD with hh | hh
            · by_cases hne : id = j
              · rw [hne]; exact hfj
              · rw [hother id hne]; exact hrem id hh
            · rw [hh]; exact hfj
    | false =>
      have hpe : c.store.pending_update_ = Update.empty := hcons.2.2.2.1 hp
      have hall : ∀ id, mapFind (observe ⟨[]⟩ c.sent).rules_ id = mapFind c.store.rules_ id :=
        fun id => hsync id (by simp [hpe, Update.empty]) (by simp [hpe, Update.empty])
      obtain ⟨s1, out, hcall, hc1, hpend, htouch⟩ := call_idle c.store a hm hc hp hwf
      rw [hcall] at h
      simp only [Option.some.injEq] at h
      subst h
      intro _
      have hU : s1.pending_update_.updated = [] := by rw [hpend, hpe]; rfl
      have hD : s1.pending_update_.removed = [] := by rw [hpend, hpe]; rfl
      refine ⟨?_, by simp [hD]⟩
      intro id _ _
      cases ht : touchOf c.store a.toCall with
      | none =>
        simp only [ht] at htouch
        obtain ⟨rfl, rfl⟩ := htouch
        simpa using hall id
      | some t =>
        cases t with
        | wrote j =>
          simp only [ht] at htouch
          obtain ⟨r, hrid, hfj, hother, hout⟩ := htouch
          subst hout
          simp only [observe_append, nf_manager.RulesUpdated, Bool.false_eq_true, if_false,
            insertOrAssignAll, eraseAll, hrid]
          by_cases hne : id = j
          · rw [hne, mapFind_mapAssign_self, hfj]
          · rw [mapFind_mapAssign_ne _ _ _ _ hne, hother id hne]
            exact hall id
        | erased j =>
          simp only [ht] at htouch
          obtain ⟨hfj, hother, hout⟩ := htouch
          subst hout
          simp only [observe_append, nf_manager.RulesUpdated, Bool.false_eq_true, if_false,
            insertOrAssignAll, eraseAll]
          by_cases hne : id = j
          · rw [hne, mapFind_mapErase_self, hfj]
          · rw [mapFind_mapErase_ne _ _ _ hne, hother id hne]
            exact hall id

theorem Synced_ClientConnected (c c1 : Channel)
    (hcons : c.Consistent) (hwf : RuleMapWF c.store.rules_) (hs : c.Synced)
    (h : c.step Call.ClientConnected = some c1) : c1.Synced := by
  cases hp : c.store.in_progress_ with
  | true =>
    simp [Channel.step, Channel.enabled, RulesStorage.call, RulesStorage.ClientConnected, hp] at h
    subst h
    exact hs
  | false =>
    have hpe : c.store.pending_update_ = Update.empty := hcons.2.2.2.1 hp
    simp [Channel.step, Channel.enabled, RulesStorage.call, RulesStorage.ClientConnected, hp] at h
    subst h
    intro _
    refine ⟨?_, by simp [hpe, Update.empty]⟩
    intro id _ _
    simp only [observe_append, nf_manager.RulesUpdated, RulesStorage.FullUpdate, if_true]
    exact mapFind_full _ id hwf

theorem Synced_DidSendUpdate (c c1 : Channel) (success : Bool)
    (hcons : c.Consistent) (hwf : RuleMapWF c.store.rules_) (hs : c.Synced)
    (h : c.step (Call.DidSendUpdate success) = some c1) : c1.Synced := by
  obtain ⟨h1, h2, h3, h4, h5, h6, h7⟩ := hcons
  have hen : c.completed < c.sent.length := by
    by_contra hlt
    simp [Channel.step, Channel.enabled, hlt] at h
  have hp : c.store.in_progress_ = true := by
    cases hp : c.store.in_progress_ with
    | true => rfl
    | false =>
      simp only [hp, Bool.toNat_false, Nat.add_zero] at h1
      omega
  obtain ⟨hsync, hrem⟩ := hs (h2 hp)
  simp only [Channel.step, Channel.enabled, hen, decide_True, if_true, RulesStorage.call] at h
  cases hr : c.store.client_reconnected_ with
  | true =>
    simp [RulesStorage.DidSendUpdate, hr] at h
    subst h
    intro _
    refine ⟨?_, by simp [Update.Clear, Update.empty]⟩
    intro id _ _
    simp only [observe_append, nf_manager.RulesUpdated, RulesStorage.FullUpdate, if_true]
    exact mapFind_full _ id hwf
  | false =>
    cases success with
    | false =>
      simp [RulesStorage.DidSendUpdate, hr] at h
      subst h
      intro hconn
      simp at hconn
    | true =>
      cases he : c.store.pending_update_.IsEmpty with
      | true =>
        simp [RulesStorage.DidSendUpdate, hr, he] at h
        subst h
        intro _
        exact ⟨hsync, hrem⟩
      | false =>
        obtain ⟨rs, hrs⟩ := mapAtAll_isSome c.store.rules_ _ h5
        simp [RulesStorage.DidSendUpdate, hr, he, RulesStorage.CollectChanges, hrs] at h
        subst h
        intro _
        refine ⟨?_, by simp [Update.Clear, Update.empty]⟩
        intro id _ _
        simp only [observe_append, nf_manager.RulesUpdated, Bool.false_eq_true, if_false]
        rw [mapFind_eraseAll]
        by_cases hD : id ∈ c.store.pending_update_.removed
        · simp only [hD, if_true]
          exact (hrem id hD).symm
        · simp only [hD, if_false]
          rw [mapFind_insertOrAssignAll c.store.rules_ hwf _ rs _ id hrs]
          by_cases hU : id ∈ c.store.pending_update_.updated
          · simp [hU]
          · simp only [hU, if_false]
            exact hsync id hU hD

theorem Synced_step (c c1 : Channel) (a : EngineCall)
    (hcons : c.Consistent) (hwf : RuleMapWF c.store.rules_) (hs : c.Synced)
    (hno : noReadd c.store a = true) (h : c.step a.toCall = some c1) : c1.Synced := by
  cases a with
  | UpdateRule rule =>
    exact Synced_mutation c c1 (EngineCall.UpdateRule rule) rfl hcons hwf hs hno h
  | RemoveRule rule_id =>
    exact Synced_mutation c c1 (EngineCall.RemoveRule rule_id) rfl hcons hwf hs hno h
  | UpdateRuleAccessTime rule_id time =>
    exact Synced_mutation c c1 (EngineCall.UpdateRuleAccessTime rule_id time) rfl hcons hwf
      hs hno h
  | ClientConnected => exact Synced_ClientConnected c c1 hcons hwf hs h
  | DidSendUpdate success => exact Synced_DidSendUpdate c c1 success hcons hwf hs h

theorem step_store_call (c c1 : Channel) (a : Call) (h : c.step a = some c1) :
    ∃ out, c.store.call a = some (c1.store, out) := by
  unfold Channel.step at h
  by_cases hen : c.enabled a = true
  · simp only [hen, if_true] at h
    cases hcall : c.store.call a with
    | none => simp [hcall] at h
    | some res =>
      obtain ⟨s1, out⟩ := res
      simp only [hcall, Option.some.injEq] at h
      subst h
      exact ⟨out, rfl⟩
  · simp [hen] at h

theorem runNoReadd_invariant :
    ∀ (calls : List EngineCall) (c c1 : Channel),
      c.Consistent → RuleMapWF c.store.rules_ → c.Synced →
      c.runNoReadd calls = some c1 →
      c1.Consistent ∧ RuleMapWF c1.store.rules_ ∧ c1.Synced := by
  intro calls
  induction calls with
  | nil =>
    intro c c1 hc hwf hs h
    simp [Channel.runNoReadd] at h
    subst h
    exact ⟨hc, hwf, hs⟩
  | cons a rest ih =>
    intro c c1 hc hwf hs h
    simp only [Channel.runNoReadd] at h
    by_cases hno : noReadd c.store a = true
    · simp only [hno, if_true] at h
      cases hstep : c.step a.toCall with
      | none => simp [hstep] at h
      | some c2 =>
        simp only [hstep] at h
        obtain ⟨out, hcall⟩ := step_store_call c c2 _ hstep
        exact ih c2 c1 (Consistent_step c c2 _ hc hstep)
          (RuleMapWF_call _ _ _ _ hwf hcall)
          (Synced_step c c2 a hc hwf hs hno hstep) h
    · simp [hno] at h

/-- Convergence without the re-add case of C6: in every state reached from the
freshly constructed store by calls of the firewall none of which is an
UpdateRule that stores its rule under an id of the pending removed set,
whenever a client is connected and no send is in progress, the map the
observer builds from the dispatched diffs, in dispatch order, equals the
store's rule map at every id. -/
theorem observer_converges_without_readd (calls : List EngineCall) (c : Channel)
    (h : Channel.init.runNoReadd calls = some c)
    (hconn : c.store.client_connected_ = true) (hidle : c.store.in_progress_ = false) :
    ∀ id, mapFind (observe ⟨[]⟩ c.sent).rules_ id = mapFind c.store.rules_ id := by
  have hwf0 : RuleMapWF Channel.init.store.rules_ := by
    simp [RuleMapWF, Channel.init, RulesStorage.init, mapKeys]
  have hs0 : Channel.init.Synced := by
    intro hc
    simp [Channel.init, RulesStorage.init] at hc
  obtain ⟨hc, _, hs⟩ := runNoReadd_invariant calls _ c Consistent_init hwf0 hs0 h
  have hpe : c.store.pending_update_ = Update.empty := hc.2.2.2.1 hidle
  intro id
  exact (hs hconn).1 id (by simp [hpe, Update.empty]) (by simp [hpe, Update.empty])

/-! ### ClientConnected when idle, and stale references -/

theorem mapFind_of_mem (m : RuleMap) (k : RuleId) (r : Rule)
    (hnd : (mapKeys m).Nodup) (h : (k, r) ∈ m) : mapFind m k = some r := by
  induction m with
  | nil => simp at h
  | cons e rest ih =>
    obtain ⟨j, v⟩ := e
    simp only [mapKeys, List.map_cons, List.nodup_cons] at hnd
    rcases List.mem_cons.1 h with heq | hmem
    · cases heq
      simp [mapFind]
    · have hne : ¬ j = k := by
        intro hjk
        exact hnd.1 (List.mem_map.2 ⟨(k, r), hmem, hjk.symm⟩)
      simp only [mapFind, hne, if_false]
      exact ih hnd.2 hmem

theorem values_nodup_of_WF (m : RuleMap) (h : RuleMapWF m) : (m.map Prod.snd).Nodup := by
  have hk : (m.map Prod.snd).map Rule.Id = mapKeys m := by
    simp only [mapKeys, List.map_map]
    apply List.map_congr_left
    intro kv hkv
    exact h.2 kv hkv
  have : ((m.map Prod.snd).map Rule.Id).Nodup := by rw [hk]; exact h.1
  exact List.Nodup.of_map _ this

/-- C11: ClientConnected on a store with no send in progress. The call sets
client_connected and in_progress and changes nothing else (rule map, counter,
pending set, client_reconnected); it dispatches exactly one diff, with is_full
= true, an empty removed list, and an updated list that is the list of the
values of the rule map: one item per stored entry and nothing else. When the
map is well formed (distinct keys, each rule under its own id) the list has no
duplicate and holds exactly the rules the map returns on lookup. -/
theorem ClientConnected_idle (s : RulesStorage) (hidle : s.in_progress_ = false) :
    ∃ d, s.ClientConnected
        = some ({ s with client_connected_ := true, in_progress_ := true }, [d]) ∧
      d.is_full = true ∧ d.removed = [] ∧
      d.updated = s.rules_.map Prod.snd ∧ d.updated.length = s.rules_.length ∧
      (∀ id r, mapFind s.rules_ id = some r → r ∈ d.updated) ∧
      (∀ r ∈ d.updated, ∃ id, (id, r) ∈ s.rules_) ∧
      (RuleMapWF s.rules_ →
        d.updated.Nodup ∧ ∀ r, r ∈ d.updated ↔ mapFind s.rules_ r.Id = some r) := by
  refine ⟨{ is_full := true, updated := s.rules_.map Prod.snd, removed := [] },
    by simp [RulesStorage.ClientConnected, hidle, RulesStorage.FullUpdate],
    rfl, rfl, rfl, by simp, ?_, ?_, ?_⟩
  · intro id r h
    exact List.mem_map.2 ⟨(id, r), mem_of_mapFind _ _ _ h, rfl⟩
  · intro r hr
    obtain ⟨kv, hkv, rfl⟩ := List.mem_map.1 hr
    exact ⟨kv.1, hkv⟩
  · intro hwf
    refine ⟨values_nodup_of_WF _ hwf, fun r => ⟨?_, ?_⟩⟩
    · intro hr
      obtain ⟨kv, hkv, rfl⟩ := List.mem_map.1 hr
      have hid := hwf.2 kv hkv
      rw [hid]
      exact mapFind_of_mem _ _ _ hwf.1 hkv
    · intro hf
      exact List.mem_map.2 ⟨(r.Id, r), mem_of_mapFind _ _ _ hf, rfl⟩

theorem ClientConnected_idle_witness :
    (RulesStorage.mk 3
        [(1, ⟨1, RulePermission.Allow, ⟨"/bin/a"⟩, none, 0⟩),
         (2, ⟨2, RulePermission.Deny, ⟨"/bin/b"⟩, none, 0⟩)]
        false false false ⟨[], []⟩).in_progress_ = false ∧
    ∃ d, (RulesStorage.mk 3
        [(1, ⟨1, RulePermission.Allow, ⟨"/bin/a"⟩, none, 0⟩),
         (2, ⟨2, RulePermission.Deny, ⟨"/bin/b"⟩, none, 0⟩)]
        false false false ⟨[], []⟩).ClientConnected
      = some (RulesStorage.mk 3
        [(1, ⟨1, RulePermission.Allow, ⟨"/bin/a"⟩, none, 0⟩),
         (2, ⟨2, RulePermission.Deny, ⟨"/bin/b"⟩, none, 0⟩)]
        true false true ⟨[], []⟩, [d]) ∧
      d.is_full = true ∧ d.removed = [] ∧ d.updated.length = 2 := by
  refine ⟨rfl, ?_⟩
  obtain ⟨d, h1, h2, h3, _, h5, _⟩ :=
    ClientConnected_idle (RulesStorage.mk 3
        [(1, ⟨1, RulePermission.Allow, ⟨"/bin/a"⟩, none, 0⟩),
         (2, ⟨2, RulePermission.Deny, ⟨"/bin/b"⟩, none, 0⟩)]
        false false false ⟨[], []⟩) rfl
  exact ⟨d, h1, h2, h3, h5⟩

/-- C12: stale references are silent no-ops. For every store state and every
id that is not a key of the rule map, RemoveRule and ModifyInPlace (with any
mutator) return the state unchanged and dispatch nothing. Consequently, in any
state RemoveRule always returns, and a second RemoveRule of the same id changes
nothing and dispatches nothing. -/
theorem stale_reference_noop (s : RulesStorage) (rule_id : RuleId) (fn : Rule → Rule)
    (habsent : rule_id ∉ mapKeys s.rules_) :
    s.RemoveRule rule_id = some (s, []) ∧
    s.ModifyInPlace rule_id fn = some (s, []) ∧
    ∀ t : RulesStorage, ∃ t1 out, t.RemoveRule rule_id = some (t1, out) ∧
      t1.RemoveRule rule_id = some (t1, []) := by
  have hf : mapFind s.rules_ rule_id = none := (mapFind_eq_none_iff _ _).2 habsent
  refine ⟨by simp [RulesStorage.RemoveRule, hf], by simp [RulesStorage.ModifyInPlace, hf], ?_⟩
  intro t
  cases hft : mapFind t.rules_ rule_id with
  | none =>
    exact ⟨t, [], by simp [RulesStorage.RemoveRule, hft], by simp [RulesStorage.RemoveRule, hft]⟩
  | some found =>
    obtain ⟨t1, out, h1⟩ := RemoveRule_isSome t rule_id
    refine ⟨t1, out, h1, ?_⟩
    have hr : t1.rules_ = mapErase t.rules_ rule_id := by
      unfold RulesStorage.RemoveRule at h1
      cases hc : t.client_connected_ <;> cases hp : t.in_progress_ <;>
        simp [hft, hc, hp, RulesStorage.CollectChanges, mapAtAll] at h1 <;>
        obtain ⟨rfl, _⟩ := h1 <;> rfl
    have : mapFind t1.rules_ rule_id = none := by
      rw [hr]
      exact mapFind_mapErase_self _ _
    simp [RulesStorage.RemoveRule, this]

theorem stale_reference_noop_witness :
    (7 : RuleId) ∉ mapKeys (RulesStorage.mk 3
        [(1, ⟨1, RulePermission.Allow, ⟨"/bin/a"⟩, none, 0⟩)]
        true false true ⟨[1], []⟩).rules_ ∧
    (RulesStorage.mk 3
        [(1, ⟨1, RulePermission.Allow, ⟨"/bin/a"⟩, none, 0⟩)]
        true false true ⟨[1], []⟩).RemoveRule 7
      = some (RulesStorage.mk 3
        [(1, ⟨1, RulePermission.Allow, ⟨"/bin/a"⟩, none, 0⟩)]
        true false true ⟨[1], []⟩, []) :=
  ⟨by decide,
   (stale_reference_noop (RulesStorage.mk 3
        [(1, ⟨1, RulePermission.Allow, ⟨"/bin/a"⟩, none, 0⟩)]
        true false true ⟨[1], []⟩) 7 id (by decide)).1⟩

/-! ### Id assignment -/

theorem assignId_of_assigns (s : RulesStorage) (rule : Rule) (h : s.assigns rule = true) :
    s.assignId rule = (rule.WithId s.last_id_, (s.last_id_ + 1) % 2 ^ 64) := by
  simp only [RulesStorage.assigns, Bool.and_eq_true, decide_eq_true_eq,
    Option.isNone_iff_eq_none] at h
  simp [RulesStorage.assignId, h.1, h.2]

theorem assignId_of_not_assigns (s : RulesStorage) (rule : Rule)
    (h : s.assigns rule = false) : (s.assignId rule).2 = s.last_id_ := by
  unfold RulesStorage.assigns at h
  unfold RulesStorage.assignId
  by_cases hid : rule.Id = 0
  · simp only [hid, decide_True, Bool.true_and] at h
    cases hq : mapFindIf s.rules_
        (fun stored => decide (rule.Application.Path = stored.Application.Path)) with
    | none => simp [hq] at h
    | some kv => simp [hid]
  · simp [hid]

/-- The counter after a call: it moves, by one modulo 2^64, exactly when the
call makes the store assign an id, and the id assigned is the old counter. -/
theorem call_last_id (s s1 : RulesStorage) (a : Call) (out : List RulesUpdate)
    (h : s.call a = some (s1, out)) :
    (assignedBy s a = [] ∧ s1.last_id_ = s.last_id_) ∨
    (assignedBy s a = [s.last_id_] ∧
      s1.last_id_ = (s.last_id_ + 1) % 2 ^ 64) := by
  cases a with
  | UpdateRule rule =>
    obtain ⟨_, hl, _⟩ := UpdateRule_spec _ _ _ _ h
    rw [hl]
    cases ha : s.assigns rule with
    | true => right; simp [assignedBy, assignId_of_assigns s rule ha, ha]
    | false => left; simp [assignedBy, assignId_of_not_assigns s rule ha, ha]
  | RemoveRule rule_id => exact Or.inl ⟨rfl, (RemoveRule_rules _ _ _ _ h).2⟩
  | ModifyInPlace rule_id fn => exact Or.inl ⟨rfl, (ModifyInPlace_rules _ _ _ _ _ h).2⟩
  | ClientConnected => exact Or.inl ⟨rfl, (ClientConnected_rules _ _ _ h).2⟩
  | DidSendUpdate success => exact Or.inl ⟨rfl, (DidSendUpdate_rules _ _ _ _ h).2⟩

/-- As long as the 64-bit counter cannot wrap within the run, it never
decreases, grows by at most one per call, and the ids assigned along the run
are increasing and lie between the counter before and the counter after. -/
theorem run_counter :
    ∀ (calls : List Call) (c c1 : Channel), c.run calls = some c1 →
      c.store.last_id_ + calls.length < 2 ^ 64 →
      c.store.last_id_ ≤ c1.store.last_id_ ∧
      c1.store.last_id_ ≤ c.store.last_id_ + calls.length ∧
      (∀ id ∈ assignedIds c.store calls,
        c.store.last_id_ ≤ id ∧ id < c1.store.last_id_) ∧
      (assignedIds c.store calls).Pairwise (fun a b => a < b) := by
  intro calls
  induction calls with
  | nil =>
    intro c c1 h _
    simp [Channel.run] at h
    subst h
    simp [assignedIds]
  | cons a rest ih =>
    intro c c1 h hlen
    simp only [Channel.run] at h
    cases hs : c.step a with
    | none => simp [hs] at h
    | some c2 =>
      simp only [hs] at h
      obtain ⟨out, hcall⟩ := step_store_call c c2 a hs
      simp only [List.length_cons] at hlen ⊢
      have hmod : (c.store.last_id_ + 1) % 2 ^ 64 = c.store.last_id_ + 1 :=
        Nat.mod_eq_of_lt (by unfold RuleId at *; omega)
      rcases call_last_id _ _ _ _ hcall with ⟨hby, hl⟩ | ⟨hby, hl⟩
      · obtain ⟨h1, h2, h3, h4⟩ := ih c2 c1 h (by unfold RuleId at *; omega)
        refine ⟨by unfold RuleId at *; omega, by unfold RuleId at *; omega, ?_, ?_⟩
        · intro id hid
          simp only [assignedIds, hcall, hby, List.nil_append] at hid
          have := h3 id hid
          unfold RuleId at *
          omega
        · simpa only [assignedIds, hcall, hby, List.nil_append] using h4
      · rw [hmod] at hl
        obtain ⟨h1, h2, h3, h4⟩ := ih c2 c1 h (by unfold RuleId at *; omega)
        refine ⟨by unfold RuleId at *; omega, by unfold RuleId at *; omega, ?_, ?_⟩
        · intro id hid
          simp only [assignedIds, hcall, hby, List.singleton_append, List.mem_cons] at hid
          rcases hid with hid | hid
          · subst hid
            unfold RuleId at *
            omega
          · have := h3 id hid
            unfold RuleId at *
            omega
        · simp only [assignedIds, hcall, hby, List.singleton_append, List.pairwise_cons]
          refine ⟨?_, h4⟩
          intro y hy
          have := h3 y hy
          unfold RuleId at *
          omega

theorem assigns_iff (s : RulesStorage) (rule : Rule) :
    s.assigns rule = true ↔
      (rule.Id = 0 ∧ ∀ kv ∈ s.rules_, kv.2.Application.Path ≠ rule.Application.Path) := by
  simp only [RulesStorage.assigns, Bool.and_eq_true, decide_eq_true_eq,
    Option.isNone_iff_eq_none, mapFindIf_eq_none, decide_eq_false_iff_not]
  constructor
  · rintro ⟨h1, h2⟩
    exact ⟨h1, fun kv hkv hp => h2 kv hkv hp.symm⟩
  · rintro ⟨h1, h2⟩
    exact ⟨h1, fun kv hkv hp => h2 kv hkv hp.symm⟩

/-- C13: id assignment. In every state reached from the freshly constructed
store by fewer than 2^64 - 2 calls (so that the 64-bit counter, which starts at
1 and moves by at most one per call, has not wrapped), the counter is strictly
positive, every id the store has assigned is strictly positive, and the ids
were assigned in strictly increasing order. In such a state an UpdateRule call
with id 0 always returns; when no stored rule has the rule's path, the rule is
stored under the counter's current value, carrying that id, and the counter
grows by one; when some stored rule has the path, the counter is unchanged. -/
theorem id_assignment (calls : List Call) (c : Channel)
    (hreach : Channel.init.run calls = some c) (hlen : calls.length + 2 < 2 ^ 64) :
    0 < c.store.last_id_ ∧
    (∀ id ∈ assignedIds RulesStorage.init calls, 0 < id) ∧
    (assignedIds RulesStorage.init calls).Pairwise (fun a b => a < b) ∧
    ∀ rule : Rule, rule.Id = 0 →
      ∃ s1 out, c.store.UpdateRule rule = some (s1, out) ∧
        ((∀ kv ∈ c.store.rules_, kv.2.Application.Path ≠ rule.Application.Path) →
          mapFind s1.rules_ c.store.last_id_ = some (rule.WithId c.store.last_id_) ∧
          (rule.WithId c.store.last_id_).Id = c.store.last_id_ ∧
          s1.last_id_ = c.store.last_id_ + 1) ∧
        ((∃ kv ∈ c.store.rules_, kv.2.Application.Path = rule.Application.Path) →
          s1.last_id_ = c.store.last_id_) := by
  have hinit : Channel.init.store.last_id_ = 1 := rfl
  obtain ⟨h1, h2, h3, h4⟩ := run_counter calls Channel.init c hreach (by
    rw [hinit]
    unfold RuleId at *
    omega)
  rw [hinit] at h1 h2
  refine ⟨by unfold RuleId at *; omega, ?_, h4, ?_⟩
  · intro id hid
    have := (h3 id hid).1
    rw [hinit] at this
    unfold RuleId at *
    omega
  · intro rule hid
    obtain ⟨s1, out, hu⟩ := UpdateRule_isSome c.store rule
    obtain ⟨hr, hl, _⟩ := UpdateRule_spec _ _ _ _ hu
    refine ⟨s1, out, hu, ?_, ?_⟩
    · intro hno
      have ha := (assigns_iff c.store rule).2 ⟨hid, hno⟩
      have hassign := assignId_of_assigns c.store rule ha
      rw [hassign] at hr hl
      refine ⟨?_, rfl, ?_⟩
      · rw [hr]
        exact mapFind_mapAssign_self _ _ _
      · rw [hl]
        apply Nat.mod_eq_of_lt
        unfold RuleId at *
        omega
    · intro hex
      have ha : c.store.assigns rule = false := by
        cases hq : c.store.assigns rule with
        | false => rfl
        | true =>
          obtain ⟨kv, hkv, hp⟩ := hex
          exact absurd hp (((assigns_iff c.store rule).1 hq).2 kv hkv)
      rw [hl]
      exact assignId_of_not_assigns c.store rule ha

theorem id_assignment_witness :
    ([Call.UpdateRule (Rule.mk3 0 RulePermission.Allow ⟨"/bin/a"⟩),
      Call.UpdateRule (Rule.mk3 0 RulePermission.Deny ⟨"/bin/a"⟩),
      Call.UpdateRule (Rule.mk3 0 RulePermission.Deny ⟨"/bin/b"⟩)].length + 2 < 2 ^ 64) ∧
    assignedIds RulesStorage.init
      [Call.UpdateRule (Rule.mk3 0 RulePermission.Allow ⟨"/bin/a"⟩),
       Call.UpdateRule (Rule.mk3 0 RulePermission.Deny ⟨"/bin/a"⟩),
       Call.UpdateRule (Rule.mk3 0 RulePermission.Deny ⟨"/bin/b"⟩)] = [1, 2] ∧
    (assignedIds RulesStorage.init
      [Call.UpdateRule (Rule.mk3 0 RulePermission.Allow ⟨"/bin/a"⟩),
       Call.UpdateRule (Rule.mk3 0 RulePermission.Deny ⟨"/bin/a"⟩),
       Call.UpdateRule (Rule.mk3 0 RulePermission.Deny ⟨"/bin/b"⟩)]).Pairwise
      (fun a b => a < b) :=
  ⟨by decide, by rfl,
   (id_assignment
      [Call.UpdateRule (Rule.mk3 0 RulePermission.Allow ⟨"/bin/a"⟩),
       Call.UpdateRule (Rule.mk3 0 RulePermission.Deny ⟨"/bin/a"⟩),
       Call.UpdateRule (Rule.mk3 0 RulePermission.Deny ⟨"/bin/b"⟩)]
      (Channel.mk ⟨3, [(1, ⟨1, RulePermission.Deny, ⟨"/bin/a"⟩, none, 0⟩),
                       (2, ⟨2, RulePermission.Deny, ⟨"/bin/b"⟩, none, 0⟩)],
                   false, false, false, ⟨[], []⟩⟩ [] 0)
      (by rfl) (by decide)).2.2.1⟩

/-! ### Rule synthesis -/

theorem filter_mapAssign_new (m : RuleMap) (pred : Rule → Bool) (id : RuleId) (r : Rule)
    (hnone : ∀ kv ∈ m, pred kv.2 = false) (hr : pred r = true) :
    (mapAssign m id r).filter (fun kv => pred kv.2) = [(id, r)] := by
  induction m with
  | nil => simp [mapAssign, hr]
  | cons e rest ih =>
    obtain ⟨k, v⟩ := e
    have hv : pred v = false := hnone (k, v) (List.mem_cons_self _ _)
    have hrest : ∀ kv ∈ rest, pred kv.2 = false :=
      fun kv hkv => hnone kv (List.mem_cons_of_mem _ hkv)
    by_cases h : k = id
    · subst h
      have hf : rest.filter (fun kv => pred kv.2) = [] := by
        rw [List.filter_eq_nil_iff]
        intro kv hkv
        simp [hrest kv hkv]
      simp [mapAssign, List.filter_cons, hr, hf]
    · simp [mapAssign, h, List.filter_cons, hv, ih hrest]

theorem new_rule_WithId (p : RulePermission) (a : Application) (now : Time) (id : RuleId) :
    (NetworkFilter.new_rule p a now).WithId id =
      { id_ := id, permission_ := p, application_ := a,
        last_access_ := if p = RulePermission.Allow then some now else none,
        access_count_ := if p = RulePermission.Allow then 1 else 0 } := by
  cases p <;> rfl

/-- C14: rule synthesis. Let the engine's store be in a state reached from the
freshly constructed store by fewer than 2^64 - 2 calls. After CheckAccess for
an application with no stored rule, in a mode other than Wait, the store holds
exactly one rule with that path. It sits under the value the counter had, which
is not 0, and carries that id, the permission derived from the mode and the
application; with permission Allow it has last_access = the delegate's
CurrentTime() and access_count = 1, with permission Deny it has no last_access
and access_count = 0. -/
theorem rule_synthesis (calls : List Call) (c : Channel)
    (hreach : Channel.init.run calls = some c) (hlen : calls.length + 2 < 2 ^ 64)
    (f : NetworkFilter) (hstore : f.rules_ = c.store)
    (application : Application) (completion : Completion) (now : Time)
    (hmode : f.mode_ ≠ FilterMode.Wait)
    (hno : f.RuleMatchingApplication application = none) :
    ∃ res, f.CheckAccess application completion now = some res ∧
      res.status = ToAccessStatus (RulePermissionForMode f.mode_) ∧
      res.filter.rules_.rules_.filter
          (fun kv => decide (kv.2.Application.Path = application.Path))
        = [(f.rules_.last_id_,
            { id_ := f.rules_.last_id_,
              permission_ := RulePermissionForMode f.mode_,
              application_ := application,
              last_access_ :=
                if RulePermissionForMode f.mode_ = RulePermission.Allow then some now
                else none,
              access_count_ :=
                if RulePermissionForMode f.mode_ = RulePermission.Allow then 1 else 0 })] ∧
      f.rules_.last_id_ ≠ 0 := by
  obtain ⟨f1, out, hacc, _, _, hrules, _⟩ :=
    AccessStatusWithNewRule_unknown f (RulePermissionForMode f.mode_) application now hno
  have hfi : ∀ kv ∈ f.rules_.rules_,
      decide (kv.2.Application.Path = application.Path) = false := by
    unfold NetworkFilter.RuleMatchingApplication RulesStorage.Matching at hno
    cases hq : mapFindIf f.rules_.rules_
        (fun stored => decide (stored.Application.Path = application.Path)) with
    | none => exact (mapFindIf_eq_none _ _).1 hq
    | some kv => simp [hq] at hno
  have hpos : f.rules_.last_id_ ≠ 0 := by
    have hinit : Channel.init.store.last_id_ = 1 := rfl
    obtain ⟨h1, _⟩ := run_counter calls Channel.init c hreach (by
      rw [hinit]
      unfold RuleId at *
      omega)
    rw [hinit] at h1
    rw [hstore]
    unfold RuleId at *
    omega
  refine ⟨{ status := ToAccessStatus (RulePermissionForMode f.mode_), filter := f1,
            effects := { Effects.nothing with sent := out } }, ?_, rfl, ?_, hpos⟩
  · simp [NetworkFilter.CheckAccess, hno, hmode, hacc]
  · show f1.rules_.rules_.filter _ = _
    rw [hrules, new_rule_WithId]
    exact filter_mapAssign_new _ (fun r => decide (r.Application.Path = application.Path))
      _ _ hfi (by simp [Rule.Application])

theorem rule_synthesis_witness :
    ∃ res, (NetworkFilter.initial FilterMode.UnknownAllow).CheckAccess ⟨"/bin/app"⟩ 7 100
        = some res ∧
      res.status = AccessStatus.Allow ∧
      res.filter.rules_.rules_.filter
          (fun kv => decide (kv.2.Application.Path = "/bin/app"))
        = [(1, ⟨1, RulePermission.Allow, ⟨"/bin/app"⟩, some 100, 1⟩)] := by
  obtain ⟨res, h1, h2, h3, _⟩ :=
    rule_synthesis [] Channel.init rfl (by decide)
      (NetworkFilter.initial FilterMode.UnknownAllow) rfl ⟨"/bin/app"⟩ 7 100
      (by decide) rfl
  exact ⟨res, h1, h2, h3⟩

open nf_statistics_store

/-! ### The statistics store -/

theorem find?_range_spec (p : Nat → Bool) :
    ∀ n : Nat,
      (∀ k, (List.range n).find? p = some k →
        k < n ∧ p k = true ∧ ∀ j, j < k → p j = false) ∧
      ((List.range n).find? p = none → ∀ j, j < n → p j = false) := by
  intro n
  induction n with
  | zero => simp
  | succ n ih =>
    rw [List.range_succ, List.find?_append]
    cases hf : (List.range n).find? p with
    | some k0 =>
      obtain ⟨h1, h2, h3⟩ := ih.1 k0 hf
      refine ⟨?_, ?_⟩
      · intro k hk
        simp only [Option.or_some, Option.some.injEq] at hk
        subst hk
        exact ⟨Nat.lt_succ_of_lt h1, h2, h3⟩
      · intro hk
        simp at hk
    | none =>
      have hall := ih.2 hf
      refine ⟨?_, ?_⟩
      · intro k hk
        simp only [Option.none_or, List.find?_cons, List.find?_nil] at hk
        cases hp : p n with
        | true =>
          simp only [hp, Option.some.injEq] at hk
          subst hk
          exact ⟨Nat.lt_succ_self _, hp, hall⟩
        | false => simp [hp] at hk
      · intro hk
        simp only [Option.none_or, List.find?_cons, List.find?_nil] at hk
        cases hp : p n with
        | true => simp [hp] at hk
        | false =>
          intro j hj
          rcases Nat.lt_succ_iff_lt_or_eq.1 hj with h | h
          · exact hall j h
          · rw [h]; exact hp

theorem find?_range_first (p : Nat → Bool) (n k : Nat) (hk : k < n) (hp : p k = true)
    (hlt : ∀ j, j < k → p j = false) : (List.range n).find? p = some k := by
  cases hf : (List.range n).find? p with
  | none =>
    have := (find?_range_spec p n).2 hf k hk
    rw [hp] at this
    exact absurd this (by decide)
  | some k0 =>
    obtain ⟨_, h2, h3⟩ := (find?_range_spec p n).1 k0 hf
    rcases Nat.lt_trichotomy k0 k with h | h | h
    · rw [hlt k0 h] at h2
      exact absurd h2 (by decide)
    · rw [h]
    · rw [h3 k h] at hp
      exact absurd hp (by decide)

theorem first_valid_hour_zero (data : StatisticData) (vs : Time)
    (h : vs ≤ data.start) : first_valid_hour data vs = some 0 := by
  apply find?_range_first _ _ 0 (by decide)
  · simpa [hours] using h
  · intro j hj
    exact absurd hj (Nat.not_lt_zero _)

theorem statFind_statAssign_self (m : StatisticMap) (path : String) (data : StatisticData) :
    statFind (statAssign m path data) path = some data := by
  induction m with
  | nil => simp [statAssign, statFind]
  | cons kv rest ih =>
    obtain ⟨k, v⟩ := kv
    by_cases h : k = path
    · simp [statAssign, statFind, h]
    · simp [statAssign, statFind, h, ih]

theorem statFind_statAssign_ne (m : StatisticMap) (path other : String)
    (data : StatisticData) (h : other ≠ path) :
    statFind (statAssign m path data) other = statFind m other := by
  induction m with
  | nil =>
    have : ¬ path = other := fun e => h e.symm
    simp [statAssign, statFind, this]
  | cons kv rest ih =>
    obtain ⟨k, v⟩ := kv
    by_cases hk : k = path
    · subst hk
      have : ¬ k = other := fun e => h e.symm
      simp [statAssign, statFind, this]
    · by_cases ho : k = other
      · subst ho
        simp [statAssign, statFind, hk]
      · simp [statAssign, statFind, hk, ho, ih]

/-- The entry of `application_path` after a `HandlePacket` call that passes
both guards. -/
theorem HandlePacket_entry (st : nf_statistics_store) (path : String)
    (info : nf_packet_info_t) (now : Time) (hsize : 0 < info.size)
    (hnow : hours kMaxHours ≤ now) :
    statFind (HandlePacket st path info now).statistic_ path =
      some
        { start :=
            (selectTraffic
              ((statFind st.statistic_ path).getD
                { start := from_time_t info.time,
                  traffic_by_hour := List.replicate kMaxHours Traffic.zero })
              now (now - hours kMaxHours)).1.start,
          traffic_by_hour :=
            updateAt
              (selectTraffic
                ((statFind st.statistic_ path).getD
                  { start := from_time_t info.time,
                    traffic_by_hour := List.replicate kMaxHours Traffic.zero })
                now (now - hours kMaxHours)).1.traffic_by_hour
              (selectTraffic
                ((statFind st.statistic_ path).getD
                  { start := from_time_t info.time,
                    traffic_by_hour := List.replicate kMaxHours Traffic.zero })
                now (now - hours kMaxHours)).2
              (addTraffic info) } := by
  have h1 : ¬ info.size ≤ 0 := Nat.not_le.2 hsize
  have h2 : ¬ now < hours kMaxHours := not_lt.2 hnow
  simp only [HandlePacket, h1, h2, if_false]
  exact statFind_statAssign_self _ _ _

theorem to_time_t_from_time_t (t : Int) : to_time_t (from_time_t t) = t := by
  unfold to_time_t from_time_t ticksPerSecond
  exact Int.mul_tdiv_cancel t (by decide)

theorem to_time_t_add_hours (t : Int) (n : Int) :
    to_time_t (from_time_t t + hours n) = t + n * 3600 := by
  have : from_time_t t + hours n = from_time_t (t + n * 3600) := by
    unfold from_time_t hours
    ring
  rw [this, to_time_t_from_time_t]

/-- The first packet of an application at a whole-second clock value equal to
its own time: the entry is created at that time and bucket 0 takes the bytes. -/
theorem HandlePacket_first (st : nf_statistics_store) (path : String)
    (info : nf_packet_info_t) (hnew : statFind st.statistic_ path = none)
    (hsize : 0 < info.size) (hT : 24 * 3600 ≤ info.time) :
    statFind (HandlePacket st path info (from_time_t info.time)).statistic_ path =
      some { start := from_time_t info.time,
             traffic_by_hour := addTraffic info Traffic.zero
               :: List.replicate 23 Traffic.zero } := by
  have hnow : hours kMaxHours ≤ from_time_t info.time := by
    simp only [hours, kMaxHours, from_time_t, ticksPerSecond]
    omega
  rw [HandlePacket_entry st path info _ hsize hnow, hnew]
  have hz : first_valid_hour
      { start := from_time_t info.time,
        traffic_by_hour := List.replicate kMaxHours Traffic.zero }
      (from_time_t info.time - hours kMaxHours) = some 0 := by
    apply first_valid_hour_zero
    show from_time_t info.time - hours kMaxHours ≤ from_time_t info.time
    simp only [hours, kMaxHours, from_time_t, ticksPerSecond]
    unfold Time
    omega
  simp only [Option.getD_none, selectTraffic, hz]
  rfl

theorem range_kMaxHours :
    List.range kMaxHours =
      [0, 1, 2, 3, 4, 5, 6, 7, 8, 9, 10, 11, 12, 13, 14, 15, 16, 17, 18, 19, 20, 21, 22, 23] := by
  decide

/-- A ring whose buckets 1..23 are zero yields at most the item of bucket 0. -/
theorem CopyStatistic_single (st : nf_statistics_store) (path : String) (start : Time)
    (b : Traffic)
    (h : statFind st.statistic_ path =
      some { start := start, traffic_by_hour := b :: List.replicate 23 Traffic.zero }) :
    CopyStatistic st path =
      some (if (b.incoming + b.outgoing) % 2 ^ 64 = 0 then []
            else [{ date_from := to_time_t (start + hours 0),
                    date_to := to_time_t (start + hours 1),
                    bytes_incoming := b.incoming, bytes_outgoing := b.outgoing }]) := by
  simp only [CopyStatistic, h, range_kMaxHours]
  have h64 : (2 : Nat) ^ 64 = 18446744073709551616 := by norm_num
  by_cases hz : (b.incoming + b.outgoing) % 2 ^ 64 = 0
  · simp only [List.filterMap_cons, List.replicate, Traffic.zero, hz]
    rw [h64] at hz
    simp [hz]
  · simp only [List.filterMap_cons, List.replicate, Traffic.zero, hz]
    rw [h64] at hz
    simp [hz]

/-- An entry whose anchor is not older than 24 hours is kept as it is and the
bytes go to its bucket 0. -/
theorem HandlePacket_keep (st : nf_statistics_store) (path : String)
    (info : nf_packet_info_t) (now : Time) (data : StatisticData)
    (h : statFind st.statistic_ path = some data)
    (hsize : 0 < info.size) (hnow : hours kMaxHours ≤ now)
    (hvalid : now - hours kMaxHours ≤ data.start) :
    statFind (HandlePacket st path info now).statistic_ path =
      some { data with
             traffic_by_hour := updateAt data.traffic_by_hour 0 (addTraffic info) } := by
  rw [HandlePacket_entry st path info now hsize hnow, h]
  have hz : first_valid_hour data (now - hours kMaxHours) = some 0 :=
    first_valid_hour_zero data _ hvalid
  simp only [Option.getD_some, selectTraffic, hz]
  rfl

theorem find?_range_none (p : Nat → Bool) (n : Nat) (h : ∀ j, j < n → p j = false) :
    (List.range n).find? p = none := by
  rw [List.find?_eq_none]
  intro x hx
  rw [List.mem_range] at hx
  simp [h x hx]

theorem drop_ring (b : Traffic) (k : Nat) (hk : 1 ≤ k) (hk24 : k ≤ 24) :
    List.drop k (b :: List.replicate 23 Traffic.zero) ++ List.replicate k Traffic.zero =
      List.replicate 24 Traffic.zero := by
  obtain ⟨j, rfl⟩ : ∃ j, k = j + 1 := ⟨k - 1, by omega⟩
  rw [List.drop_succ_cons, List.drop_replicate, List.append_replicate_replicate]
  congr 1
  omega

/-- Claim C15 (adjacent hours), as the code behaves: for an application without
an entry, a packet of positive size handled at time `T` (its own time being
`T`, at least 24 hours past the epoch) and another one handled at `T + 1 hour`
are both added to bucket 0; the other 23 buckets stay zero, so `CopyStatistic`
returns at most one item and never one for each hour. -/
theorem adjacent_hours_share_bucket (st : nf_statistics_store) (path : String) (T : Int)
    (first second : nf_packet_info_t)
    (hnew : statFind st.statistic_ path = none)
    (hT : 24 * 3600 ≤ T) (htime : first.time = T)
    (h1 : 0 < first.size) (h2 : 0 < second.size) :
    statFind
        (HandlePacket (HandlePacket st path first (from_time_t T)) path second
          (from_time_t (T + 3600))).statistic_ path =
      some { start := from_time_t T,
             traffic_by_hour := addTraffic second (addTraffic first Traffic.zero)
               :: List.replicate 23 Traffic.zero } ∧
    ∃ items,
      CopyStatistic
          (HandlePacket (HandlePacket st path first (from_time_t T)) path second
            (from_time_t (T + 3600))) path = some items ∧
      items.length ≤ 1 := by
  subst htime
  have hfirst := HandlePacket_first st path first hnew h1 hT
  have hnow : hours kMaxHours ≤ from_time_t (first.time + 3600) := by
    simp only [hours, kMaxHours, from_time_t, ticksPerSecond]
    omega
  have hsecond := HandlePacket_keep (HandlePacket st path first (from_time_t first.time))
    path second (from_time_t (first.time + 3600)) _ hfirst h2 hnow (by
      show from_time_t (first.time + 3600) - hours kMaxHours ≤ from_time_t first.time
      simp only [hours, kMaxHours, from_time_t, ticksPerSecond]
      unfold Time
      omega)
  have hentry : statFind
      (HandlePacket (HandlePacket st path first (from_time_t first.time)) path second
        (from_time_t (first.time + 3600))).statistic_ path =
      some { start := from_time_t first.time,
             traffic_by_hour := addTraffic second (addTraffic first Traffic.zero)
               :: List.replicate 23 Traffic.zero } := hsecond
  refine ⟨hentry, ?_⟩
  rw [CopyStatistic_single _ path _ _ hentry]
  refine ⟨_, rfl, ?_⟩
  split <;> simp

theorem adjacent_hours_share_bucket_witness :
    statFind nf_statistics_store.init.statistic_ "/bin/app" = none ∧
    (24 * 3600 : Int) ≤ 100000 ∧
    CopyStatistic
        (HandlePacket
          (HandlePacket nf_statistics_store.init "/bin/app"
            { size := 10, direction := .NF_DIRECTION_INCOMING, time := 100000 }
            (from_time_t 100000))
          "/bin/app" { size := 20, direction := .NF_DIRECTION_OUTGOING, time := 103600 }
          (from_time_t (100000 + 3600))) "/bin/app" =
      some [{ date_from := 100000, date_to := 103600,
              bytes_incoming := 10, bytes_outgoing := 20 }] ∧
    ∃ items,
      CopyStatistic
          (HandlePacket
            (HandlePacket nf_statistics_store.init "/bin/app"
              { size := 10, direction := .NF_DIRECTION_INCOMING, time := 100000 }
              (from_time_t 100000))
            "/bin/app" { size := 20, direction := .NF_DIRECTION_OUTGOING, time := 103600 }
            (from_time_t (100000 + 3600))) "/bin/app" = some items ∧
      items.length ≤ 1 :=
  ⟨rfl, by decide, by rfl,
    (adjacent_hours_share_bucket nf_statistics_store.init "/bin/app" 100000
      { size := 10, direction := .NF_DIRECTION_INCOMING, time := 100000 }
      { size := 20, direction := .NF_DIRECTION_OUTGOING, time := 103600 }
      rfl (by decide) rfl (by decide) (by decide)).2⟩

theorem hours_nonneg (i : Nat) : 0 ≤ hours i := by
  simp only [hours, ticksPerSecond]
  omega

/-- The anchor chosen by the eviction step: no bucket starts before the
validity start, and the anchor is not after `now` unless it was before. -/
theorem selectTraffic_start (data : StatisticData) (now : Time) :
    (∀ i : Nat, now - hours kMaxHours ≤
      (selectTraffic data now (now - hours kMaxHours)).1.start + hours i) ∧
    (data.start ≤ now →
      (selectTraffic data now (now - hours kMaxHours)).1.start ≤ now) := by
  have h24 : hours kMaxHours = 24 * (3600 * 1000000) := by
    simp [hours, kMaxHours, ticksPerSecond]
  cases hf : first_valid_hour data (now - hours kMaxHours) with
  | none =>
    simp only [selectTraffic, hf]
    refine ⟨fun i => ?_, fun _ => le_refl _⟩
    have := hours_nonneg i
    rw [h24]
    unfold Time at *
    omega
  | some k =>
    obtain ⟨_, hpk, hlt⟩ := (find?_range_spec _ kMaxHours).1 k hf
    simp only [decide_eq_true_eq, ge_iff_le] at hpk
    by_cases hk : k = 0
    · subst hk
      simp only [selectTraffic, hf, ne_eq, not_true_eq_false, if_false]
      refine ⟨fun i => ?_, fun h => h⟩
      have := hours_nonneg i
      have h0 : hours ((0 : Nat) : Int) = 0 := by simp [hours]
      rw [h0, h24] at hpk
      rw [h24]
      unfold Time at *
      omega
    · have hprev := hlt (k - 1) (by omega)
      simp only [decide_eq_false_iff_not, ge_iff_le, not_le] at hprev
      have hcast : ((k - 1 : Nat) : Int) = (k : Int) - 1 := by omega
      simp only [selectTraffic, hf, ne_eq, hk, not_false_eq_true, if_true]
      refine ⟨fun i => ?_, fun _ => ?_⟩
      · have := hours_nonneg i
        rw [h24] at hpk ⊢
        unfold Time at *
        omega
      · rw [h24] at hprev
        simp only [hours, ticksPerSecond, hcast] at hprev ⊢
        unfold Time at *
        omega

/-- Claim C17, counterexample: (1) after the first packet of an application,
handled at `now = T = 100000 s`, bucket 0 is non-empty and covers
`[T, T + 1h)`, which ends after `now`; (2) a later call of size 0, at
`T + 100h`, returns at once and leaves that bucket, which ended 99 hours
before `now`. -/
theorem retention_interval_not_within :
    (statFind
        (HandlePacket nf_statistics_store.init "/bin/app"
          { size := 10, direction := .NF_DIRECTION_INCOMING, time := 100000 }
          (from_time_t 100000)).statistic_ "/bin/app" =
      some { start := from_time_t 100000,
             traffic_by_hour :=
               { incoming := 10, outgoing := 0 } :: List.replicate 23 Traffic.zero } ∧
     bucketWithin
        { start := from_time_t 100000,
          traffic_by_hour :=
            { incoming := 10, outgoing := 0 } :: List.replicate 23 Traffic.zero }
        (from_time_t 100000) 0 = false) ∧
    (statFind
        (HandlePacket
          (HandlePacket nf_statistics_store.init "/bin/app"
            { size := 10, direction := .NF_DIRECTION_INCOMING, time := 100000 }
            (from_time_t 100000))
          "/bin/app" { size := 0, direction := .NF_DIRECTION_INCOMING, time := 460000 }
          (from_time_t 460000)).statistic_ "/bin/app" =
      some { start := from_time_t 100000,
             traffic_by_hour :=
               { incoming := 10, outgoing := 0 } :: List.replicate 23 Traffic.zero } ∧
     bucketWithin
        { start := from_time_t 100000,
          traffic_by_hour :=
            { incoming := 10, outgoing := 0 } :: List.replicate 23 Traffic.zero }
        (from_time_t 460000) 0 = false) := by
  refine ⟨⟨by rfl, by decide⟩, ⟨by rfl, by decide⟩⟩

/-- Claim C17, amended: after every `HandlePacket` call with a packet of
positive size, performed at a time `now` at least 24 hours past the epoch, the
application has an entry, every bucket `i` of it starts at or after
`now - 24h`, and its anchor is at or before `now` whenever the anchor before
the call (for a new entry: the packet's own time) was at or before `now`. -/
theorem retention_lower_bound (st : nf_statistics_store) (path : String)
    (info : nf_packet_info_t) (now : Time)
    (hsize : 0 < info.size) (hnow : hours kMaxHours ≤ now) :
    ∃ data, statFind (HandlePacket st path info now).statistic_ path = some data ∧
      (∀ i : Nat, now - hours kMaxHours ≤ data.start + hours i) ∧
      (((statFind st.statistic_ path).map StatisticData.start).getD
          (from_time_t info.time) ≤ now → data.start ≤ now) := by
  refine ⟨_, HandlePacket_entry st path info now hsize hnow, ?_, ?_⟩
  · exact (selectTraffic_start _ now).1
  · intro h
    apply (selectTraffic_start _ now).2
    cases hf : statFind st.statistic_ path with
    | none => simpa [hf] using h
    | some d => simpa [hf] using h

theorem retention_lower_bound_witness :
    0 < (10 : Nat) ∧ hours kMaxHours ≤ from_time_t 100000 ∧
    ∃ data,
      statFind
          (HandlePacket nf_statistics_store.init "/bin/app"
            { size := 10, direction := .NF_DIRECTION_INCOMING, time := 100000 }
            (from_time_t 100000)).statistic_ "/bin/app" = some data ∧
      (∀ i : Nat, from_time_t 100000 - hours kMaxHours ≤ data.start + hours i) ∧
      (((statFind nf_statistics_store.init.statistic_ "/bin/app").map
            StatisticData.start).getD (from_time_t 100000) ≤ from_time_t 100000 →
        data.start ≤ from_time_t 100000) :=
  ⟨by decide, by decide,
    retention_lower_bound nf_statistics_store.init "/bin/app"
      { size := 10, direction := .NF_DIRECTION_INCOMING, time := 100000 }
      (from_time_t 100000) (by decide) (by decide)⟩

/-- Without overflow of a bucket's sum, `CopyStatistic` is what the words say:
nothing without an entry, otherwise the items of the buckets with a non-zero
counter, in increasing bucket order. -/
theorem CopyStatistic_without_overflow (st : nf_statistics_store) (path : String) :
    (statFind st.statistic_ path = none → CopyStatistic st path = none) ∧
    ∀ data, statFind st.statistic_ path = some data →
      (∀ t ∈ data.traffic_by_hour, t.incoming + t.outgoing < 2 ^ 64) →
      CopyStatistic st path =
        some (((List.range kMaxHours).filter (fun hour =>
            decide ((data.traffic_by_hour.getD hour Traffic.zero).incoming ≠ 0 ∨
              (data.traffic_by_hour.getD hour Traffic.zero).outgoing ≠ 0))).map
          (statisticItem data)) := by
  refine ⟨fun h => by simp [CopyStatistic, h], fun data h hb => ?_⟩
  simp only [CopyStatistic, h]
  congr 1
  rw [← List.filterMap_eq_map, List.filterMap_filter]
  apply List.filterMap_congr
  intro hour _
  have hlt : (data.traffic_by_hour.getD hour Traffic.zero).incoming +
      (data.traffic_by_hour.getD hour Traffic.zero).outgoing < 2 ^ 64 := by
    by_cases hh : hour < data.traffic_by_hour.length
    · rw [List.getD_eq_getElem _ _ hh]
      exact hb _ (List.getElem_mem hh)
    · rw [List.getD_eq_default _ _ (by omega)]
      simp [Traffic.zero]
  rw [Nat.mod_eq_of_lt hlt]
  simp only [Function.comp, statisticItem]
  generalize data.traffic_by_hour.getD hour Traffic.zero = t at hlt ⊢
  by_cases hz : t.incoming + t.outgoing = 0
  · have h1 : t.incoming = 0 := by omega
    have h2 : t.outgoing = 0 := by omega
    simp [h1, h2]
  · have h3 : t.incoming ≠ 0 ∨ t.outgoing ≠ 0 := by omega
    simp [hz, h3]

theorem addTraffic_iterate_incoming (info : nf_packet_info_t)
    (hdir : info.direction = .NF_DIRECTION_INCOMING) :
    ∀ (n : Nat) (b : Traffic), b.incoming < 2 ^ 64 →
      (addTraffic info)^[n] b =
        { incoming := (b.incoming + n * info.size) % 2 ^ 64, outgoing := b.outgoing } := by
  intro n
  induction n with
  | zero =>
    intro b hb
    simp only [Function.iterate_zero, id_eq, Nat.zero_mul, Nat.add_zero, Nat.mod_eq_of_lt hb]
  | succ n ih =>
    intro b _
    rw [Function.iterate_succ_apply, ih _ (by simp only [addTraffic, hdir]; exact Nat.mod_lt _ (by norm_num))]
    simp only [addTraffic, hdir, Nat.mod_add_mod]
    congr 2
    ring

theorem addTraffic_iterate_outgoing (info : nf_packet_info_t)
    (hdir : info.direction = .NF_DIRECTION_OUTGOING) :
    ∀ (n : Nat) (b : Traffic), b.outgoing < 2 ^ 64 →
      (addTraffic info)^[n] b =
        { incoming := b.incoming, outgoing := (b.outgoing + n * info.size) % 2 ^ 64 } := by
  intro n
  induction n with
  | zero =>
    intro b hb
    simp only [Function.iterate_zero, id_eq, Nat.zero_mul, Nat.add_zero, Nat.mod_eq_of_lt hb]
  | succ n ih =>
    intro b _
    rw [Function.iterate_succ_apply, ih _ (by simp only [addTraffic, hdir]; exact Nat.mod_lt _ (by norm_num))]
    simp only [addTraffic, hdir, Nat.mod_add_mod]
    congr 2
    ring

/-- Repeated packets while the anchor stays valid all go to bucket 0. -/
theorem HandlePacketTimes_keep (path : String) (info : nf_packet_info_t) (now start : Time)
    (hsize : 0 < info.size) (hnow : hours kMaxHours ≤ now)
    (hvalid : now - hours kMaxHours ≤ start) :
    ∀ (n : Nat) (st : nf_statistics_store) (b : Traffic),
      statFind st.statistic_ path =
        some { start := start, traffic_by_hour := b :: List.replicate 23 Traffic.zero } →
      statFind (HandlePacketTimes path info now n st).statistic_ path =
        some { start := start,
               traffic_by_hour := (addTraffic info)^[n] b :: List.replicate 23 Traffic.zero } := by
  intro n
  induction n with
  | zero =>
    intro st b h
    simpa [HandlePacketTimes] using h
  | succ n ih =>
    intro st b h
    rw [HandlePacketTimes, Function.iterate_succ_apply]
    apply ih
    exact HandlePacket_keep st path info now _ h hsize hnow hvalid

/-- From a store without an entry for `path`: `n + 1` incoming packets and then
`m` outgoing packets, all handled at the time `T` of the first. -/
theorem HandlePacketTimes_fresh (st : nf_statistics_store) (path : String)
    (inc out : nf_packet_info_t) (n m : Nat)
    (hnew : statFind st.statistic_ path = none)
    (hT : 24 * 3600 ≤ inc.time)
    (hinc : inc.direction = .NF_DIRECTION_INCOMING)
    (hout : out.direction = .NF_DIRECTION_OUTGOING)
    (h1 : 0 < inc.size) (h2 : 0 < out.size) :
    statFind
        (HandlePacketTimes path out (from_time_t inc.time) m
          (HandlePacketTimes path inc (from_time_t inc.time) (n + 1) st)).statistic_ path =
      some { start := from_time_t inc.time,
             traffic_by_hour :=
               { incoming := ((n + 1) * inc.size) % 2 ^ 64,
                 outgoing := (m * out.size) % 2 ^ 64 } :: List.replicate 23 Traffic.zero } := by
  have hnow : hours kMaxHours ≤ from_time_t inc.time := by
    simp only [hours, kMaxHours, from_time_t, ticksPerSecond]
    omega
  have hvalid : from_time_t inc.time - hours kMaxHours ≤ from_time_t inc.time := by
    simp only [hours, kMaxHours, from_time_t, ticksPerSecond]
    unfold Time
    omega
  have hfirst := HandlePacket_first st path inc hnew h1 hT
  have hn := HandlePacketTimes_keep path inc _ _ h1 hnow hvalid n _ _ hfirst
  rw [← Function.iterate_succ_apply,
    addTraffic_iterate_incoming inc hinc (n + 1) Traffic.zero (by simp [Traffic.zero])] at hn
  have hm := HandlePacketTimes_keep path out _ _ h2 hnow hvalid m _ _ hn
  rw [addTraffic_iterate_outgoing out hout m _ (by simp [Traffic.zero])] at hm
  rw [HandlePacketTimes, hm]
  simp [Traffic.zero]

/-- Claim C18, divergence: from the empty store, `2^32` incoming packets of
`2^31` bytes and then `2^32` outgoing packets of `2^31` bytes, all handled at
`T = 100000 s`, leave bucket 0 with `incoming = outgoing = 2^63`; the bucket is
non-empty, yet `CopyStatistic` returns no item, because the sum it tests is
`0` modulo `2^64`. -/
theorem wrapped_sum_hides_bucket :
    statFind
        (HandlePacketTimes "/bin/app"
          { size := 2 ^ 31, direction := .NF_DIRECTION_OUTGOING, time := 100000 }
          (from_time_t 100000) (2 ^ 32)
          (HandlePacketTimes "/bin/app"
            { size := 2 ^ 31, direction := .NF_DIRECTION_INCOMING, time := 100000 }
            (from_time_t 100000) (2 ^ 32) nf_statistics_store.init)).statistic_ "/bin/app" =
      some { start := from_time_t 100000,
             traffic_by_hour :=
               { incoming := 2 ^ 63, outgoing := 2 ^ 63 }
                 :: List.replicate 23 Traffic.zero } ∧
    CopyStatistic
        (HandlePacketTimes "/bin/app"
          { size := 2 ^ 31, direction := .NF_DIRECTION_OUTGOING, time := 100000 }
          (from_time_t 100000) (2 ^ 32)
          (HandlePacketTimes "/bin/app"
            { size := 2 ^ 31, direction := .NF_DIRECTION_INCOMING, time := 100000 }
            (from_time_t 100000) (2 ^ 32) nf_statistics_store.init)) "/bin/app" =
      some [] := by
  have h := HandlePacketTimes_fresh nf_statistics_store.init "/bin/app"
    { size := 2 ^ 31, direction := .NF_DIRECTION_INCOMING, time := 100000 }
    { size := 2 ^ 31, direction := .NF_DIRECTION_OUTGOING, time := 100000 }
    (2 ^ 32 - 1) (2 ^ 32) rfl (by decide) rfl rfl (by norm_num) (by norm_num)
  have e1 : (2 ^ 32 - 1 + 1 : Nat) = 2 ^ 32 := by norm_num
  have e2 : ((2 : Nat) ^ 32 * 2 ^ 31) % 2 ^ 64 = 2 ^ 63 := by norm_num
  simp only [e1, e2] at h
  refine ⟨h, ?_⟩
  rw [CopyStatistic_single _ _ _ _ h]
  have e3 : ((2 : Nat) ^ 63 + 2 ^ 63) % 2 ^ 64 = 0 := by norm_num
  rw [if_pos e3]

/-! ### The packet queue -/

theorem storageFind_storageInsert (m : PacketStorage) (a b : Application) :
    storageFind (storageInsert m a) b =
      if a = b then some ((storageFind m a).getD []) else storageFind m b := by
  induction m with
  | nil =>
    by_cases h : a = b <;> simp [storageInsert, storageFind, h]
  | cons kv rest ih =>
    obtain ⟨k, v⟩ := kv
    by_cases hk : k = a
    · subst hk
      by_cases h : k = b <;> simp [storageInsert, storageFind, h]
    · by_cases hb : k = b
      · subst hb
        have : ¬ a = k := fun e => hk e.symm
        simp [storageInsert, storageFind, hk, this]
      · simp only [storageInsert, storageFind, hk, hb, if_false, ih]

theorem storageFind_storagePush (m : PacketStorage) (a b : Application)
    (info : nf_packet_info_t) :
    storageFind (storagePush m a info) b =
      if a = b then (storageFind m a).map (fun v => v ++ [info]) else storageFind m b := by
  induction m with
  | nil =>
    by_cases h : a = b <;> simp [storagePush, storageFind, h]
  | cons kv rest ih =>
    obtain ⟨k, v⟩ := kv
    by_cases hk : k = a
    · subst hk
      by_cases h : k = b <;> simp [storagePush, storageFind, h]
    · by_cases hb : k = b
      · subst hb
        have : ¬ a = k := fun e => hk e.symm
        simp [storagePush, storageFind, hk, this]
      · simp only [storagePush, storageFind, hk, hb, if_false, ih]

theorem keys_storagePush (m : PacketStorage) (a : Application) (info : nf_packet_info_t) :
    (storagePush m a info).map Prod.fst = m.map Prod.fst := by
  induction m with
  | nil => rfl
  | cons kv rest ih =>
    obtain ⟨k, v⟩ := kv
    by_cases hk : k = a <;> simp [storagePush, hk, ih]

theorem keys_storageInsert (m : PacketStorage) (a : Application) :
    (storageInsert m a).map Prod.fst =
      if a ∈ m.map Prod.fst then m.map Prod.fst else m.map Prod.fst ++ [a] := by
  induction m with
  | nil => simp [storageInsert]
  | cons kv rest ih =>
    obtain ⟨k, v⟩ := kv
    by_cases hk : k = a
    · subst hk
      simp [storageInsert]
    · have hne : ¬ a = k := fun e => hk e.symm
      simp only [storageInsert, hk, if_false, List.map_cons, ih, List.mem_cons, hne, false_or]
      split <;> simp

/-- What `PacketList::Add` does to the list of each application. -/
theorem of_Add (l : PacketList) (packet : Packet) (app : Application) :
    (l.Add packet).of app =
      if packet.Application = app then l.of app ++ [packet.info] else l.of app := by
  simp only [PacketList.of, PacketList.Add, storageFind_storagePush, storageFind_storageInsert]
  by_cases h : packet.Application = app
  · simp [h]
  · simp [h]

theorem find_Add_isSome (l : PacketList) (packet : Packet) (app : Application) :
    (storageFind (l.Add packet).packets_ app).isSome =
      (decide (packet.Application = app) || (storageFind l.packets_ app).isSome) := by
  simp only [PacketList.Add, storageFind_storagePush, storageFind_storageInsert]
  by_cases h : packet.Application = app
  · simp [h]
  · simp [h]

theorem keys_Add_nodup (l : PacketList) (packet : Packet)
    (h : (l.packets_.map Prod.fst).Nodup) :
    ((l.Add packet).packets_.map Prod.fst).Nodup := by
  simp only [PacketList.Add, keys_storagePush, keys_storageInsert]
  split
  · exact h
  · rename_i hnot
    rw [List.nodup_append]
    refine ⟨h, List.nodup_singleton _, ?_⟩
    intro x hx hx1
    rw [List.mem_singleton] at hx1
    subst hx1
    exact hnot hx

theorem SendPacket_of (q : PacketQueue) (packet : Packet) (app : Application) :
    (q.SendPacket packet).list_.of app = q.list_.of app ++ acceptedOf app [packet] := by
  simp only [PacketQueue.SendPacket, PacketQueue.EnqueuePacket, acceptedOf, List.filter_cons,
    List.filter_nil]
  by_cases hs : packet.Size ≤ 0
  · have : ¬ 0 < packet.Size := by omega
    simp [hs, this]
  · have : 0 < packet.Size := by omega
    by_cases ha : packet.Application = app
    · simp [hs, this, ha, of_Add]
    · simp [hs, this, ha, of_Add]

theorem acceptedOf_cons (app : Application) (packet : Packet) (rest : List Packet) :
    acceptedOf app (packet :: rest) = acceptedOf app [packet] ++ acceptedOf app rest := by
  simp only [acceptedOf, List.filter_cons, List.filter_nil]
  split <;> simp

theorem SendPackets_of (app : Application) :
    ∀ (packets : List Packet) (q : PacketQueue),
      (packets.foldl PacketQueue.SendPacket q).list_.of app =
        q.list_.of app ++ acceptedOf app packets := by
  intro packets
  induction packets with
  | nil =>
    intro q
    simp [acceptedOf]
  | cons p rest ih =>
    intro q
    rw [List.foldl_cons, ih, SendPacket_of, acceptedOf_cons app p rest, List.append_assoc]

theorem SendPacket_isSome (q : PacketQueue) (packet : Packet) (app : Application) :
    (storageFind (q.SendPacket packet).list_.packets_ app).isSome =
      ((storageFind q.list_.packets_ app).isSome || !(acceptedOf app [packet]).isEmpty) := by
  simp only [PacketQueue.SendPacket, PacketQueue.EnqueuePacket, acceptedOf, List.filter_cons,
    List.filter_nil]
  by_cases hs : packet.Size ≤ 0
  · have : ¬ 0 < packet.Size := by omega
    simp [hs, this]
  · have : 0 < packet.Size := by omega
    by_cases ha : packet.Application = app
    · simp [hs, this, ha, find_Add_isSome]
    · simp [hs, this, ha, find_Add_isSome]

theorem SendPackets_isSome (app : Application) :
    ∀ (packets : List Packet) (q : PacketQueue),
      (storageFind (packets.foldl PacketQueue.SendPacket q).list_.packets_ app).isSome =
        ((storageFind q.list_.packets_ app).isSome || !(acceptedOf app packets).isEmpty) := by
  intro packets
  induction packets with
  | nil =>
    intro q
    simp [acceptedOf]
  | cons p rest ih =>
    intro q
    rw [List.foldl_cons, ih, SendPacket_isSome, acceptedOf_cons app p rest]
    cases (storageFind q.list_.packets_ app).isSome <;>
      cases h1 : acceptedOf app [p] <;> cases h2 : acceptedOf app rest <;> simp

theorem SendPackets_nodup :
    ∀ (packets : List Packet) (q : PacketQueue),
      (q.list_.packets_.map Prod.fst).Nodup →
      ((packets.foldl PacketQueue.SendPacket q).list_.packets_.map Prod.fst).Nodup := by
  intro packets
  induction packets with
  | nil =>
    intro q h
    exact h
  | cons p rest ih =>
    intro q h
    rw [List.foldl_cons]
    apply ih
    simp only [PacketQueue.SendPacket, PacketQueue.EnqueuePacket]
    split
    · exact h
    · exact keys_Add_nodup _ _ h

theorem SendPackets_in_progress :
    ∀ (packets : List Packet) (q : PacketQueue),
      (packets.foldl PacketQueue.SendPacket q).in_progress_ = q.in_progress_ := by
  intro packets
  induction packets with
  | nil =>
    intro q
    rfl
  | cons p rest ih =>
    intro q
    rw [List.foldl_cons, ih]
    simp only [PacketQueue.SendPacket, PacketQueue.EnqueuePacket]
    split <;> rfl

/-- With distinct keys, the entries whose key equals `app` are the one found,
if any. -/
theorem filter_key (m : PacketStorage) (app : Application)
    (h : (m.map Prod.fst).Nodup) :
    m.filter (fun e => decide (e.1 = app)) =
      match storageFind m app with
      | none => []
      | some v => [(app, v)] := by
  induction m with
  | nil => rfl
  | cons kv rest ih =>
    obtain ⟨k, v⟩ := kv
    rw [List.map_cons, List.nodup_cons] at h
    by_cases hk : k = app
    · subst hk
      have hnone : rest.filter (fun e => decide (e.1 = k)) = [] := by
        rw [List.filter_eq_nil_iff]
        intro e he
        simp only [decide_eq_true_eq]
        intro hek
        have hmem : e.1 ∈ rest.map Prod.fst := List.mem_map_of_mem Prod.fst he
        rw [hek] at hmem
        exact h.1 hmem
      simp [List.filter_cons, storageFind, hnone]
    · simp only [List.filter_cons, hk, decide_False, storageFind, if_false]
      exact ih h.2

theorem Application_eq_iff (a b : Application) : a = b ↔ a.Path = b.Path := by
  cases a
  cases b
  simp [Application.Path]

/-- Claim C19 (packet batching): starting from an empty window, after any
sequence of `SendPacket` calls the window has, for every application, exactly
the entries described: none if the application sent no packet of positive size
(packets of size 0 contribute nothing), and otherwise exactly one entry with a
key of that path, whose list is the application's packets of positive size in
arrival order, each as `{size, direction, time}`; and if no flush is in flight
and some packet was accepted, the next timer tick hands off exactly this
window and leaves an empty one. -/
theorem packet_batching (q : PacketQueue) (packets : List Packet)
    (hempty : q.list_.IsEmpty = true) :
    (∀ app : Application,
      (packets.foldl PacketQueue.SendPacket q).list_.packets_.filter
          (fun e => decide (e.1.Path = app.Path)) =
        if acceptedOf app packets = [] then [] else [(app, acceptedOf app packets)]) ∧
    (∀ app : Application,
      acceptedOf app packets =
        (packets.filter
          (fun p => decide (0 < p.Size) && decide (p.Application.Path = app.Path))).map
          (fun p =>
            { size := p.Size, direction := NF_DIRECTION.ofDirection p.PacketDirection,
              time := to_time_t p.Time })) ∧
    (q.in_progress_ = false → (∃ p ∈ packets, 0 < p.Size) →
      (packets.foldl PacketQueue.SendPacket q).HandleTimer =
        ({ in_progress_ := true, list_ := { packets_ := [] } },
         some (packets.foldl PacketQueue.SendPacket q).list_)) := by
  have hnil : q.list_.packets_ = [] := by
    simpa [PacketList.IsEmpty, List.isEmpty_iff] using hempty
  have hsome : ∀ app, (storageFind
      (packets.foldl PacketQueue.SendPacket q).list_.packets_ app).isSome =
        !(acceptedOf app packets).isEmpty := by
    intro app
    rw [SendPackets_isSome, hnil]
    simp [storageFind]
  have hof : ∀ app, (packets.foldl PacketQueue.SendPacket q).list_.of app =
      acceptedOf app packets := by
    intro app
    rw [SendPackets_of, PacketList.of, hnil]
    simp [storageFind]
  refine ⟨fun app => ?_, fun app => ?_, fun hidle hex => ?_⟩
  · have hfilter : (fun e : Application × List nf_packet_info_t =>
        decide (e.1.Path = app.Path)) = (fun e => decide (e.1 = app)) := by
      funext e
      simp only [Application_eq_iff e.1 app]
    rw [hfilter, filter_key _ app (SendPackets_nodup packets q (by simp [hnil]))]
    have h1 := hsome app
    have h2 := hof app
    cases hf : storageFind (packets.foldl PacketQueue.SendPacket q).list_.packets_ app with
    | none =>
      rw [hf] at h1
      have : acceptedOf app packets = [] := by
        cases hacc : acceptedOf app packets with
        | nil => rfl
        | cons x xs => simp [hacc] at h1
      simp [this]
    | some v =>
      rw [hf] at h1
      rw [PacketList.of, hf] at h2
      simp only [Option.getD_some] at h2
      subst h2
      have : acceptedOf app packets ≠ [] := by
        intro hacc
        simp [hacc] at h1
      simp [this]
  · simp only [acceptedOf, Application_eq_iff]
    rfl
  · obtain ⟨p, hp, hsize⟩ := hex
    have hacc : acceptedOf p.Application packets ≠ [] := by
      intro hnone
      have hmem : p.info ∈ acceptedOf p.Application packets := by
        simp only [acceptedOf]
        apply List.mem_map_of_mem
        simp [List.mem_filter, hp, hsize]
      rw [hnone] at hmem
      exact absurd hmem (List.not_mem_nil _)
    have hfound := hsome p.Application
    have hne : (packets.foldl PacketQueue.SendPacket q).list_.packets_ ≠ [] := by
      intro hnone
      rw [hnone] at hfound
      cases hcase : acceptedOf p.Application packets with
      | nil => exact hacc hcase
      | cons x xs => simp [storageFind, hcase] at hfound
    have hprog := SendPackets_in_progress packets q
    simp only [PacketQueue.HandleTimer, hprog, hidle, PacketList.IsEmpty, PacketList.Clear,
      Bool.false_or]
    cases hl : (packets.foldl PacketQueue.SendPacket q).list_.packets_ with
    | nil => exact absurd hl hne
    | cons x xs => simp

theorem packet_batching_witness :
    PacketQueue.init.list_.IsEmpty = true ∧
    (([Packet.mk3 0 .Incoming { path_ := "/bin/b" },
       Packet.mk3 10 .Incoming { path_ := "/bin/a" },
       Packet.mk3 20 .Outgoing { path_ := "/bin/a" }].foldl
        PacketQueue.SendPacket PacketQueue.init).HandleTimer =
      ({ in_progress_ := true, list_ := { packets_ := [] } },
       some { packets_ :=
         [({ path_ := "/bin/a" },
           [{ size := 10, direction := .NF_DIRECTION_INCOMING, time := 0 },
            { size := 20, direction := .NF_DIRECTION_OUTGOING, time := 0 }])] })) :=
  ⟨rfl,
    (packet_batching PacketQueue.init
      [Packet.mk3 0 .Incoming { path_ := "/bin/b" },
       Packet.mk3 10 .Incoming { path_ := "/bin/a" },
       Packet.mk3 20 .Outgoing { path_ := "/bin/a" }] rfl).2.2 rfl
      ⟨Packet.mk3 10 .Incoming { path_ := "/bin/a" }, by simp, by decide⟩⟩

theorem HandleTimer_step (t : QueueTrace) :
    t.step .HandleTimer =
      if t.queue.in_progress_ || t.queue.list_.IsEmpty then t
      else { queue := { in_progress_ := true, list_ := { packets_ := [] } },
             handed := t.handed ++ [t.queue.list_] } := by
  by_cases h : (t.queue.in_progress_ || t.queue.list_.IsEmpty) = true
  · simp only [QueueTrace.step, PacketQueue.HandleTimer, PacketList.Clear, h, if_true]
  · simp only [QueueTrace.step, PacketQueue.HandleTimer, PacketList.Clear, h, if_false]
    simp

theorem step_recorded (t : QueueTrace) (e : QueueEvent) (app : Application) :
    (t.step e).recorded app = t.recorded app ++ acceptedOf app (sentPackets [e]) := by
  cases e with
  | SendPacket packet =>
    simp only [QueueTrace.step, QueueTrace.recorded, sentPackets, SendPacket_of,
      List.append_assoc]
  | HandleTimer =>
    rw [HandleTimer_step]
    split
    · simp [sentPackets, acceptedOf]
    · simp [QueueTrace.recorded, sentPackets, acceptedOf, PacketList.of, storageFind]
  | DidSendPacketList =>
    simp [QueueTrace.step, QueueTrace.recorded, PacketQueue.DidSendPacketList, sentPackets,
      acceptedOf]

theorem sentPackets_cons (e : QueueEvent) (rest : List QueueEvent) :
    sentPackets (e :: rest) = sentPackets [e] ++ sentPackets rest := by
  cases e <;> simp [sentPackets]

theorem acceptedOf_append (app : Application) (xs ys : List Packet) :
    acceptedOf app (xs ++ ys) = acceptedOf app xs ++ acceptedOf app ys := by
  simp [acceptedOf]

theorem run_recorded (app : Application) :
    ∀ (events : List QueueEvent) (t : QueueTrace),
      (t.run events).recorded app = t.recorded app ++ acceptedOf app (sentPackets events) := by
  intro events
  induction events with
  | nil =>
    intro t
    simp [QueueTrace.run, sentPackets, acceptedOf]
  | cons e rest ih =>
    intro t
    have hrun : t.run (e :: rest) = (t.step e).run rest := rfl
    rw [hrun, ih, step_recorded, sentPackets_cons e rest, acceptedOf_append, List.append_assoc]

/-- Claim C20 (no loss, duplication or reordering): after every sequence of
`SendPacket` calls, timer ticks and flush ends on a new packet queue, (1) for
every application, its lists in the batches handed off, in hand-off order,
followed by its list in the current window, are exactly its accepted
(size > 0) packets in arrival order; and (2) a further tick leaves the state
unchanged if a flush is in flight or the window is empty, and otherwise hands
off the window as one more batch, empties it and marks the flush in flight. -/
theorem no_loss_no_duplication (events : List QueueEvent) :
    (∀ app : Application,
      (QueueTrace.init.run events).recorded app = acceptedOf app (sentPackets events)) ∧
    (QueueTrace.init.run events).step .HandleTimer =
      (if (QueueTrace.init.run events).queue.in_progress_ ||
          (QueueTrace.init.run events).queue.list_.IsEmpty then QueueTrace.init.run events
       else { queue := { in_progress_ := true, list_ := { packets_ := [] } },
              handed := (QueueTrace.init.run events).handed ++
                [(QueueTrace.init.run events).queue.list_] }) := by
  refine ⟨fun app => ?_, HandleTimer_step _⟩
  rw [run_recorded]
  simp [QueueTrace.recorded, QueueTrace.init, PacketQueue.init, PacketList.of, storageFind]

/-! ### Flags and diff collection in reachable states -/

theorem Update_IsEmpty_empty (u : Update) (h : u.IsEmpty = false) : u ≠ Update.empty := by
  intro he
  rw [he] at h
  exact absurd h (by decide)

/-- C28: flag consistency of RulesStorage. In every state reached from the
initial state by UpdateRule, RemoveRule, ModifyInPlace, ClientConnected and
completions of outstanding sends, client_reconnected implies in_progress, a
non-empty pending set implies in_progress, and in_progress implies
client_connected. -/
theorem flag_consistency (calls : List Call) (c : Channel)
    (h : Channel.init.run calls = some c) :
    (c.store.client_reconnected_ = true → c.store.in_progress_ = true) ∧
    (c.store.pending_update_.IsEmpty = false → c.store.in_progress_ = true) ∧
    (c.store.in_progress_ = true → c.store.client_connected_ = true) := by
  obtain ⟨_, h2, h3, h4, _⟩ := Consistent_run calls _ c Consistent_init h
  refine ⟨h3, ?_, h2⟩
  intro hne
  cases hp : c.store.in_progress_ with
  | true => rfl
  | false => exact absurd (h4 hp) (Update_IsEmpty_empty _ hne)

theorem flag_consistency_witness :
    (RulesStorage.mk 2 [(1, ⟨1, RulePermission.Deny, ⟨"/bin/app"⟩, none, 0⟩)] true true true
        ⟨[1], []⟩).pending_update_.IsEmpty = false ∧
    (RulesStorage.mk 2 [(1, ⟨1, RulePermission.Deny, ⟨"/bin/app"⟩, none, 0⟩)] true true true
        ⟨[1], []⟩).in_progress_ = true :=
  ⟨rfl,
    (flag_consistency
      [Call.ClientConnected, Call.UpdateRule (Rule.mk3 0 RulePermission.Deny ⟨"/bin/app"⟩),
       Call.ClientConnected]
      (Channel.mk
        (RulesStorage.mk 2 [(1, ⟨1, RulePermission.Deny, ⟨"/bin/app"⟩, none, 0⟩)] true true true
          ⟨[1], []⟩)
        [⟨true, [], []⟩] 0)
      (by rfl)).2.1 rfl⟩

theorem call_isSome_of_pending (s : RulesStorage)
    (h : ∀ id ∈ s.pending_update_.updated, mapFind s.rules_ id ≠ none) (a : Call) :
    ∃ s1 out, s.call a = some (s1, out) := by
  cases a with
  | UpdateRule rule => exact UpdateRule_isSome s rule
  | RemoveRule rule_id => exact RemoveRule_isSome s rule_id
  | ModifyInPlace rule_id fn => exact ModifyInPlace_isSome s rule_id fn
  | ClientConnected =>
    simp only [RulesStorage.call, RulesStorage.ClientConnected]
    split <;> exact ⟨_, _, rfl⟩
  | DidSendUpdate success =>
    obtain ⟨rs, hrs⟩ := mapAtAll_isSome s.rules_ _ h
    simp only [RulesStorage.call, RulesStorage.DidSendUpdate, RulesStorage.CollectChanges, hrs]
    split
    · exact ⟨_, _, rfl⟩
    · split
      · exact ⟨_, _, rfl⟩
      · split <;> exact ⟨_, _, rfl⟩

/-- C27: diff collection never fails. In every state reached from the freshly
constructed store by UpdateRule, RemoveRule, ModifyInPlace, ClientConnected and
completions of outstanding sends: every id of the pending updated set is a key
of the rule map; every operation returns (the lookup `rules_.at(id)` of
CollectChanges never throws), so every call that can happen is a step; and
the id that UpdateRule or ModifyInPlace hands to CollectChanges is a key of the
rule map at that point. -/
theorem collect_never_fails (calls : List Call) (c : Channel)
    (h : Channel.init.run calls = some c) :
    (∀ id ∈ c.store.pending_update_.updated, id ∈ mapKeys c.store.rules_) ∧
    (∀ a : Call, ∃ s1 out, c.store.call a = some (s1, out)) ∧
    (∀ a : Call, c.enabled a = true → ∃ c1, c.step a = some c1) ∧
    (∀ rule : Rule,
      (c.store.assignId rule).1.Id ∈
        mapKeys (mapAssign c.store.rules_ (c.store.assignId rule).1.Id
          (c.store.assignId rule).1)) ∧
    (∀ (rule_id : RuleId) (fn : Rule → Rule) (found : Rule),
      mapFind c.store.rules_ rule_id = some found →
      rule_id ∈ mapKeys (mapAssign c.store.rules_ rule_id (fn found))) := by
  obtain ⟨_, _, _, _, h5, _⟩ := Consistent_run calls _ c Consistent_init h
  have hkey : ∀ (m : RuleMap) (id : RuleId) (r : Rule), id ∈ mapKeys (mapAssign m id r) := by
    intro m id r
    by_contra hn
    rw [← mapFind_eq_none_iff, mapFind_mapAssign_self] at hn
    exact absurd hn (by simp)
  refine ⟨?_, call_isSome_of_pending c.store h5, ?_, fun rule => hkey _ _ _,
    fun rule_id fn found _ => hkey _ _ _⟩
  · intro id hid
    by_contra hn
    exact h5 id hid ((mapFind_eq_none_iff _ _).2 hn)
  · intro a hen
    obtain ⟨s1, out, hcall⟩ := call_isSome_of_pending c.store h5 a
    simp only [Channel.step, hen, hcall, if_true]
    exact ⟨_, rfl⟩

theorem collect_never_fails_witness :
    ∃ s1 out,
      (RulesStorage.mk 2 [(1, ⟨1, RulePermission.Deny, ⟨"/bin/app"⟩, none, 0⟩)] true false true
        ⟨[1], []⟩).call (Call.DidSendUpdate true) = some (s1, out) :=
  (collect_never_fails
    [Call.ClientConnected, Call.UpdateRule (Rule.mk3 0 RulePermission.Deny ⟨"/bin/app"⟩)]
    (Channel.mk
      (RulesStorage.mk 2 [(1, ⟨1, RulePermission.Deny, ⟨"/bin/app"⟩, none, 0⟩)] true false true
        ⟨[1], []⟩)
      [⟨true, [], []⟩] 0)
    (by rfl)).2.1 (Call.DidSendUpdate true)

/-! ### The pending sets and the diff dispatched when idle -/

/-- Without a re-add of a removed id the two pending sets are disjoint: in a
run in which no UpdateRule stores its rule under an id of the pending removed
set, no id is in both sets. -/
theorem pending_disjoint_without_readd (calls : List EngineCall) (c : Channel)
    (h : Channel.init.runNoReadd calls = some c) :
    ∀ id ∈ c.store.pending_update_.updated, id ∉ c.store.pending_update_.removed := by
  have hwf0 : RuleMapWF Channel.init.store.rules_ := by
    simp [RuleMapWF, Channel.init, RulesStorage.init, mapKeys]
  have hs0 : Channel.init.Synced := by
    intro hc
    simp [Channel.init, RulesStorage.init] at hc
  obtain ⟨hc, _, hs⟩ := runNoReadd_invariant calls _ c Consistent_init hwf0 hs0 h
  intro id hu hr
  cases hconn : c.store.client_connected_ with
  | true => exact hc.2.2.2.2.1 id hu ((hs hconn).2 id hr)
  | false =>
    cases hp : c.store.in_progress_ with
    | true =>
      rw [hc.2.1 hp] at hconn
      exact absurd hconn (by decide)
    | false =>
      rw [hc.2.2.2.1 hp] at hu
      simp [Update.empty] at hu

/-- C25, divergence: after ClientConnected, and while its full diff is in flight,
UpdateRule of rule 5, RemoveRule(5) and UpdateRule of rule 5 again, the id 5 is
in the pending updated set and in the pending removed set; the successful
completion then dispatches a partial diff that lists rule 5 in updated and id 5
in removed. -/
theorem pending_sets_overlap_on_readd :
    (Channel.init.run
        [Call.ClientConnected,
         Call.UpdateRule (Rule.mk3 5 RulePermission.Allow ⟨"/bin/app"⟩),
         Call.RemoveRule 5,
         Call.UpdateRule (Rule.mk3 5 RulePermission.Allow ⟨"/bin/app"⟩)]).map
      (fun c => (c.store.pending_update_.updated, c.store.pending_update_.removed))
      = some ([5], [5]) ∧
    (Channel.init.run
        [Call.ClientConnected,
         Call.UpdateRule (Rule.mk3 5 RulePermission.Allow ⟨"/bin/app"⟩),
         Call.RemoveRule 5,
         Call.UpdateRule (Rule.mk3 5 RulePermission.Allow ⟨"/bin/app"⟩),
         Call.DidSendUpdate true]).map
      (fun c => (c.sent.drop 1).map
        (fun d => (d.is_full, d.updated.map Rule.Id, d.removed)))
      = some [(false, [5], [5])] := by
  exact ⟨by rfl, by rfl⟩

/-- C22: immediate partial diff when idle. On a store with a connected client
and no send in progress: UpdateRule dispatches exactly one diff, with is_full =
false, updated = [the rule as stored by the upsert, which carries the id it was
given, assigned or found by path] and removed = []; RemoveRule of a present id
dispatches exactly one diff with is_full = false, updated = [] and removed =
[id], and the id is gone; ModifyInPlace of a present id dispatches exactly one
diff with is_full = false, updated = [the mutated rule] and removed = []. In
each case in_progress becomes true and the pending set is not touched, so it
stays empty. -/
theorem immediate_partial_diff (s : RulesStorage)
    (hconn : s.client_connected_ = true) (hidle : s.in_progress_ = false) :
    (∀ rule : Rule, ∃ s1,
      s.UpdateRule rule =
        some (s1, [{ is_full := false, updated := [(s.assignId rule).1], removed := [] }]) ∧
      mapFind s1.rules_ (s.assignId rule).1.Id = some (s.assignId rule).1 ∧
      s1.in_progress_ = true ∧ s1.pending_update_ = s.pending_update_) ∧
    (∀ (rule_id : RuleId) (found : Rule), mapFind s.rules_ rule_id = some found →
      ∃ s1,
        s.RemoveRule rule_id =
          some (s1, [{ is_full := false, updated := [], removed := [rule_id] }]) ∧
        mapFind s1.rules_ rule_id = none ∧
        s1.in_progress_ = true ∧ s1.pending_update_ = s.pending_update_) ∧
    (∀ (rule_id : RuleId) (fn : Rule → Rule) (found : Rule),
      mapFind s.rules_ rule_id = some found →
      ∃ s1,
        s.ModifyInPlace rule_id fn =
          some (s1, [{ is_full := false, updated := [fn found], removed := [] }]) ∧
        mapFind s1.rules_ rule_id = some (fn found) ∧
        s1.in_progress_ = true ∧ s1.pending_update_ = s.pending_update_) := by
  refine ⟨fun rule => ?_, fun rule_id found hf => ?_, fun rule_id fn found hf => ?_⟩
  · have hfind := mapFind_mapAssign_self s.rules_ (s.assignId rule).1.Id (s.assignId rule).1
    refine ⟨{ s with last_id_ := (s.assignId rule).2,
                     rules_ := mapAssign s.rules_ (s.assignId rule).1.Id (s.assignId rule).1,
                     in_progress_ := true }, ?_, hfind, rfl, rfl⟩
    simp [RulesStorage.UpdateRule, hconn, hidle, RulesStorage.CollectChanges, mapAtAll, hfind]
  · refine ⟨{ s with rules_ := mapErase s.rules_ rule_id, in_progress_ := true }, ?_,
      mapFind_mapErase_self s.rules_ rule_id, rfl, rfl⟩
    simp [RulesStorage.RemoveRule, hf, hconn, hidle, RulesStorage.CollectChanges, mapAtAll]
  · have hfind := mapFind_mapAssign_self s.rules_ rule_id (fn found)
    refine ⟨{ s with rules_ := mapAssign s.rules_ rule_id (fn found), in_progress_ := true },
      ?_, hfind, rfl, rfl⟩
    simp [RulesStorage.ModifyInPlace, hf, hconn, hidle, RulesStorage.CollectChanges, mapAtAll,
      hfind]

theorem immediate_partial_diff_witness :
    (RulesStorage.mk 2 [(1, ⟨1, RulePermission.Deny, ⟨"/bin/app"⟩, none, 0⟩)] true false false
        ⟨[], []⟩).client_connected_ = true ∧
    ∃ s1,
      (RulesStorage.mk 2 [(1, ⟨1, RulePermission.Deny, ⟨"/bin/app"⟩, none, 0⟩)] true false false
        ⟨[], []⟩).RemoveRule 1 =
        some (s1, [{ is_full := false, updated := [], removed := [1] }]) ∧
      mapFind s1.rules_ 1 = none ∧
      s1.in_progress_ = true ∧ s1.pending_update_ = ⟨[], []⟩ :=
  ⟨rfl,
    (immediate_partial_diff
      (RulesStorage.mk 2 [(1, ⟨1, RulePermission.Deny, ⟨"/bin/app"⟩, none, 0⟩)] true false false
        ⟨[], []⟩) rfl rfl).2.1 1 ⟨1, RulePermission.Deny, ⟨"/bin/app"⟩, none, 0⟩ rfl⟩

/-! ### Freshness of assigned ids -/

theorem mapAssign_of_not_mem (m : RuleMap) (id : RuleId) (r : Rule)
    (h : id ∉ mapKeys m) : mapAssign m id r = m ++ [(id, r)] := by
  induction m with
  | nil => rfl
  | cons kv rest ih =>
    obtain ⟨k, v⟩ := kv
    simp only [mapKeys, List.map_cons, List.mem_cons, not_or] at h
    have hk : ¬ k = id := fun e => h.1 e.symm
    simp only [mapAssign, hk, if_false, List.cons_append]
    rw [ih h.2]

/-- When the counter's value is not a key of the rule map, an UpdateRule call
that assigns an id (id 0, path of no stored rule) appends the rule under that
value: every rule stored before is still there, unchanged, and the number of
rules grows by one. -/
theorem UpdateRule_fresh (s : RulesStorage) (rule : Rule)
    (hassign : s.assigns rule = true) (hfresh : s.last_id_ ∉ mapKeys s.rules_) :
    ∃ s1 out, s.UpdateRule rule = some (s1, out) ∧
      s1.rules_ = s.rules_ ++ [(s.last_id_, rule.WithId s.last_id_)] ∧
      s1.rules_.length = s.rules_.length + 1 := by
  obtain ⟨s1, out, h⟩ := UpdateRule_isSome s rule
  have hspec := (UpdateRule_spec s s1 rule out h).1
  rw [assignId_of_assigns s rule hassign] at hspec
  have hid : (rule.WithId s.last_id_).Id = s.last_id_ := rfl
  rw [hid, mapAssign_of_not_mem _ _ _ hfresh] at hspec
  exact ⟨s1, out, h, hspec, by rw [hspec]; simp⟩

/-- C24, divergence: on the freshly constructed store, UpdateRule of a rule with
the explicit id 1 for "/bin/a" stores it under key 1 and leaves the counter at
1. UpdateRule of a rule with id 0 for "/bin/b", a path of no stored rule, is
then assigned the id 1, which is a key of the rule map: the rule for "/bin/a"
is overwritten and the number of stored rules stays 1. -/
theorem assigned_id_overwrites_explicit :
    (RulesStorage.init.UpdateRule (Rule.mk3 1 RulePermission.Allow ⟨"/bin/a"⟩)).map
        (fun r => (r.1.rules_, r.1.last_id_)) =
      some ([(1, Rule.mk3 1 RulePermission.Allow ⟨"/bin/a"⟩)], 1) ∧
    ({ RulesStorage.init with
        rules_ := [(1, Rule.mk3 1 RulePermission.Allow ⟨"/bin/a"⟩)] }).assigns
        (Rule.mk3 0 RulePermission.Deny ⟨"/bin/b"⟩) = true ∧
    (Channel.init.run
        [Call.UpdateRule (Rule.mk3 1 RulePermission.Allow ⟨"/bin/a"⟩),
         Call.UpdateRule (Rule.mk3 0 RulePermission.Deny ⟨"/bin/b"⟩)]).map
        (fun c => (c.store.rules_, c.store.last_id_)) =
      some ([(1, Rule.mk3 1 RulePermission.Deny ⟨"/bin/b"⟩)], 2) := by
  exact ⟨by rfl, by rfl, by rfl⟩

theorem keys_below_counter_call (s s1 : RulesStorage) (a : Call) (out : List RulesUpdate)
    (ha : a.leavesIds = true) (h : s.call a = some (s1, out))
    (hwf : ∀ kv ∈ s.rules_, kv.2.Id = kv.1)
    (hlt : ∀ kv ∈ s.rules_, kv.1 < s.last_id_)
    (hbound : s.last_id_ + 1 < 2 ^ 64) :
    (∀ kv ∈ s1.rules_, kv.2.Id = kv.1) ∧ (∀ kv ∈ s1.rules_, kv.1 < s1.last_id_) ∧
      s1.last_id_ ≤ s.last_id_ + 1 := by
  cases a with
  | UpdateRule rule =>
    have hid : rule.Id = 0 := by simpa [Call.leavesIds] using ha
    obtain ⟨hr, hl, _⟩ := UpdateRule_spec s s1 rule out h
    rcases assignId_cases s rule with ⟨hne, _⟩ | ⟨_, hno, hassigned⟩ | ⟨_, kv0, hkv0, _, hassigned⟩
    · exact absurd hid hne
    · have hassigns : s.assigns rule = true := (assigns_iff s rule).2 ⟨hid, hno⟩
      have hpair := assignId_of_assigns s rule hassigns
      rw [hpair] at hr hl
      have hmod : (s.last_id_ + 1) % 2 ^ 64 = s.last_id_ + 1 := Nat.mod_eq_of_lt hbound
      simp only at hr hl
      rw [hmod] at hl
      have hid1 : (rule.WithId s.last_id_).Id = s.last_id_ := rfl
      rw [hid1] at hr
      refine ⟨?_, ?_, by rw [hl]⟩
      · intro kv hkv
        rw [hr] at hkv
        rcases mem_mapAssign _ _ _ _ hkv with hold | rfl
        · exact hwf kv hold
        · rfl
      · intro kv hkv
        rw [hr] at hkv
        rw [hl]
        rcases mem_mapAssign _ _ _ _ hkv with hold | rfl
        · exact Nat.lt_succ_of_lt (hlt kv hold)
        · exact Nat.lt_succ_self _
    · have hl2 : s1.last_id_ = s.last_id_ := by
        rw [hl]
        apply assignId_of_not_assigns
        cases hq : s.assigns rule with
        | false => rfl
        | true =>
          exact absurd (by assumption) (((assigns_iff s rule).1 hq).2 kv0 hkv0)
      rw [hassigned] at hr
      have hid0 : (kv0.2.WithPermission rule.Permission).Id = kv0.1 := hwf kv0 hkv0
      rw [hid0] at hr
      refine ⟨?_, ?_, by rw [hl2]; exact Nat.le_succ _⟩
      · intro kv hkv
        rw [hr] at hkv
        rcases mem_mapAssign _ _ _ _ hkv with hold | rfl
        · exact hwf kv hold
        · exact hid0
      · intro kv hkv
        rw [hr] at hkv
        rw [hl2]
        rcases mem_mapAssign _ _ _ _ hkv with hold | rfl
        · exact hlt kv hold
        · exact hlt kv0 hkv0
  | RemoveRule rule_id =>
    obtain ⟨hr, hl⟩ := RemoveRule_rules s s1 rule_id out h
    rw [hl]
    rcases hr with hr | hr
    · rw [hr]
      exact ⟨hwf, hlt, Nat.le_succ _⟩
    · rw [hr]
      exact ⟨fun kv hkv => hwf kv (mem_mapErase _ _ _ hkv).1,
        fun kv hkv => hlt kv (mem_mapErase _ _ _ hkv).1, Nat.le_succ _⟩
  | ModifyInPlace rule_id fn => simp [Call.leavesIds] at ha
  | ClientConnected =>
    obtain ⟨hr, hl⟩ := ClientConnected_rules s s1 out h
    rw [hr, hl]
    exact ⟨hwf, hlt, Nat.le_succ _⟩
  | DidSendUpdate success =>
    obtain ⟨hr, hl⟩ := DidSendUpdate_rules s s1 success out h
    rw [hr, hl]
    exact ⟨hwf, hlt, Nat.le_succ _⟩

theorem keys_below_counter_run :
    ∀ (calls : List Call) (c c1 : Channel),
      (∀ a ∈ calls, a.leavesIds = true) → c.run calls = some c1 →
      (∀ kv ∈ c.store.rules_, kv.2.Id = kv.1) →
      (∀ kv ∈ c.store.rules_, kv.1 < c.store.last_id_) →
      c.store.last_id_ + calls.length < 2 ^ 64 →
      (∀ kv ∈ c1.store.rules_, kv.2.Id = kv.1) ∧
      (∀ kv ∈ c1.store.rules_, kv.1 < c1.store.last_id_) := by
  intro calls
  induction calls with
  | nil =>
    intro c c1 _ h hwf hlt _
    simp [Channel.run] at h
    subst h
    exact ⟨hwf, hlt⟩
  | cons a rest ih =>
    intro c c1 hall h hwf hlt hb
    simp only [Channel.run] at h
    cases hs : c.step a with
    | none => simp [hs] at h
    | some c2 =>
      simp only [hs] at h
      obtain ⟨out, hcall⟩ := step_store_call c c2 a hs
      simp only [List.length_cons] at hb
      obtain ⟨h1, h2, h3⟩ := keys_below_counter_call c.store c2.store a out
        (hall a (List.mem_cons_self _ _)) hcall hwf hlt (by unfold RuleId at *; omega)
      exact ih c2 c1 (fun b hb1 => hall b (List.mem_cons_of_mem _ hb1)) h h1 h2
        (by unfold RuleId at *; omega)

/-- Without explicit ids the assigned ids are fresh: in every state reached
from the freshly constructed store by fewer than 2^64 - 2 calls, each an
UpdateRule with id 0, a RemoveRule, ClientConnected or a completion, every key
of the rule map is below the counter; so an UpdateRule with id 0 for a path of
no stored rule appends its rule under a new key. -/
theorem fresh_ids_without_explicit (calls : List Call) (c : Channel)
    (hall : ∀ a ∈ calls, a.leavesIds = true)
    (h : Channel.init.run calls = some c) (hlen : calls.length + 2 < 2 ^ 64)
    (rule : Rule) (hassign : c.store.assigns rule = true) :
    ∃ s1 out, c.store.UpdateRule rule = some (s1, out) ∧
      s1.rules_ = c.store.rules_ ++ [(c.store.last_id_, rule.WithId c.store.last_id_)] ∧
      s1.rules_.length = c.store.rules_.length + 1 := by
  have hinit : Channel.init.store.last_id_ = 1 := rfl
  obtain ⟨_, hlt⟩ := keys_below_counter_run calls Channel.init c hall h
    (by simp [Channel.init, RulesStorage.init]) (by simp [Channel.init, RulesStorage.init])
    (by rw [hinit]; unfold RuleId; omega)
  apply UpdateRule_fresh c.store rule hassign
  intro hmem
  obtain ⟨kv, hkv, hk⟩ := List.mem_map.1 hmem
  have := hlt kv hkv
  rw [hk] at this
  exact absurd this (Nat.lt_irrefl _)

/-! ### CheckAccess on an existing rule -/

theorem Matching_mem (s : RulesStorage) (pred : Rule → Bool) (rule : Rule)
    (h : s.Matching pred = some rule) : ∃ kv ∈ s.rules_, kv.2 = rule ∧ pred rule = true := by
  unfold RulesStorage.Matching at h
  cases hf : mapFindIf s.rules_ pred with
  | none => simp [hf] at h
  | some kv =>
    simp only [hf, Option.some.injEq] at h
    unfold mapFindIf at hf
    refine ⟨kv, List.mem_of_find?_eq_some hf, h, ?_⟩
    have := List.find?_some hf
    rw [← h]
    exact this

/-- C23: effect of CheckAccess on an existing rule. Let the rule map be well
formed (distinct keys, each rule stored under its own id) and let `rule` be the
rule found for the application. If the mode is not AllAllow and the rule's
permission is Allow, CheckAccess returns Allow and afterwards the rule stored
under the rule's id is the rule with last_access = the delegate's CurrentTime()
and the same id, permission, application and access_count; the lookup of every
other id, the keys of the map and the id counter are unchanged. If the mode is
AllAllow or the rule's permission is Deny, the engine, and so the whole rule
map, is unchanged. -/
theorem CheckAccess_existing_rule (f : NetworkFilter) (application : Application)
    (completion : Completion) (now : Time) (rule : Rule)
    (hwf : RuleMapWF f.rules_.rules_)
    (hrule : f.RuleMatchingApplication application = some rule) :
    (f.mode_ ≠ FilterMode.AllAllow → rule.Permission = RulePermission.Allow →
      ∃ res, f.CheckAccess application completion now = some res ∧
        res.status = AccessStatus.Allow ∧
        mapFind res.filter.rules_.rules_ rule.Id =
          some { id_ := rule.id_, permission_ := rule.permission_,
                 application_ := rule.application_, last_access_ := some now,
                 access_count_ := rule.access_count_ } ∧
        (∀ id, id ≠ rule.Id →
          mapFind res.filter.rules_.rules_ id = mapFind f.rules_.rules_ id) ∧
        res.filter.rules_.last_id_ = f.rules_.last_id_) ∧
    ((f.mode_ = FilterMode.AllAllow ∨ rule.Permission = RulePermission.Deny) →
      ∃ res, f.CheckAccess application completion now = some res ∧ res.filter = f) := by
  obtain ⟨kv, hkv, hkv2, _⟩ := Matching_mem _ _ _ hrule
  have hkey : kv.1 = rule.Id := by rw [← hkv2]; exact (hwf.2 kv hkv).symm
  have hfind : mapFind f.rules_.rules_ rule.Id = some rule := by
    apply mapFind_of_mem _ _ _ hwf.1
    rw [← hkey, ← hkv2]
    exact hkv
  constructor
  · intro hmode hperm
    obtain ⟨s1, out, hmod⟩ := ModifyInPlace_isSome f.rules_ rule.Id
      (fun rule => rule.WithAccessTime now)
    obtain ⟨hrules, hlast⟩ := ModifyInPlace_rules _ _ _ _ _ hmod
    have hrules1 : s1.rules_ = mapAssign f.rules_.rules_ rule.Id (rule.WithAccessTime now) := by
      rcases hrules with hsame | ⟨found, hfound, hnew⟩
      · unfold RulesStorage.ModifyInPlace at hmod
        simp only [hfind] at hmod
        revert hmod
        cases f.rules_.client_connected_ <;> cases f.rules_.in_progress_ <;>
          simp [RulesStorage.CollectChanges, mapAtAll, mapFind_mapAssign_self] <;>
          intro h1 _ <;> rw [← h1]
      · rw [hfind] at hfound
        cases hfound
        exact hnew
    refine ⟨{ status := AccessStatus.Allow, filter := { f with rules_ := s1 },
              effects := { Effects.nothing with sent := out } }, ?_, rfl, ?_, ?_, hlast⟩
    · simp [NetworkFilter.CheckAccess, hrule, hmode, hperm, ToAccessStatus,
        NetworkFilter.UpdateRuleAccessTime, hmod]
    · show mapFind s1.rules_ rule.Id = _
      rw [hrules1, mapFind_mapAssign_self]
      rfl
    · intro id hid
      show mapFind s1.rules_ id = _
      rw [hrules1]
      exact mapFind_mapAssign_ne _ _ _ _ hid
  · intro hcase
    rcases hcase with hmode | hperm
    · exact ⟨{ status := AccessStatus.Allow, filter := f, effects := Effects.nothing },
        by simp [NetworkFilter.CheckAccess, hrule, hmode], rfl⟩
    · by_cases hmode : f.mode_ = FilterMode.AllAllow
      · exact ⟨{ status := AccessStatus.Allow, filter := f, effects := Effects.nothing },
          by simp [NetworkFilter.CheckAccess, hrule, hmode], rfl⟩
      · exact ⟨{ status := AccessStatus.Deny, filter := f, effects := Effects.nothing },
          by simp [NetworkFilter.CheckAccess, hrule, hmode, hperm, ToAccessStatus], rfl⟩

theorem CheckAccess_existing_rule_witness :
    RuleMapWF
      (NetworkFilter.mk FilterMode.UnknownDeny
        (RulesStorage.mk 2 [(1, ⟨1, RulePermission.Allow, ⟨"/bin/app"⟩, none, 1⟩)]
          false false false ⟨[], []⟩) []).rules_.rules_ ∧
    ∃ res,
      (NetworkFilter.mk FilterMode.UnknownDeny
        (RulesStorage.mk 2 [(1, ⟨1, RulePermission.Allow, ⟨"/bin/app"⟩, none, 1⟩)]
          false false false ⟨[], []⟩) []).CheckAccess ⟨"/bin/app"⟩ 7 5000 = some res ∧
      res.status = AccessStatus.Allow ∧
      mapFind res.filter.rules_.rules_ 1 =
        some ⟨1, RulePermission.Allow, ⟨"/bin/app"⟩, some 5000, 1⟩ :=
  have hwf : RuleMapWF
      (NetworkFilter.mk FilterMode.UnknownDeny
        (RulesStorage.mk 2 [(1, ⟨1, RulePermission.Allow, ⟨"/bin/app"⟩, none, 1⟩)]
          false false false ⟨[], []⟩) []).rules_.rules_ := by
    simp [RuleMapWF, mapKeys, Rule.Id]
  ⟨hwf,
    match (CheckAccess_existing_rule
      (NetworkFilter.mk FilterMode.UnknownDeny
        (RulesStorage.mk 2 [(1, ⟨1, RulePermission.Allow, ⟨"/bin/app"⟩, none, 1⟩)]
          false false false ⟨[], []⟩) []) ⟨"/bin/app"⟩ 7 5000
      ⟨1, RulePermission.Allow, ⟨"/bin/app"⟩, none, 1⟩ hwf rfl).1 (by decide) rfl with
    | ⟨res, h1, h2, h3, _⟩ => ⟨res, h1, h2, h3⟩⟩

/-! ### Only bucket 0 is written -/

theorem mem_statAssign (m : StatisticMap) (path : String) (data : StatisticData)
    (kv : String × StatisticData) (h : kv ∈ statAssign m path data) :
    kv ∈ m ∨ kv.2 = data := by
  induction m with
  | nil =>
    simp only [statAssign, List.mem_singleton] at h
    right
    rw [h]
  | cons e rest ih =>
    obtain ⟨k, v⟩ := e
    by_cases hk : k = path
    · simp only [statAssign, hk, if_true, List.mem_cons] at h
      rcases h with h | h
      · right
        rw [h]
      · left
        exact List.mem_cons_of_mem _ h
    · simp only [statAssign, hk, if_false, List.mem_cons] at h
      rcases h with h | h
      · left
        rw [h]
        exact List.mem_cons_self _ _
      · rcases ih h with h1 | h1
        · left
          exact List.mem_cons_of_mem _ h1
        · right
          exact h1

theorem mem_of_statFind (m : StatisticMap) (path : String) (data : StatisticData)
    (h : statFind m path = some data) : (path, data) ∈ m := by
  induction m with
  | nil => simp [statFind] at h
  | cons e rest ih =>
    obtain ⟨k, v⟩ := e
    by_cases hk : k = path
    · simp only [statFind, hk, if_true, Option.some.injEq] at h
      rw [hk, h]
      exact List.mem_cons_self _ _
    · simp only [statFind, hk, if_false] at h
      exact List.mem_cons_of_mem _ (ih h)

/-- The eviction step keeps a ring whose buckets 1..23 are zero in that shape,
and always selects bucket 0. -/
theorem selectTraffic_ring (data : StatisticData) (now vs : Time) (b : Traffic)
    (h : data.traffic_by_hour = b :: List.replicate 23 Traffic.zero) :
    (∃ b1, (selectTraffic data now vs).1.traffic_by_hour =
      b1 :: List.replicate 23 Traffic.zero) ∧ (selectTraffic data now vs).2 = 0 := by
  cases hf : first_valid_hour data vs with
  | none =>
    simp only [selectTraffic, hf, h]
    exact ⟨⟨Traffic.zero, by simp⟩, trivial⟩
  | some k =>
    obtain ⟨hk, _, _⟩ := (find?_range_spec _ kMaxHours).1 k hf
    by_cases hk0 : k = 0
    · subst hk0
      simp only [selectTraffic, hf, ne_eq, not_true_eq_false, if_false]
      exact ⟨⟨b, h⟩, trivial⟩
    · simp only [selectTraffic, hf, ne_eq, hk0, not_false_eq_true, if_true, h]
      unfold kMaxHours at hk
      rw [drop_ring b k (by omega) (by omega)]
      exact ⟨⟨Traffic.zero, rfl⟩, trivial⟩

theorem HandlePacket_ring (st : nf_statistics_store) (path : String)
    (info : nf_packet_info_t) (now : Time)
    (h : ∀ kv ∈ st.statistic_, ∃ b, kv.2.traffic_by_hour = b :: List.replicate 23 Traffic.zero) :
    ∀ kv ∈ (HandlePacket st path info now).statistic_,
      ∃ b, kv.2.traffic_by_hour = b :: List.replicate 23 Traffic.zero := by
  unfold HandlePacket
  by_cases hs : info.size ≤ 0
  · simpa [hs] using h
  · by_cases hn : now < hours kMaxHours
    · simpa [hs, hn] using h
    · simp only [hs, hn, if_false]
      intro kv hkv
      rcases mem_statAssign _ _ _ _ hkv with hold | hnew
      · exact h kv hold
      · have hdata : ∃ b, ((statFind st.statistic_ path).getD
            { start := from_time_t info.time,
              traffic_by_hour := List.replicate kMaxHours Traffic.zero }).traffic_by_hour =
            b :: List.replicate 23 Traffic.zero := by
          cases hf : statFind st.statistic_ path with
          | none => exact ⟨Traffic.zero, rfl⟩
          | some d => exact h (path, d) (mem_of_statFind _ _ _ hf)
        obtain ⟨b, hb⟩ := hdata
        obtain ⟨⟨b1, hb1⟩, hidx⟩ := selectTraffic_ring _ now (now - hours kMaxHours) b hb
        rw [hnew]
        simp only [hb1, hidx, updateAt]
        exact ⟨_, rfl⟩

theorem HandlePackets_ring :
    ∀ (calls : List (String × nf_packet_info_t × Time)) (st : nf_statistics_store),
      (∀ kv ∈ st.statistic_,
        ∃ b, kv.2.traffic_by_hour = b :: List.replicate 23 Traffic.zero) →
      ∀ kv ∈ (HandlePackets st calls).statistic_,
        ∃ b, kv.2.traffic_by_hour = b :: List.replicate 23 Traffic.zero := by
  intro calls
  induction calls with
  | nil =>
    intro st h
    exact h
  | cons call rest ih =>
    intro st h
    exact ih _ (HandlePacket_ring st call.1 call.2.1 call.2.2 h)

/-- C26: only the first bucket is ever written. After any sequence of
HandlePacket calls on a fresh statistics store, with any packets and any clock
values, the ring of every application that has an entry has 24 buckets of which
buckets 1..23 are zero in both counters, and CopyStatistic returns at most one
item for it. -/
theorem only_first_bucket_written (calls : List (String × nf_packet_info_t × Time))
    (path : String) (data : StatisticData)
    (h : statFind (HandlePackets nf_statistics_store.init calls).statistic_ path = some data) :
    data.traffic_by_hour.length = 24 ∧
    (∀ i, 1 ≤ i → data.traffic_by_hour.getD i Traffic.zero = Traffic.zero) ∧
    ∃ items, CopyStatistic (HandlePackets nf_statistics_store.init calls) path = some items ∧
      items.length ≤ 1 := by
  obtain ⟨b, hb⟩ := HandlePackets_ring calls nf_statistics_store.init
    (by simp [nf_statistics_store.init]) (path, data) (mem_of_statFind _ _ _ h)
  simp only at hb
  have hdata : data = StatisticData.mk data.start (b :: List.replicate 23 Traffic.zero) := by
    rw [← hb]
  refine ⟨by rw [hb]; simp, ?_, ?_⟩
  · intro i hi
    obtain ⟨j, rfl⟩ : ∃ j, i = j + 1 := ⟨i - 1, by omega⟩
    rw [hb, List.getD_cons_succ, List.getD_eq_getElem?_getD, List.getElem?_replicate]
    split <;> rfl
  · rw [hdata] at h
    rw [CopyStatistic_single _ path _ _ h]
    refine ⟨_, rfl, ?_⟩
    split <;> simp

theorem only_first_bucket_written_witness :
    CopyStatistic
        (HandlePackets nf_statistics_store.init
          [("/bin/app", { size := 10, direction := .NF_DIRECTION_INCOMING, time := 100000 },
            from_time_t 100000),
           ("/bin/app", { size := 20, direction := .NF_DIRECTION_OUTGOING, time := 110000 },
            from_time_t 110000)]) "/bin/app" =
      some [{ date_from := 100000, date_to := 103600,
              bytes_incoming := 10, bytes_outgoing := 20 }] ∧
    ([Traffic.mk 10 20] ++ List.replicate 23 Traffic.zero).length = 24 :=
  ⟨by rfl,
    (only_first_bucket_written
      [("/bin/app", { size := 10, direction := .NF_DIRECTION_INCOMING, time := 100000 },
        from_time_t 100000),
       ("/bin/app", { size := 20, direction := .NF_DIRECTION_OUTGOING, time := 110000 },
        from_time_t 110000)] "/bin/app"
      (StatisticData.mk (from_time_t 100000)
        ([Traffic.mk 10 20] ++ List.replicate 23 Traffic.zero))
      (by rfl)).1⟩

/-! ### HandlePacket against the reference eviction rule -/

theorem map_range_eq (l : List Traffic) (n : Nat) (hl : l.length = n) (g : Nat → Traffic)
    (hg : ∀ j, j < n → g j = l.getD j Traffic.zero) : (List.range n).map g = l := by
  apply List.ext_getElem
  · simp [hl]
  · intro j h1 h2
    simp only [List.getElem_map, List.getElem_range]
    rw [hg j (by simpa using h1), List.getD_eq_getElem _ _ h2]

theorem getD_drop_ring (l : List Traffic) (i j : Nat) (hl : l.length = 24) (hi : i ≤ 24) :
    (l.drop i ++ List.replicate i Traffic.zero).getD j Traffic.zero =
      if j < 24 - i then l.getD (j + i) Traffic.zero else Traffic.zero := by
  simp only [List.getD_eq_getElem?_getD]
  by_cases hj : j < 24 - i
  · rw [List.getElem?_append_left (by simp [hl]; omega), List.getElem?_drop, if_pos hj,
      Nat.add_comm]
  · rw [List.getElem?_append_right (by simp [hl]; omega), if_neg hj,
      List.getElem?_replicate]
    split <;> rfl

theorem first_valid_hour_of_least (data : StatisticData) (now : Time) (i : Nat)
    (h : IsLeastValid data.start now i) :
    first_valid_hour data (now - hours kMaxHours) = some i := by
  obtain ⟨h1, h2, h3⟩ := h
  have h24 : hours kMaxHours = hours 24 := rfl
  apply find?_range_first _ _ i h1
  · rw [h24]
    simpa using h2
  · intro j hj
    rw [h24]
    simp only [decide_eq_false_iff_not, ge_iff_le, not_le]
    exact h3 j hj

theorem first_valid_hour_of_none (data : StatisticData) (now : Time)
    (h : ∀ i : Nat, i < 24 → data.start + hours i < now - hours 24) :
    first_valid_hour data (now - hours kMaxHours) = none := by
  have h24 : hours kMaxHours = hours 24 := rfl
  apply find?_range_none
  intro j hj
  rw [h24]
  simp only [decide_eq_false_iff_not, ge_iff_le, not_le]
  exact h j hj

theorem updateAt_zero_eq (l : List Traffic) (hl : l.length = 24) (info : nf_packet_info_t)
    (start : Time) :
    ({ start := start, traffic_by_hour := updateAt l 0 (addTraffic info) } : StatisticData) =
      reference_accumulate info { start := start, traffic_by_hour := l } := by
  cases l with
  | nil => simp at hl
  | cons b rest =>
    simp only [reference_accumulate, updateAt, StatisticData.mk.injEq, true_and]
    symm
    apply map_range_eq _ _ (by simpa using hl)
    intro j _
    by_cases hj : j = 0
    · subst hj
      cases hd : info.direction <;> simp [addTraffic, hd]
    · obtain ⟨k, rfl⟩ : ∃ k, j = k + 1 := ⟨j - 1, by omega⟩
      simp

theorem reference_eviction_some (data : StatisticData) (now : Time) (i : Nat)
    (hlen : data.traffic_by_hour.length = 24) (hi : i ≤ 24) :
    reference_eviction data now (some i) =
      { start := data.start + hours i,
        traffic_by_hour := data.traffic_by_hour.drop i ++ List.replicate i Traffic.zero } := by
  simp only [reference_eviction, StatisticData.mk.injEq, true_and]
  apply map_range_eq _ _ (by simp [hlen]; omega)
  intro j _
  exact (getD_drop_ring _ i j hlen hi).symm

theorem reference_eviction_zero (data : StatisticData) (now : Time)
    (hlen : data.traffic_by_hour.length = 24) :
    reference_eviction data now (some 0) = data := by
  rw [reference_eviction_some data now 0 hlen (by omega)]
  cases data with
  | mk start buckets => simp [hours]

theorem HandlePacket_other (st : nf_statistics_store) (path other : String)
    (info : nf_packet_info_t) (now : Time) (h : other ≠ path) :
    statFind (HandlePacket st path info now).statistic_ other = statFind st.statistic_ other := by
  unfold HandlePacket
  by_cases hs : info.size ≤ 0
  · simp [hs]
  · by_cases hn : now < hours kMaxHours
    · simp [hs, hn]
    · simp only [hs, hn, if_false]
      exact statFind_statAssign_ne _ _ _ _ h

/-- C21: HandlePacket equals the reference eviction rule. For an event of size 0
the store is unchanged. For an event of positive size handled at a time `now`
at least 24 hours after the epoch, on an application whose ring `data` has its
24 buckets: if no index in 0..23 has a bucket start that is not older than
`now - 24h`, the new ring is the reference rule's reset (all buckets zero,
anchor `now`) followed by the accumulation; if `i` is the least such index, the
new ring is the reference rule's shift by `i` (bucket `j` from bucket `j + i`
for `j < 24 - i`, the last `i` buckets zero, anchor advanced by `i` hours)
followed by the accumulation, and for `i = 0` the shift moves nothing. The
accumulation adds the size to the incoming or outgoing counter of bucket 0, as
a 64-bit counter, and changes no other counter; the rings of the other
applications are unchanged. -/
theorem HandlePacket_reference_rule (st : nf_statistics_store) (path : String)
    (info : nf_packet_info_t) (now : Time) (data : StatisticData)
    (hfind : statFind st.statistic_ path = some data)
    (hlen : data.traffic_by_hour.length = 24) :
    (info.size = 0 → HandlePacket st path info now = st) ∧
    (0 < info.size → hours kMaxHours ≤ now →
      ((∀ i : Nat, i < 24 → data.start + hours i < now - hours 24) →
        statFind (HandlePacket st path info now).statistic_ path =
          some (reference_accumulate info (reference_eviction data now none))) ∧
      (∀ i : Nat, IsLeastValid data.start now i →
        statFind (HandlePacket st path info now).statistic_ path =
          some (reference_accumulate info (reference_eviction data now (some i)))) ∧
      reference_eviction data now (some 0) = data) ∧
    (∀ other : String, other ≠ path →
      statFind (HandlePacket st path info now).statistic_ other =
        statFind st.statistic_ other) := by
  refine ⟨fun h0 => ?_, fun hsize hnow => ⟨fun hnone => ?_, fun i hleast => ?_,
    reference_eviction_zero data now hlen⟩, fun other h => HandlePacket_other st path other info now h⟩
  · simp [HandlePacket, h0]
  · rw [HandlePacket_entry st path info now hsize hnow, hfind]
    have hz := first_valid_hour_of_none data now hnone
    simp only [Option.getD_some, selectTraffic, hz]
    have hmap : data.traffic_by_hour.map (fun _ => Traffic.zero) =
        List.replicate 24 Traffic.zero := by
      rw [List.map_const', hlen]
    rw [hmap, updateAt_zero_eq _ (by simp)]
    rfl
  · rw [HandlePacket_entry st path info now hsize hnow, hfind]
    have hz := first_valid_hour_of_least data now i hleast
    have hi : i < 24 := hleast.1
    rw [reference_eviction_some data now i hlen (by omega)]
    by_cases hi0 : i = 0
    · subst hi0
      simp only [Option.getD_some, selectTraffic, hz, ne_eq, not_true_eq_false, if_false]
      rw [updateAt_zero_eq _ hlen]
      cases data with
      | mk start buckets => simp [hours]
    · simp only [Option.getD_some, selectTraffic, hz, ne_eq, hi0, not_false_eq_true, if_true]
      rw [updateAt_zero_eq _ (by simp [hlen]; omega)]


theorem HandlePacket_reference_rule_witness :
    statFind
        (HandlePacket nf_statistics_store.init "/bin/app"
          { size := 10, direction := .NF_DIRECTION_INCOMING, time := 100000 }
          (from_time_t 100000)).statistic_ "/bin/app" =
      some (StatisticData.mk (from_time_t 100000)
        (Traffic.mk 10 0 :: List.replicate 23 Traffic.zero)) ∧
    IsLeastValid (from_time_t 100000) (from_time_t 190000) 1 ∧
    statFind
        (HandlePacket
          (HandlePacket nf_statistics_store.init "/bin/app"
            { size := 10, direction := .NF_DIRECTION_INCOMING, time := 100000 }
            (from_time_t 100000))
          "/bin/app" { size := 20, direction := .NF_DIRECTION_OUTGOING, time := 190000 }
          (from_time_t 190000)).statistic_ "/bin/app" =
      some (StatisticData.mk (from_time_t 103600)
        (Traffic.mk 0 20 :: List.replicate 23 Traffic.zero)) :=
  have hleast : IsLeastValid (from_time_t 100000) (from_time_t 190000) 1 := by
    unfold IsLeastValid
    decide
  ⟨by rfl, hleast,
    ((HandlePacket_reference_rule
      (HandlePacket nf_statistics_store.init "/bin/app"
        { size := 10, direction := .NF_DIRECTION_INCOMING, time := 100000 }
        (from_time_t 100000))
      "/bin/app" { size := 20, direction := .NF_DIRECTION_OUTGOING, time := 190000 }
      (from_time_t 190000)
      (StatisticData.mk (from_time_t 100000)
        (Traffic.mk 10 0 :: List.replicate 23 Traffic.zero))
      (by rfl) (by rfl)).2.1 (by decide) (by decide)).2.1 1 hleast⟩

/-! ### StrSplit -/

theorem indexFrom_none (c : Char) (l : List Char) (i : Nat) :
    mcom.indexFrom c l i = none ↔ c ∉ l := by
  induction l generalizing i with
  | nil => simp [mcom.indexFrom]
  | cons x xs ih =>
    by_cases hx : x = c
    · simp [mcom.indexFrom, hx]
    · have hne : ¬ c = x := fun e => hx e.symm
      simp [mcom.indexFrom, hx, hne, ih]

theorem indexFrom_some (c : Char) (l : List Char) (i k : Nat)
    (h : mcom.indexFrom c l i = some k) :
    ∃ seg tail, l = seg ++ c :: tail ∧ c ∉ seg ∧ k = i + seg.length := by
  induction l generalizing i with
  | nil => simp [mcom.indexFrom] at h
  | cons x xs ih =>
    by_cases hx : x = c
    · simp only [mcom.indexFrom, hx, if_true, Option.some.injEq] at h
      exact ⟨[], xs, by simp [hx], by simp, by simp [h]⟩
    · simp only [mcom.indexFrom, hx, if_false] at h
      obtain ⟨seg, tail, hl, hseg, hk⟩ := ih (i + 1) h
      refine ⟨x :: seg, tail, by simp [hl], ?_, by simp [hk]; omega⟩
      simp only [List.mem_cons, not_or]
      exact ⟨fun e => hx e.symm, hseg⟩

/-- The loop with enough fuel: it appends to `comps` every segment of the rest
of the string that is followed by a delimiter, and drops the last segment. -/
theorem StrSplitLoop_spec (str : List Char) (d : Char) :
    ∀ (fuel pos : Nat) (comps : List (List Char)),
      pos ≤ str.length → str.length - pos < fuel →
      mcom.StrSplitLoop str d fuel pos comps =
        comps ++ ((str.drop pos).splitOn d).dropLast := by
  intro fuel
  induction fuel with
  | zero =>
    intro pos comps _ h
    exact absurd h (Nat.not_lt_zero _)
  | succ fuel ih =>
    intro pos comps hpos hfuel
    cases hf : mcom.find_first_of str d pos with
    | none =>
      have hnot : d ∉ str.drop pos := (indexFrom_none d _ pos).1 hf
      have hsingle : (str.drop pos).splitOn d = [str.drop pos] := by
        apply List.splitOnP_eq_single
        intro x hx hxd
        rw [beq_iff_eq] at hxd
        exact hnot (hxd ▸ hx)
      simp [mcom.StrSplitLoop, hf, hsingle]
    | some dpos =>
      obtain ⟨seg, tail, hl, hseg, hk⟩ := indexFrom_some d _ pos dpos hf
      have hlen : (str.drop pos).length = seg.length + 1 + tail.length := by
        rw [hl]
        simp
        omega
      rw [List.length_drop] at hlen
      have hsub : mcom.substr str pos (dpos - pos) = seg := by
        simp [mcom.substr, hl, hk]
      have hdrop : str.drop (dpos + 1) = tail := by
        have : str.drop (dpos + 1) = (str.drop pos).drop (seg.length + 1) := by
          rw [List.drop_drop, hk]
          congr 1
        rw [this, hl]
        simp
      have hsplit : (str.drop pos).splitOn d = seg :: tail.splitOn d := by
        rw [hl]
        apply List.splitOnP_first
        · intro x hx hxd
          rw [beq_iff_eq] at hxd
          exact hseg (hxd ▸ hx)
        · simp
      have hne : tail.splitOn d ≠ [] := List.splitOnP_ne_nil _ _
      simp only [mcom.StrSplitLoop, hf]
      rw [ih (dpos + 1) _ (by omega) (by omega), hsub, hdrop, hsplit,
        List.dropLast_cons_of_ne_nil hne]
      simp

theorem length_splitOnP (p : Char → Bool) (l : List Char) :
    (l.splitOnP p).length = l.countP p + 1 := by
  induction l with
  | nil => simp
  | cons x xs ih =>
    rw [List.splitOnP_cons]
    by_cases hx : p x = true
    · simp [hx, ih]
    · simp [hx, ih, List.length_modifyHead]

/-- C30, as the code behaves: the loop of StrSplit ends when no further
delimiter is found and the function returns without adding the text after the
last delimiter. For every string and delimiter the result is the list of the
maximal delimiter-free segments without its last element, so its length is the
number of occurrences of the delimiter (not one more), any larger fuel gives
the same result, and, while joining all the segments with the delimiter gives
back the string, the result for "a,b" and ',' is ["a"], whose join is "a". -/
theorem StrSplit_drops_last_segment (str : List Char) (d : Char) :
    mcom.StrSplit str d = (str.splitOn d).dropLast ∧
    (mcom.StrSplit str d).length = str.count d ∧
    (∀ fuel, str.length < fuel →
      mcom.StrSplitLoop str d fuel 0 [] = mcom.StrSplit str d) ∧
    [d].intercalate (str.splitOn d) = str ∧
    mcom.StrSplit ['a', ',', 'b'] ',' = [['a']] ∧
    [','].intercalate (mcom.StrSplit ['a', ',', 'b'] ',') = ['a'] := by
  have hspec : ∀ fuel, str.length < fuel →
      mcom.StrSplitLoop str d fuel 0 [] = (str.splitOn d).dropLast := by
    intro fuel hfuel
    rw [StrSplitLoop_spec str d fuel 0 [] (Nat.zero_le _) (by simpa using hfuel)]
    simp
  have hmain : mcom.StrSplit str d = (str.splitOn d).dropLast :=
    hspec (str.length + 1) (Nat.lt_succ_self _)
  refine ⟨hmain, ?_, fun fuel hfuel => by rw [hspec fuel hfuel, hmain],
    List.intercalate_splitOn _ d, by rfl, by rfl⟩
  rw [hmain, List.length_dropLast, List.splitOn, length_splitOnP]
  simp [List.count]

/-! ### The wire form of strings -/

theorem land_shiftLeft (x m k : Nat) : x &&& (m <<< k) = ((x >>> k) &&& m) <<< k := by
  apply Nat.eq_of_testBit_eq
  intro i
  simp only [Nat.testBit_and, Nat.testBit_shiftLeft, Nat.testBit_shiftRight]
  by_cases h : k ≤ i
  · simp [h, Nat.add_sub_cancel' h]
  · simp [h]

theorem land_clear_low (x : Nat) (hx : x < 2 ^ 64) : x &&& (2 ^ 64 - 4) = x / 4 * 4 := by
  have h1 : (2 ^ 64 - 4 : Nat) = (2 ^ 62 - 1) <<< 2 := by
    rw [Nat.shiftLeft_eq]
    norm_num
  rw [h1, land_shiftLeft, Nat.and_pow_two_sub_one_eq_mod, Nat.shiftRight_eq_div_pow,
    Nat.shiftLeft_eq]
  have : x / 2 ^ 2 < 2 ^ 62 := by
    rw [Nat.div_lt_iff_lt_mul (by norm_num)]
    calc x < 2 ^ 64 := hx
      _ = 2 ^ 62 * 2 ^ 2 := by norm_num
  rw [Nat.mod_eq_of_lt this]
  norm_num

/-- The value of `Align` when `size + 3` does not overflow. -/
theorem Align_eq (size : Nat) (h : size + 3 < 2 ^ 64) :
    mach.Align size = (size + 3) / 4 * 4 := by
  unfold mach.Align
  rw [Nat.mod_eq_of_lt h, land_clear_low _ h]

theorem Align_four : mach.Align 4 = 4 := by
  rw [Align_eq 4 (by norm_num)]

theorem Align_bounds (size : Nat) (h : size + 3 < 2 ^ 64) :
    size ≤ mach.Align size ∧ mach.Align size < size + 4 ∧ mach.Align size % 4 = 0 := by
  rw [Align_eq size h]
  omega

theorem int32Bytes_length (value : Int) : (mach.int32Bytes value).length = 4 := rfl

theorem toInt32_small (n : Nat) (h : n < 2 ^ 31) : mach.toInt32 n = (n : Int) := by
  have h32 : n % 2 ^ 32 = n := Nat.mod_eq_of_lt (by omega)
  simp only [mach.toInt32, h32, h, if_true]

/-- What `EncodeString` appends to the buffer. -/
theorem EncodeString_buffer (e : mach.Encoder) (str : List Nat) :
    (e.EncodeString str).buffer_ =
      e.buffer_ ++ (mach.int32Bytes (mach.toInt32 str.length) ++ str ++
        List.replicate (mach.Align str.length - str.length) 0) := by
  simp [mach.Encoder.EncodeString, mach.Encoder.EncodeInt32, mach.Encoder.AddBytes,
    int32Bytes_length, Align_four]

theorem EncodeStrings_buffer :
    ∀ (strs : List (List Nat)) (e : mach.Encoder),
      (mach.EncodeStrings e strs).buffer_ =
        e.buffer_ ++ (strs.map (fun str =>
          mach.int32Bytes (mach.toInt32 str.length) ++ str ++
            List.replicate (mach.Align str.length - str.length) 0)).flatten := by
  intro strs
  induction strs with
  | nil =>
    intro e
    simp [mach.EncodeStrings]
  | cons s rest ih =>
    intro e
    have hstep : mach.EncodeStrings e (s :: rest) = mach.EncodeStrings (e.EncodeString s) rest :=
      rfl
    rw [hstep, ih, EncodeString_buffer]
    simp

theorem readInt32_int32Bytes (n : Nat) (h : n < 2 ^ 31) (pre post : List Nat) :
    mach.Decoder.readInt32 (pre ++ (mach.int32Bytes (n : Int) ++ post)) pre.length =
      some (n : Int) := by
  have hu : ((n : Int) % 2 ^ 32).toNat = n := by
    have : ((n : Int) % 2 ^ 32) = ((n % 2 ^ 32 : Nat) : Int) := by norm_cast
    rw [this, Int.toNat_ofNat]
    exact Nat.mod_eq_of_lt (by omega)
  simp only [mach.Decoder.readInt32, List.drop_left, mach.int32Bytes, hu, List.cons_append,
    List.nil_append]
  have hsum : n % 256 + 256 * (n / 256 % 256) + 65536 * (n / 65536 % 256) +
      16777216 * (n / 16777216 % 256) = n := by omega
  rw [hsum]
  have h31 : n < 2147483648 := by omega
  simp [h31]

theorem toSize_ofNat (n : Nat) (h : n < 2 ^ 31) : mach.toSize (n : Int) = n := by
  unfold mach.toSize
  have : ((n : Int) % 2 ^ 64) = ((n % 2 ^ 64 : Nat) : Int) := by norm_cast
  rw [this, Int.toNat_ofNat]
  exact Nat.mod_eq_of_lt (by omega)

/-- Decoding one string from the place where its wire form starts. -/
theorem DecodeString_wire (d : mach.Decoder) (pre post str : List Nat)
    (hlen : str.length < 2 ^ 31)
    (hmem : d.memory = pre ++ ((mach.Encoder.init.EncodeString str).buffer_ ++ post))
    (haddr : d.address_ = pre.length) :
    d.DecodeString =
      some (str, { memory := d.memory,
                   address_ := pre.length + (mach.Encoder.init.EncodeString str).buffer_.length }) := by
  have hbounds := Align_bounds str.length (by omega)
  have hwire : (mach.Encoder.init.EncodeString str).buffer_ =
      mach.int32Bytes ((str.length : Nat) : Int) ++
        (str ++ List.replicate (mach.Align str.length - str.length) 0) := by
    rw [EncodeString_buffer, toInt32_small _ hlen]
    simp [mach.Encoder.init]
  have hwl : (mach.Encoder.init.EncodeString str).buffer_.length = 4 + mach.Align str.length := by
    rw [hwire]
    simp [int32Bytes_length]
    omega
  rw [hwire] at hmem
  have hread : mach.Decoder.readInt32 d.memory pre.length = some ((str.length : Nat) : Int) := by
    rw [hmem, List.append_assoc]
    exact readInt32_int32Bytes _ hlen _ _
  have hdrop : d.memory.drop (pre.length + 4) =
      str ++ (List.replicate (mach.Align str.length - str.length) 0 ++ post) := by
    rw [hmem, ← List.drop_drop, List.drop_left]
    have h4 : (mach.int32Bytes ((str.length : Nat) : Int)).length = 4 := rfl
    rw [List.append_assoc, ← h4, List.drop_left, List.append_assoc]
  have hmemlen : pre.length + 4 + str.length ≤ d.memory.length := by
    rw [hmem]
    simp [int32Bytes_length]
    omega
  simp only [mach.Decoder.DecodeString, mach.Decoder.DecodeInt32, mach.Decoder.DecodeBytes,
    haddr, hread, Align_four, toSize_ofNat _ hlen, hmemlen, if_true, hdrop,
    List.take_left, hwl]
  simp [Nat.add_assoc]

theorem DecodeStrings_wire :
    ∀ (strs : List (List Nat)) (d : mach.Decoder) (pre post : List Nat),
      (∀ str ∈ strs, str.length < 2 ^ 31) →
      d.memory = pre ++ ((mach.EncodeStrings mach.Encoder.init strs).buffer_ ++ post) →
      d.address_ = pre.length →
      mach.DecodeStrings strs.length d =
        some (strs, { memory := d.memory,
                      address_ := pre.length +
                        (mach.EncodeStrings mach.Encoder.init strs).buffer_.length }) := by
  intro strs
  induction strs with
  | nil =>
    intro d pre post _ _ haddr
    simp [mach.DecodeStrings, mach.EncodeStrings, mach.Encoder.init, ← haddr]
  | cons s rest ih =>
    intro d pre post hall hmem haddr
    have hsplit : (mach.EncodeStrings mach.Encoder.init (s :: rest)).buffer_ =
        (mach.Encoder.init.EncodeString s).buffer_ ++
          (mach.EncodeStrings mach.Encoder.init rest).buffer_ := by
      rw [EncodeStrings_buffer, EncodeStrings_buffer, EncodeString_buffer]
      simp [mach.Encoder.init]
    rw [hsplit] at hmem
    have hone := DecodeString_wire d pre
      ((mach.EncodeStrings mach.Encoder.init rest).buffer_ ++ post) s
      (hall s (List.mem_cons_self _ _)) (by rw [hmem, List.append_assoc]) haddr
    have hrest := ih
      { memory := d.memory,
        address_ := pre.length + (mach.Encoder.init.EncodeString s).buffer_.length }
      (pre ++ (mach.Encoder.init.EncodeString s).buffer_) post
      (fun str hstr => hall str (List.mem_cons_of_mem _ hstr))
      (by simp [hmem]) (by simp)
    simp only [List.length_cons, mach.DecodeStrings, hone, hrest, hsplit, List.length_append]
    simp [Nat.add_assoc]

theorem EncodeStrings_length :
    ∀ (strs : List (List Nat)), (∀ str ∈ strs, str.length < 2 ^ 31) →
      (mach.EncodeStrings mach.Encoder.init strs).buffer_.length =
        (strs.map (fun str => 4 + mach.Align str.length)).sum := by
  intro strs
  induction strs with
  | nil =>
    intro _
    rfl
  | cons s rest ih =>
    intro hall
    have hs := hall s (List.mem_cons_self _ _)
    have hb := Align_bounds s.length (by omega)
    have hsplit : (mach.EncodeStrings mach.Encoder.init (s :: rest)).buffer_ =
        (mach.Encoder.init.EncodeString s).buffer_ ++
          (mach.EncodeStrings mach.Encoder.init rest).buffer_ := by
      rw [EncodeStrings_buffer, EncodeStrings_buffer, EncodeString_buffer]
      simp [mach.Encoder.init]
    rw [hsplit, List.length_append, ih (fun str hstr => hall str (List.mem_cons_of_mem _ hstr)),
      EncodeString_buffer]
    simp [mach.Encoder.init, int32Bytes_length]
    omega

theorem sum_multiple_of_four (strs : List (List Nat))
    (h : ∀ str ∈ strs, str.length < 2 ^ 31) :
    (strs.map (fun str => 4 + mach.Align str.length)).sum % 4 = 0 := by
  induction strs with
  | nil => rfl
  | cons s rest ih =>
    have hb := Align_bounds s.length (by have := h s (List.mem_cons_self _ _); omega)
    have hr := ih (fun str hstr => h str (List.mem_cons_of_mem _ hstr))
    simp only [List.map_cons, List.sum_cons]
    omega

/-- C29: wire string round trip. For every sequence of strings each shorter
than 2^31 bytes, encoding them in order with EncodeString on a new encoder and
then calling DecodeString as many times on the resulting buffer returns the
same strings in the same order. The buffer length is a multiple of 4 and is the
sum of the sizes `4 + ((len + 3) & ~3)` of the strings; `(len + 3) & ~3` is
`len + 3` rounded down to a multiple of 4, and EncodeString appends exactly
that many bytes after the 4 bytes of the length. -/
theorem wire_string_round_trip (strs : List (List Nat))
    (h : ∀ str ∈ strs, str.length < 2 ^ 31) :
    (mach.DecodeStrings strs.length
        { memory := (mach.EncodeStrings mach.Encoder.init strs).buffer_,
          address_ := 0 }).map Prod.fst = some strs ∧
    (mach.EncodeStrings mach.Encoder.init strs).buffer_.length % 4 = 0 ∧
    (mach.EncodeStrings mach.Encoder.init strs).buffer_.length =
      (strs.map (fun str => 4 + mach.Align str.length)).sum ∧
    ∀ str ∈ strs,
      mach.Align str.length = (str.length + 3) / 4 * 4 ∧
      ∀ e : mach.Encoder,
        (e.EncodeString str).buffer_.length = e.buffer_.length + (4 + mach.Align str.length) := by
  refine ⟨?_, ?_, EncodeStrings_length strs h, fun str hstr => ⟨?_, fun e => ?_⟩⟩
  · have hdec := DecodeStrings_wire strs
      { memory := (mach.EncodeStrings mach.Encoder.init strs).buffer_, address_ := 0 }
      [] [] h (by simp) rfl
    rw [hdec]
    rfl
  · rw [EncodeStrings_length strs h]
    exact sum_multiple_of_four strs h
  · exact Align_eq _ (by have := h str hstr; omega)
  · have hb := Align_bounds str.length (by have := h str hstr; omega)
    rw [EncodeString_buffer]
    simp [int32Bytes_length]
    omega

theorem wire_string_round_trip_witness :
    (∀ str ∈ [[104, 105], [], [97, 98, 99, 100, 101]], str.length < 2 ^ 31) ∧
    (mach.EncodeStrings mach.Encoder.init [[104, 105], [], [97, 98, 99, 100, 101]]).buffer_ =
      [2, 0, 0, 0, 104, 105, 0, 0, 0, 0, 0, 0, 5, 0, 0, 0, 97, 98, 99, 100, 101, 0, 0, 0] ∧
    (mach.DecodeStrings 3
        { memory := (mach.EncodeStrings mach.Encoder.init
            [[104, 105], [], [97, 98, 99, 100, 101]]).buffer_,
          address_ := 0 }).map Prod.fst = some [[104, 105], [], [97, 98, 99, 100, 101]] :=
  have hlen : ∀ str ∈ [[104, 105], [], [97, 98, 99, 100, 101]], str.length < 2 ^ 31 := by
    decide
  ⟨hlen, by rfl, (wire_string_round_trip [[104, 105], [], [97, 98, 99, 100, 101]] hlen).1⟩

end nf
